import Mathlib

/-!
Verification development for the HTML content preservation utilities of the
deeplx repository (`src/lib/htmlUtils.ts`).

Texts are modelled as `List Char` (JavaScript strings are sequences of UTF-16
code units; every character appearing in this development lies in the Basic
Multilingual Plane, so one code unit corresponds to one `Char`).

The three regular expressions of `HTML_PATTERNS` and the `SAFE_TAGS` pattern
are embedded as deterministic matchers.  Each of them is backtracking-free in
the sense that greedy matching with the JavaScript backtracking semantics
coincides with maximal-munch reading, which the definitions below implement;
the correspondence is argued pattern by pattern in the comments.
-/

namespace HtmlUtils

/-- Convert a string literal to the `List Char` representation used throughout. -/
def str (s : String) : List Char := s.data

/-- ASCII letter, the class `[a-zA-Z]`. -/
def isAsciiLetter (c : Char) : Bool :=
  ('a' ≤ c && c ≤ 'z') || ('A' ≤ c && c ≤ 'Z')

/-- ASCII digit, the class `[0-9]` (`\d` in the entity pattern). -/
def isAsciiDigit (c : Char) : Bool := '0' ≤ c && c ≤ '9'

/-- The class `[a-zA-Z0-9]`. -/
def isAlnumC (c : Char) : Bool := isAsciiLetter c || isAsciiDigit c

/-- The class `[0-9a-fA-F]`. -/
def isHexDig (c : Char) : Bool :=
  isAsciiDigit c || ('a' ≤ c && c ≤ 'f') || ('A' ≤ c && c ≤ 'F')

/-- JavaScript `\s`: WhiteSpace and LineTerminator code points (ECMA-262). -/
def isJsWs (c : Char) : Bool :=
  let n := c.toNat
  n = 9 || n = 10 || n = 11 || n = 12 || n = 13 || n = 32 ||
  n = 0xa0 || n = 0x1680 || (0x2000 <= n && n <= 0x200a) ||
  n = 0x2028 || n = 0x2029 || n = 0x202f || n = 0x205f || n = 0x3000 || n = 0xfeff

/-!
## The Tag pattern

`HTML_PATTERNS.TAGS = /<\/?[a-zA-Z][a-zA-Z0-9]*(?:\s+[^>]*)?>/g`
(htmlUtils.ts line 11).

Matching at a position is deterministic: after `<`, an optional `/`, one
ASCII letter and a greedy run of `[a-zA-Z0-9]`, the optional group
`(?:\s+[^>]*)?` can contribute only when the next character is whitespace
(the run is maximal, so the next character is not alphanumeric, and
whitespace and alphanumerics are disjoint); in that case `[^>]*` being
greedy, the terminating `>` is the first `>` after the whitespace character
(additional whitespace is absorbed by `[^>]*`).  Backtracking can never turn
this failure into success, because shortening any of the greedy runs leaves
the follow-up character unable to match.
-/

/-- Remainder after the first `>` of the list, the reading of `[^>]*>`. -/
def findAfterGt : List Char → Option (List Char)
  | [] => none
  | c :: r => if c = '>' then some r else findAfterGt r

/-- Reading of the tag pattern after the name run: either `>` directly or one
whitespace character followed by everything up to the first `>`. -/
def tagClose : List Char → Option (List Char)
  | [] => none
  | c :: r => if c = '>' then some r else if isJsWs c then findAfterGt r else none

/-- Consume an optional leading `/` (the `\/?` of the tag pattern). -/
def afterSlash : List Char → List Char
  | [] => []
  | c :: r => if c = '/' then r else c :: r

/-- Reading of the tag pattern after the initial `<`; returns the rest of the
text after a successful match. -/
def tagEnd (s1 : List Char) : Option (List Char) :=
  match afterSlash s1 with
  | [] => none
  | c :: s3 => if isAsciiLetter c then tagClose (s3.dropWhile isAlnumC) else none

/-- Attempt to match `HTML_PATTERNS.TAGS` at the start of `s`; on success
returns the matched substring and the rest. -/
def matchTagAt (s : List Char) : Option (List Char × List Char) :=
  match s with
  | [] => none
  | c :: s1 =>
    if c = '<' then (tagEnd s1).map fun r => (s.take (s.length - r.length), r)
    else none

/-!
## The Entity pattern

`HTML_PATTERNS.ENTITIES = /&(?:[a-zA-Z][a-zA-Z0-9]*|#(?:\d+|x[0-9a-fA-F]+));/g`
(htmlUtils.ts line 13).  After `&`, the branch is determined by the next
character (letter, or `#` followed by a digit or by a literal `x`), and each
greedy run is followed by the mandatory `;`, so matching is again
deterministic maximal munch.
-/

/-- The mandatory terminating `;` of the entity pattern. -/
def semiAfter : List Char → Option (List Char)
  | [] => none
  | c :: r => if c = ';' then some r else none

/-- Reading of the entity pattern after the initial `&`. -/
def entEnd : List Char → Option (List Char)
  | [] => none
  | c :: s2 =>
    if isAsciiLetter c then semiAfter (s2.dropWhile isAlnumC)
    else if c = '#' then
      match s2 with
      | [] => none
      | d :: s3 =>
        if isAsciiDigit d then semiAfter (s3.dropWhile isAsciiDigit)
        else if d = 'x' then
          match s3 with
          | [] => none
          | h :: s4 => if isHexDig h then semiAfter (s4.dropWhile isHexDig) else none
        else none
    else none

/-- Attempt to match `HTML_PATTERNS.ENTITIES` at the start of `s`. -/
def matchEntAt (s : List Char) : Option (List Char × List Char) :=
  match s with
  | [] => none
  | c :: s1 =>
    if c = '&' then (entEnd s1).map fun r => (s.take (s.length - r.length), r)
    else none

/-- Attempt to match the colon pattern `/:/g` (htmlUtils.ts line 79) at the
start of `s`. -/
def matchColonAt (s : List Char) : Option (List Char × List Char) :=
  match s with
  | [] => none
  | c :: r => if c = ':' then some ([':'], r) else none

/-!
## Placeholders and the preservation record

`PLACEHOLDER_PREFIX` and `PLACEHOLDER_SUFFIX` are both the string `"ĦĐŁXĦ"`
(htmlUtils.ts lines 22-23); `phMark` is that shared delimiter string.  A
placeholder is `prefix + counter.toString().padStart(3, "0") + suffix`
(`createPlaceholder`, lines 39-50).
-/

/-- The placeholder delimiter string `"ĦĐŁXĦ"`, used as both the prefix and
the suffix of every placeholder. -/
def phMark : List Char := str "ĦĐŁXĦ"

/-- The decimal digit character of `n < 10`. -/
def digitChar (n : Nat) : Char := Char.ofNat (48 + n)

/-- Fuelled implementation of the decimal representation. -/
def natDigitsF : Nat → Nat → List Char
  | 0, n => [digitChar (n % 10)]
  | fuel + 1, n =>
    if n < 10 then [digitChar n] else natDigitsF fuel (n / 10) ++ [digitChar (n % 10)]

/-- Decimal representation of a natural number, `counter.toString()`. -/
def natDigits (n : Nat) : List Char := natDigitsF n n

/-- `String.prototype.padStart(3, "0")`. -/
def pad3 (s : List Char) : List Char :=
  if s.length < 3 then List.replicate (3 - s.length) '0' ++ s else s

/-- The placeholder minted for counter value `n`. -/
def tokenOf (n : Nat) : List Char := phMark ++ pad3 (natDigits n) ++ phMark

/-- The `PreservedContent` record: a `Map` from placeholder to original
content and a counter.  `Map.set` with always-fresh keys appends in insertion
order, so the map is modelled as an association list in insertion order. -/
structure Preserved where
  placeholders : List (List Char × List Char)
  counter : Nat
deriving DecidableEq, Repr

/-- The empty record created at the start of `preserveHtmlContent`. -/
def emptyPreserved : Preserved := ⟨[], 0⟩

/-- `createPlaceholder` (htmlUtils.ts lines 39-50): mint the placeholder for
the current counter, record the mapping, post-increment the counter. -/
def addPh (content : List Char) (p : Preserved) : List Char × Preserved :=
  (tokenOf p.counter, ⟨p.placeholders ++ [(tokenOf p.counter, content)], p.counter + 1⟩)

/-!
## Global replacement

`String.prototype.replace` with a `g`-flagged regex and a function
replacement: scan left to right, replace each leftmost non-overlapping match,
call the replacement function on the matches in order (here the function is
`createPlaceholder`, threading the record through).  All three patterns can
only match non-empty substrings, so a fuel of the text length suffices; the
fuel-exhausted branch is never reached.
-/

/-- One preservation pass of `preserveHtmlContent`, fuelled. -/
def runPassF (mAt : List Char → Option (List Char × List Char)) :
    Nat → List Char → Preserved → List Char × Preserved
  | 0, s, p => (s, p)
  | fuel + 1, s, p =>
    match s with
    | [] => ([], p)
    | c :: cs =>
      match mAt s with
      | some (m, r) =>
        let tp := addPh m p
        let or2 := runPassF mAt fuel r tp.2
        (tp.1 ++ or2.1, or2.2)
      | none =>
        let or2 := runPassF mAt fuel cs p
        (c :: or2.1, or2.2)

/-- One preservation pass of `preserveHtmlContent`. -/
def runPass (mAt : List Char → Option (List Char × List Char))
    (s : List Char) (p : Preserved) : List Char × Preserved :=
  runPassF mAt s.length s p

/-- `preserveHtmlContent` (htmlUtils.ts lines 58-85): replace tags, then
entities, then colons, threading one record through all three passes. -/
def preserveHtmlContent (text : List Char) : List Char × Preserved :=
  let r1 := runPass matchTagAt text emptyPreserved
  let r2 := runPass matchEntAt r1.1 r1.2
  runPass matchColonAt r2.1 r2.2

/-!
## Restoration

`restoreHtmlContent` (htmlUtils.ts lines 94-114) iterates the record entries
in insertion order and, for each `(placeholder, originalContent)`, performs
`restoredText.replace(new RegExp(escape(placeholder), "gi"), originalContent)`.
The escaping makes the regex match the placeholder literally; the `i` flag
makes the match case-insensitive.  `ciEq` models the canonicalisation of the
`i` flag (without the `u` flag): characters are compared by `toUpperCase`,
except that a non-ASCII character whose upper case is ASCII is not folded.
`jsUpper` implements this for ASCII and for the delimiter letters `ħ`, `đ`,
`ł` (the only non-ASCII letters whose canonical form can coincide with a
placeholder character; no other code point canonicalises to `Ħ`, `Đ`, `Ł`,
to an ASCII letter or to a digit under these rules).

The replacement is a *string*, so JavaScript `$`-substitution applies to it:
`$$`, `$&`, `` $` `` and `$'` are expanded (the pattern has no capture
groups, so `$n` and `$<` remain literal).  `subst` implements this.
-/

/-- Case canonicalisation used by the `i` flag, restricted as described above. -/
def jsUpper (c : Char) : Char :=
  if 'a' ≤ c && c ≤ 'z' then Char.ofNat (c.toNat - 32)
  else if c = 'ħ' then 'Ħ'
  else if c = 'đ' then 'Đ'
  else if c = 'ł' then 'Ł'
  else c

/-- Case-insensitive character comparison of the `i` flag. -/
def ciEq (a b : Char) : Bool := jsUpper a == jsUpper b

/-- Does `s` start with a case-insensitive occurrence of `tok`? -/
def ciStarts : List Char → List Char → Bool
  | [], _ => true
  | _ :: _, [] => false
  | a :: as, b :: bs => ciEq a b && ciStarts as bs

/-- JavaScript `GetSubstitution` for a pattern without capture groups:
expand `$$`, `$&` (the matched text), `$` followed by a backward quote (the
text before the match) and `$` followed by a straight quote (the text after
the match) in the replacement template; everything else is literal. -/
def subst (matched before after : List Char) : List Char → List Char
  | [] => []
  | c :: r =>
    if c = '$' then
      match r with
      | [] => ['$']
      | d :: r2 =>
        if d = '$' then '$' :: subst matched before after r2
        else if d = '&' then matched ++ subst matched before after r2
        else if d = Char.ofNat 96 then before ++ subst matched before after r2
        else if d = Char.ofNat 39 then after ++ subst matched before after r2
        else '$' :: subst matched before after (d :: r2)
    else c :: subst matched before after r

/-- Fuelled scan of one `replace(new RegExp(escape(tok), "gi"), orig)` call:
`pre` is the part of the subject string before the current position (needed
by `subst`). -/
def restoreGoF (tok orig : List Char) : Nat → List Char → List Char → List Char
  | 0, _, s => s
  | fuel + 1, pre, s =>
    match s with
    | [] => []
    | c :: cs =>
      if ciStarts tok s then
        subst (s.take tok.length) pre (s.drop tok.length) orig ++
          restoreGoF tok orig fuel (pre ++ s.take tok.length) (s.drop tok.length)
      else c :: restoreGoF tok orig fuel (pre ++ [c]) cs

/-- One entry of the restore loop.  Placeholders minted by `createPlaceholder`
are never empty; the guard only keeps the function total. -/
def restoreOne (tok orig s : List Char) : List Char :=
  if tok.isEmpty then s else restoreGoF tok orig s.length [] s

/-- The full-width colon character `：` repaired at the end of
`restoreHtmlContent` (line 111). -/
def fwColon : Char := '：'

/-- `restoreHtmlContent` (htmlUtils.ts lines 94-114). -/
def restoreHtmlContent (translated : List Char) (p : Preserved) : List Char :=
  let r := p.placeholders.foldl (fun acc e => restoreOne e.1 e.2 acc) translated
  r.map fun c => if c = fwColon then ':' else c

/-!
## The detector

`containsHtmlContent` (htmlUtils.ts lines 121-123) calls `.test` on the
module-level `g`-flagged patterns `HTML_PATTERNS.TAGS` and
`HTML_PATTERNS.ENTITIES`.  With the `g` flag, `.test` starts searching at the
pattern's `lastIndex` and mutates it: to the end of the match on success, to
`0` on failure.  `||` short-circuits, so the entity pattern is only exercised
when the tag pattern fails.  (`String.prototype.replace` with a `g`-flagged
regex resets `lastIndex` to `0` before and after matching, so the other
exported functions neither depend on nor leave behind a non-zero
`lastIndex`.) -/

/-- Search for the leftmost match at or after the current position; returns
the `.test` result and the new `lastIndex`. -/
def searchGo (mAt : List Char → Option (List Char × List Char)) :
    List Char → Nat → Bool × Nat
  | [], _ => (false, 0)
  | c :: cs, pos =>
    match mAt (c :: cs) with
    | some (m, _) => (true, pos + m.length)
    | none => searchGo mAt cs (pos + 1)

/-- `regex.test(s)` for a `g`-flagged regex with current `lastIndex` `li`. -/
def regexTestG (mAt : List Char → Option (List Char × List Char))
    (s : List Char) (li : Nat) : Bool × Nat :=
  searchGo mAt (s.drop li) li

/-- The `lastIndex` state of the two module-level patterns used by the
detector. -/
structure PatternsState where
  tags : Nat
  ents : Nat
deriving DecidableEq, Repr

/-- `containsHtmlContent` with the shared pattern state made explicit. -/
def containsHtmlContentSt (text : List Char) (st : PatternsState) :
    Bool × PatternsState :=
  let t1 := regexTestG matchTagAt text st.tags
  if t1.1 then (true, ⟨t1.2, st.ents⟩)
  else
    let t2 := regexTestG matchEntAt text st.ents
    (t2.1, ⟨t1.2, t2.2⟩)

/-- `containsHtmlContent` called on the initial pattern state (`lastIndex`
zero on both patterns, as at module load or after any `replace` call). -/
def containsHtmlContent (text : List Char) : Bool :=
  (containsHtmlContentSt text ⟨0, 0⟩).1

/-!
## The sanitizer

`sanitizeHtmlContent` (htmlUtils.ts lines 131-142) replaces every
`HTML_PATTERNS.TAGS` match by itself when
`SAFE_TAGS = /^<\/?(?:strong|b|em|i|u|code|pre|span|div|p|br|hr)(?:\s+[^>]*)?>/i`
accepts it and by the empty string otherwise.  `SAFE_TAGS.test` with the `^`
anchor and no `g` flag is a stateless match at position 0; ordered alternation
with backtracking accepts iff some alternative followed by the tail pattern
succeeds, which `List.any` computes. -/

/-- The safe-tag allow-list, in the source's alternation order. -/
def safeNames : List (List Char) :=
  [str "strong", str "b", str "em", str "i", str "u", str "code",
   str "pre", str "span", str "div", str "p", str "br", str "hr"]

/-- The `(?:\s+[^>]*)?>` tail of `SAFE_TAGS` applied after an alternative. -/
def safeAfter : List Char → Bool
  | [] => false
  | c :: r => c = '>' || (isJsWs c && (findAfterGt r).isSome)

/-- `SAFE_TAGS.test(match)`. -/
def safeTest (m : List Char) : Bool :=
  match m with
  | '<' :: s1 =>
    let s2 := afterSlash s1
    safeNames.any fun nm => ciStarts nm s2 && safeAfter (s2.drop nm.length)
  | _ => false

/-- Fuelled scan of the sanitizer's `replace` call. -/
def sanPassF : Nat → List Char → List Char
  | 0, s => s
  | fuel + 1, s =>
    match s with
    | [] => []
    | c :: cs =>
      match matchTagAt s with
      | some (m, r) => (if safeTest m then m else []) ++ sanPassF fuel r
      | none => c :: sanPassF fuel cs

/-- `sanitizeHtmlContent` (htmlUtils.ts lines 131-142). -/
def sanitizeHtmlContent (s : List Char) : List Char := sanPassF s.length s

/-!
## Derived decidable predicates used in the claim statements
-/

/-- Does the tag pattern match somewhere in `s`? -/
def hasTagMatch (s : List Char) : Bool :=
  s.tails.any fun t => (matchTagAt t).isSome

/-- Does the entity pattern match somewhere in `s`? -/
def hasEntMatch (s : List Char) : Bool :=
  s.tails.any fun t => (matchEntAt t).isSome

/-- Does `s` contain a protectable fragment (tag match, entity match or ASCII
colon)? -/
def hasProtectable (s : List Char) : Bool :=
  hasTagMatch s || hasEntMatch s || s.contains ':'

/-- The tag name of a tag-pattern match: the alphanumeric run after `<` and
the optional `/`. -/
def tagName (m : List Char) : List Char := (afterSlash m.tail).takeWhile isAlnumC

/-- Case-insensitive equality of two character lists (pointwise `ciEq`). -/
def ciEqL (a b : List Char) : Bool := a.length == b.length && ciStarts a b

/-- Is `name` a case-insensitive member of the safe-tag allow-list? -/
def nameAllowed (name : List Char) : Bool := safeNames.any fun nm => ciEqL nm name

/-- The characters an entity-pattern match can consist of. -/
def entChar (c : Char) : Bool := c = '&' || c = ';' || c = '#' || isAlnumC c

/-- The character an entity-pattern match starts with. -/
def isAmp (c : Char) : Bool := c = '&'

/-- The character a colon-pattern match starts with (and consists of). -/
def isColonC (c : Char) : Bool := c = ':'

/-- The characters a placeholder consists of. -/
def tokChar (c : Char) : Bool :=
  c = 'Ħ' || c = 'Đ' || c = 'Ł' || c = 'X' || isAsciiDigit c

/-- Decimal valuation of a digit string (used to invert `natDigits`). -/
def digitsVal (s : List Char) : Nat := s.foldl (fun a c => a * 10 + (c.toNat - 48)) 0

/-- The reading of the tag pattern after `<` and the optional `/`
(`tagEnd s = bodyRead (afterSlash s)` by definition; split out for the
leakage proofs). -/
def bodyRead (s : List Char) : Option (List Char) :=
  match s with
  | [] => none
  | c :: s3 => if isAsciiLetter c then tagClose (s3.dropWhile isAlnumC) else none

/-- Reading of the hexadecimal branch of the entity pattern after the literal
`&#x` (split out of `entEnd` for the leakage proofs). -/
def entHex : List Char → Option (List Char)
  | [] => none
  | e :: s4 => if isHexDig e then semiAfter (s4.dropWhile isHexDig) else none

/-- Reading of the numeric branch of the entity pattern after `&#`. -/
def entNum : List Char → Option (List Char)
  | [] => none
  | d :: s3 =>
    if isAsciiDigit d then semiAfter (s3.dropWhile isAsciiDigit)
    else if d = 'x' then entHex s3
    else none

/-- Characters that cannot interfere with the placeholder scheme: none of the
delimiter letters `Ħ ħ Đ đ Ł ł`, no ASCII digit, no `$` (expanded by the
string-replacement substitution) and no full-width colon (rewritten by
decode). -/
def cleanChar (c : Char) : Bool :=
  decide (¬c.toNat = 294 ∧ ¬c.toNat = 295 ∧ ¬c.toNat = 272 ∧ ¬c.toNat = 273 ∧
    ¬c.toNat = 321 ∧ ¬c.toNat = 322 ∧ ¬(48 ≤ c.toNat ∧ c.toNat ≤ 57) ∧
    ¬c.toNat = 36 ∧ ¬c.toNat = 65306)

/-- One fragment of an encoded text: a minted placeholder standing for an
original fragment (`disp` is the placeholder as displayed, possibly
case-mutated by a transform), or one copied character. -/
inductive Item where
  | tok (n : Nat) (disp : List Char) (o : List Char)
  | raw (c : Char)

/-- The text at restore stage `j`: the placeholders of the first `j` record
entries already replaced by their originals, the others still displayed. -/
def flatStage (j : Nat) : List Item → List Char
  | [] => []
  | Item.tok n disp o :: L => (if n < j then o else disp) ++ flatStage j L
  | Item.raw c :: L => c :: flatStage j L

/-- The fully encoded text: every placeholder displayed. -/
def flatTok (L : List Item) : List Char := flatStage 0 L

/-- The fully decoded text: every original displayed. -/
def flatOrig : List Item → List Char
  | [] => []
  | Item.tok _ _ o :: L => o ++ flatOrig L
  | Item.raw c :: L => c :: flatOrig L

def rawItems (s : List Char) : List Item := s.map Item.raw

/-- The maximal run of copied characters at the front of an item list. -/
def rawTake : List Item → List Char
  | Item.raw c :: L => c :: rawTake L
  | _ => []

def rawDrop : List Item → List Item
  | Item.raw _ :: L => rawDrop L
  | L => L

/-- Well-formedness of an item list against a record: each placeholder item
case-normalises to the key of its record entry and stands for that entry's
original fragment. -/
def ItemsOKFor (ps : List (List Char × List Char)) : List Item → Prop
  | [] => True
  | Item.tok n disp o :: L =>
      disp.map jsUpper = tokenOf n ∧ ps.get? n = some (tokenOf n, o) ∧ o ≠ [] ∧
      ItemsOKFor ps L
  | Item.raw _ :: L => ItemsOKFor ps L

/-- Every fragment of the item list is clean for the placeholder scheme. -/
def ItemsClean : List Item → Prop
  | [] => True
  | Item.tok _ _ o :: L => (∀ c ∈ o, cleanChar c = true) ∧ ItemsClean L
  | Item.raw c :: L => cleanChar c = true ∧ ItemsClean L

/-- One `replace` scan with the fuel fixed by the current subject length. -/
def restoreGo (tok orig pre s : List Char) : List Char :=
  restoreGoF tok orig s.length pre s

/-!
## Basic lemmas about the matchers
-/

theorem take_of_append (s m r : List Char) (h : s = m ++ r) :
    s.take (s.length - r.length) = m := by
  subst h
  simp [List.length_append]

theorem findAfterGt_suffix {s r : List Char} (h : findAfterGt s = some r) :
    ∃ u, s = u ++ '>' :: r ∧ ∀ c ∈ u, c ≠ '>' := by
  induction s with
  | nil => simp [findAfterGt] at h
  | cons c cs ih =>
    by_cases hc : c = '>'
    · subst hc
      simp [findAfterGt] at h
      exact ⟨[], by simp [h]⟩
    · simp only [findAfterGt, if_neg hc] at h
      obtain ⟨u, hu, hnone⟩ := ih h
      exact ⟨c :: u, by simp [hu], by simpa [hc] using hnone⟩

theorem semiAfter_suffix {s r : List Char} (h : semiAfter s = some r) :
    s = ';' :: r := by
  match s with
  | [] => simp [semiAfter] at h
  | c :: cs =>
    by_cases hc : c = ';'
    · subst hc; simpa [semiAfter] using h
    · simp [semiAfter, hc] at h

theorem tagClose_suffix {s r : List Char} (h : tagClose s = some r) :
    ∃ u, s = u ++ r := by
  match s with
  | [] => simp [tagClose] at h
  | c :: cs =>
    simp only [tagClose] at h
    split_ifs at h with h1 h2
    · exact ⟨[c], by simp_all⟩
    · obtain ⟨u, hu, _⟩ := findAfterGt_suffix h
      exact ⟨c :: u ++ ['>'], by simp [hu]⟩

theorem dropWhile_suffix (p : Char → Bool) (s : List Char) :
    ∃ u, s = u ++ s.dropWhile p ∧ ∀ c ∈ u, p c = true :=
  ⟨s.takeWhile p, (List.takeWhile_append_dropWhile p s).symm,
    fun _ hc => List.mem_takeWhile_imp hc⟩

theorem afterSlash_suffix (s : List Char) : ∃ v, s = v ++ afterSlash s := by
  match s with
  | [] => exact ⟨[], rfl⟩
  | c :: r =>
    by_cases hc : c = '/'
    · exact ⟨[c], by simp [afterSlash, hc]⟩
    · exact ⟨[], by simp [afterSlash, hc]⟩

theorem tagEnd_suffix {s r : List Char} (h : tagEnd s = some r) :
    ∃ u, s = u ++ r := by
  obtain ⟨v, hv⟩ := afterSlash_suffix s
  unfold tagEnd at h
  split at h
  · simp at h
  · rename_i c s3 h2
    rw [h2] at hv
    split_ifs at h with hlet
    obtain ⟨u, hu⟩ := tagClose_suffix h
    obtain ⟨w, hw, _⟩ := dropWhile_suffix isAlnumC s3
    rw [hu] at hw
    exact ⟨v ++ c :: (w ++ u), by rw [hv, hw]; simp⟩

theorem matchTagAt_consumes {s m r : List Char} (h : matchTagAt s = some (m, r)) :
    s = m ++ r ∧ m ≠ [] := by
  match s with
  | [] => simp [matchTagAt] at h
  | c :: s1 =>
    simp only [matchTagAt] at h
    split_ifs at h with hc
    subst hc
    rcases hend : tagEnd s1 with _ | r'
    · rw [hend] at h; simp at h
    · rw [hend] at h
      simp only [Option.map_some', Option.some.injEq, Prod.mk.injEq] at h
      obtain ⟨hm, hr⟩ := h
      subst hr
      obtain ⟨u, hu⟩ := tagEnd_suffix hend
      have hs : '<' :: s1 = ('<' :: u) ++ r' := by simp [hu]
      have htake := take_of_append ('<' :: s1) ('<' :: u) r' hs
      rw [htake] at hm
      subst hm
      exact ⟨hs, by simp⟩

theorem entEnd_suffix {s r : List Char} (h : entEnd s = some r) :
    ∃ u, s = u ++ r := by
  match s with
  | [] => simp [entEnd] at h
  | c :: s2 =>
    simp only [entEnd] at h
    split_ifs at h with h1 h2
    · obtain ⟨w, hw, _⟩ := dropWhile_suffix isAlnumC s2
      have hsemi := semiAfter_suffix h
      rw [hsemi] at hw
      exact ⟨c :: w ++ [';'], by rw [hw]; simp⟩
    · match s2 with
      | [] => simp at h
      | d :: s3 =>
        simp only at h
        split_ifs at h with h3 h4
        · obtain ⟨w, hw, _⟩ := dropWhile_suffix isAsciiDigit s3
          have hsemi := semiAfter_suffix h
          rw [hsemi] at hw
          exact ⟨c :: d :: w ++ [';'], by rw [hw]; simp⟩
        · match s3 with
          | [] => simp at h
          | e :: s4 =>
            simp only at h
            split_ifs at h with h5
            obtain ⟨w, hw, _⟩ := dropWhile_suffix isHexDig s4
            have hsemi := semiAfter_suffix h
            rw [hsemi] at hw
            exact ⟨c :: d :: e :: w ++ [';'], by rw [hw]; simp⟩

theorem matchEntAt_consumes {s m r : List Char} (h : matchEntAt s = some (m, r)) :
    s = m ++ r ∧ m ≠ [] := by
  match s with
  | [] => simp [matchEntAt] at h
  | c :: s1 =>
    simp only [matchEntAt] at h
    split_ifs at h with hc
    subst hc
    rcases hend : entEnd s1 with _ | r'
    · rw [hend] at h; simp at h
    · rw [hend] at h
      simp only [Option.map_some', Option.some.injEq, Prod.mk.injEq] at h
      obtain ⟨hm, hr⟩ := h
      subst hr
      obtain ⟨u, hu⟩ := entEnd_suffix hend
      have hs : '&' :: s1 = ('&' :: u) ++ r' := by simp [hu]
      have htake := take_of_append ('&' :: s1) ('&' :: u) r' hs
      rw [htake] at hm
      subst hm
      exact ⟨hs, by simp⟩

theorem matchColonAt_consumes {s m r : List Char}
    (h : matchColonAt s = some (m, r)) : s = m ++ r ∧ m ≠ [] := by
  match s with
  | [] => simp [matchColonAt] at h
  | c :: cs =>
    simp only [matchColonAt] at h
    split_ifs at h with hc
    subst hc
    simp only [Option.some.injEq, Prod.mk.injEq] at h
    obtain ⟨hm, hr⟩ := h
    subst hm; subst hr
    exact ⟨rfl, by simp⟩

/-- The three matchers never match the empty text. -/
theorem matchTagAt_nil : matchTagAt [] = none := rfl

theorem matchEntAt_nil : matchEntAt [] = none := rfl

theorem matchColonAt_nil : matchColonAt [] = none := rfl

/-!
## Unfolding lemmas for the passes

`Consumes mAt` abbreviates the property that a matcher only returns matched
prefixes and that matches are non-empty; all three pattern matchers have it.
-/

def Consumes (mAt : List Char → Option (List Char × List Char)) : Prop :=
  ∀ s m r, mAt s = some (m, r) → s = m ++ r ∧ m ≠ []

theorem consumes_tag : Consumes matchTagAt := fun _ _ _ => matchTagAt_consumes

theorem consumes_ent : Consumes matchEntAt := fun _ _ _ => matchEntAt_consumes

theorem consumes_colon : Consumes matchColonAt := fun _ _ _ => matchColonAt_consumes

theorem length_rest_lt {mAt : List Char → Option (List Char × List Char)}
    (hcons : Consumes mAt) {s m r : List Char} (h : mAt s = some (m, r)) :
    r.length < s.length := by
  obtain ⟨hs, hm⟩ := hcons s m r h
  rw [hs, List.length_append]
  cases m with
  | nil => exact absurd rfl hm
  | cons a as => simp

theorem runPassF_congr {mAt : List Char → Option (List Char × List Char)}
    (hcons : Consumes mAt) (f1 : Nat) : ∀ (f2 : Nat) (s : List Char) (p : Preserved),
    s.length ≤ f1 → s.length ≤ f2 → runPassF mAt f1 s p = runPassF mAt f2 s p := by
  induction f1 with
  | zero =>
    intro f2 s p h1 _
    have : s = [] := List.length_eq_zero.mp (Nat.le_zero.mp h1)
    subst this
    cases f2 <;> simp [runPassF]
  | succ f1 ih =>
    intro f2 s p h1 h2
    cases f2 with
    | zero =>
      have : s = [] := List.length_eq_zero.mp (Nat.le_zero.mp h2)
      subst this
      simp [runPassF]
    | succ f2 =>
      cases s with
      | nil => simp [runPassF]
      | cons c cs =>
        simp only [runPassF]
        rcases hm : mAt (c :: cs) with _ | ⟨m, r⟩
        · have hlen : cs.length ≤ f1 := by simp at h1; omega
          have hlen2 : cs.length ≤ f2 := by simp at h2; omega
          simp [ih f2 cs p hlen hlen2]
        · have hr := length_rest_lt hcons hm
          have hlen : r.length ≤ f1 := by simp at h1; simp at hr; omega
          have hlen2 : r.length ≤ f2 := by simp at h2; simp at hr; omega
          simp [ih f2 r _ hlen hlen2]

theorem runPass_nil {mAt : List Char → Option (List Char × List Char)}
    (p : Preserved) : runPass mAt [] p = ([], p) := rfl

theorem runPass_cons_match {mAt : List Char → Option (List Char × List Char)}
    (hcons : Consumes mAt) {c : Char} {cs m r : List Char} {p : Preserved}
    (h : mAt (c :: cs) = some (m, r)) :
    runPass mAt (c :: cs) p =
      (tokenOf p.counter ++ (runPass mAt r (addPh m p).2).1,
       (runPass mAt r (addPh m p).2).2) := by
  have hr := length_rest_lt hcons h
  unfold runPass
  conv_lhs => rw [show (c :: cs).length = cs.length + 1 from rfl]
  simp only [runPassF, h]
  rw [runPassF_congr hcons cs.length r.length r (addPh m p).2 (by simp at hr; omega) le_rfl]
  simp [addPh]

theorem runPass_cons_none {mAt : List Char → Option (List Char × List Char)}
    {c : Char} {cs : List Char} {p : Preserved} (h : mAt (c :: cs) = none) :
    runPass mAt (c :: cs) p =
      (c :: (runPass mAt cs p).1, (runPass mAt cs p).2) := by
  unfold runPass
  conv_lhs => rw [show (c :: cs).length = cs.length + 1 from rfl]
  simp [runPassF, h]

/-- A pass over a text in which the pattern matches nowhere is the identity. -/
theorem runPass_id {mAt : List Char → Option (List Char × List Char)}
    (s : List Char) (p : Preserved)
    (h : ∀ t ∈ s.tails, mAt t = none) : runPass mAt s p = (s, p) := by
  induction s with
  | nil => rfl
  | cons c cs ih =>
    have hc : mAt (c :: cs) = none := h (c :: cs) (by simp)
    rw [runPass_cons_none hc, ih (fun t ht => h t (by rw [List.tails_cons]; simp [ht]))]

/-!
## The detector search
-/

theorem searchGo_spec {mAt : List Char → Option (List Char × List Char)}
    (h0 : mAt [] = none) (s : List Char) (pos : Nat) :
    (searchGo mAt s pos).1 = s.tails.any fun t => (mAt t).isSome := by
  induction s generalizing pos with
  | nil => simp [searchGo, h0]
  | cons c cs ih =>
    rw [List.tails_cons]
    rcases hm : mAt (c :: cs) with _ | ⟨m, r⟩
    · simp [searchGo, hm, ih (pos + 1)]
    · simp [searchGo, hm]

/-- The detector, started from the initial pattern state, reports exactly
whether the tag pattern or the entity pattern matches somewhere. -/
theorem containsHtmlContent_spec (text : List Char) :
    containsHtmlContent text = (hasTagMatch text || hasEntMatch text) := by
  unfold containsHtmlContent containsHtmlContentSt regexTestG hasTagMatch hasEntMatch
  simp only [List.drop_zero]
  rcases hb : (searchGo matchTagAt text 0).1 with _ | _
  all_goals
    rw [searchGo_spec matchTagAt_nil text 0] at hb
    simp [hb, searchGo_spec matchEntAt_nil text 0]

/-!
## Pass-through behaviour on degenerate inputs
-/

theorem option_eq_none_of_isSome_false {α : Type} {o : Option α}
    (h : o.isSome = false) : o = none := by cases o <;> simp_all

theorem tails_none_of_hasTagMatch_false {t : List Char}
    (h : hasTagMatch t = false) : ∀ u ∈ t.tails, matchTagAt u = none := by
  intro u hu
  unfold hasTagMatch at h
  rw [List.any_eq_false] at h
  exact option_eq_none_of_isSome_false (by simpa using h u hu)

theorem tails_none_of_hasEntMatch_false {t : List Char}
    (h : hasEntMatch t = false) : ∀ u ∈ t.tails, matchEntAt u = none := by
  intro u hu
  unfold hasEntMatch at h
  rw [List.any_eq_false] at h
  exact option_eq_none_of_isSome_false (by simpa using h u hu)

theorem tails_none_of_no_colon {t : List Char}
    (h : (':' ∈ t) → False) : ∀ u ∈ t.tails, matchColonAt u = none := by
  intro u hu
  match u with
  | [] => rfl
  | c :: cs =>
    have hsuf : (c :: cs) <:+ t := (List.mem_tails _ _).mp hu
    have hmem : c ∈ t := hsuf.sublist.subset (by simp)
    have hc : ¬c = ':' := fun hev => h (hev ▸ hmem)
    simp [matchColonAt, hc]

/-- Encoding a text with no protectable fragment returns it unchanged with the
empty record. -/
theorem preserve_id {t : List Char} (h : hasProtectable t = false) :
    preserveHtmlContent t = (t, emptyPreserved) := by
  unfold hasProtectable at h
  simp only [Bool.or_eq_false_iff] at h
  obtain ⟨⟨h1, h2⟩, h3⟩ := h
  have hcol : (':' ∈ t) → False := by
    intro hmem
    have hco : t.contains ':' = true := by
      unfold List.contains
      exact List.elem_iff.mpr hmem
    rw [hco] at h3
    exact absurd h3 (by simp)
  unfold preserveHtmlContent
  rw [runPass_id t emptyPreserved (tails_none_of_hasTagMatch_false h1)]
  simp only
  rw [runPass_id t emptyPreserved (tails_none_of_hasEntMatch_false h2)]
  simp only
  rw [runPass_id t emptyPreserved (tails_none_of_no_colon hcol)]

/-- Decoding with a zero-entry record only performs the full-width colon
repair, hence is the identity on texts without a full-width colon. -/
theorem restore_emptyRecord {u : List Char} (h : fwColon ∉ u) :
    restoreHtmlContent u emptyPreserved = u := by
  unfold restoreHtmlContent emptyPreserved
  simp only [List.foldl_nil]
  have : ∀ c ∈ u, (if c = fwColon then ':' else c) = id c := by
    intro c hc
    have : ¬c = fwColon := fun hev => h (hev ▸ hc)
    simp [this]
  rw [List.map_congr_left this, List.map_id]

/-- Claim C2 (amended): encode on the empty text, or on any text with no
protectable fragment, is a pass-through returning the text with the empty
record; decode with a zero-entry record is the identity on every text that
contains no full-width colon `：` (on a text with a full-width colon, decode
rewrites it to an ASCII colon even with an empty record, see the
counterexample). -/
theorem claimC2_degenerate :
    preserveHtmlContent [] = ([], emptyPreserved) ∧
    (∀ t : List Char, hasProtectable t = false →
      preserveHtmlContent t = (t, emptyPreserved)) ∧
    (∀ u : List Char, fwColon ∉ u → restoreHtmlContent u emptyPreserved = u) :=
  ⟨rfl, fun _ h => preserve_id h, fun _ h => restore_emptyRecord h⟩

/-- Witness for C2 at concrete inputs. -/
theorem claimC2_degenerate_witness :
    hasProtectable (str "no markup here") = false ∧
    preserveHtmlContent (str "no markup here") = (str "no markup here", emptyPreserved) ∧
    fwColon ∉ str "plain output" ∧
    restoreHtmlContent (str "plain output") emptyPreserved = str "plain output" :=
  ⟨by decide, claimC2_degenerate.2.1 _ (by decide), by decide,
   claimC2_degenerate.2.2 _ (by decide)⟩

/-- Counterexample to C2 as stated: decode with a record having zero entries
is not the identity on the text consisting of one full-width colon. -/
theorem claimC2_counterexample :
    restoreHtmlContent (str "：") emptyPreserved ≠ str "：" := by decide

/-- Claim C3 (code bug): the detector is not a pure predicate.  `.test` on the
module-level `g`-flagged `HTML_PATTERNS.TAGS` advances the shared `lastIndex`,
so on the input `"<b>"` the first call returns `true` and mutates the shared
pattern state, and an immediately repeated call on the same text returns
`false`. -/
theorem claimC3_detector_state :
    (containsHtmlContentSt (str "<b>") ⟨0, 0⟩).1 = true ∧
    (containsHtmlContentSt (str "<b>") ⟨0, 0⟩).2 ≠ ⟨0, 0⟩ ∧
    (containsHtmlContentSt (str "<b>")
      (containsHtmlContentSt (str "<b>") ⟨0, 0⟩).2).1 = false := by decide

/-- Claim C4: from the initial pattern state (the state at module load, and
after any of the `replace`-based operations), `containsHtmlContent text` is
`true` iff the tag pattern or the entity pattern matches somewhere in `text`;
in particular plain prose without tags and entities — even with colons —
yields `false`. -/
theorem claimC4_detector :
    (∀ text : List Char,
      containsHtmlContent text = (hasTagMatch text || hasEntMatch text)) ∧
    containsHtmlContent (str "plain prose, with a colon: but no markup") = false :=
  ⟨containsHtmlContent_spec, by decide⟩

/-- Claim C6 (amended): encoding `"<strong>A</strong>: <code>B</code>"`
substitutes exactly five tokens (four tags and one colon — not three as the
claim states), the encoded text contains no raw `<` and no raw `:`, and
decoding the unchanged encoded text with the produced record returns the
original string exactly. -/
theorem claimC6_example :
    (preserveHtmlContent (str "<strong>A</strong>: <code>B</code>")).2.placeholders.length = 5 ∧
    (preserveHtmlContent (str "<strong>A</strong>: <code>B</code>")).2.counter = 5 ∧
    '<' ∉ (preserveHtmlContent (str "<strong>A</strong>: <code>B</code>")).1 ∧
    ':' ∉ (preserveHtmlContent (str "<strong>A</strong>: <code>B</code>")).1 ∧
    restoreHtmlContent (preserveHtmlContent (str "<strong>A</strong>: <code>B</code>")).1
        (preserveHtmlContent (str "<strong>A</strong>: <code>B</code>")).2 =
      str "<strong>A</strong>: <code>B</code>" := by decide

/-- Counterexample to C6 as stated: the example input does not produce three
tokens; it produces five (`<strong>`, `</strong>`, `<code>`, `</code>` and
the colon each get their own token). -/
theorem claimC6_counterexample :
    (preserveHtmlContent (str "<strong>A</strong>: <code>B</code>")).2.placeholders.length ≠ 3 ∧
    (preserveHtmlContent (str "<strong>A</strong>: <code>B</code>")).2.placeholders.length = 5 := by
  decide

/-- Claim C10: a self-closing tag written without whitespace before the
slash, such as `<br/>` or `<script/>`, matches the tag pattern nowhere;
consequently the detector returns `false` on such texts, encode returns them
unchanged with the empty record, and the sanitizer keeps the tag verbatim
even for a name (`script`) that is not on the allow-list. -/
theorem claimC10_self_closing :
    hasTagMatch (str "<br/>") = false ∧
    hasTagMatch (str "<script/>") = false ∧
    containsHtmlContent (str "<br/>") = false ∧
    containsHtmlContent (str "a<br/>b") = false ∧
    containsHtmlContent (str "<script/>") = false ∧
    preserveHtmlContent (str "<br/>") = (str "<br/>", emptyPreserved) ∧
    preserveHtmlContent (str "a<br/>b") = (str "a<br/>b", emptyPreserved) ∧
    preserveHtmlContent (str "<script/>") = (str "<script/>", emptyPreserved) ∧
    sanitizeHtmlContent (str "<br/>") = str "<br/>" ∧
    sanitizeHtmlContent (str "<script/>") = str "<script/>" := by decide

/-!
## Character-level facts
-/

theorem char_eq_of_toNat {c : Char} (d : Char) {n : Nat} (hd : d.toNat = n)
    (h : c.toNat = n) : c = d :=
  Char.le_antisymm (show c.toNat ≤ d.toNat by omega) (show d.toNat ≤ c.toNat by omega)

theorem toNat_ofNat_valid {n : Nat} (h : n < 55296) : (Char.ofNat n).toNat = n := by
  have hv : n.isValidChar := Or.inl h
  simp [Char.ofNat, hv]
  rfl

theorem isAlnumC_toNat {c : Char} (h : isAlnumC c = true) :
    (97 ≤ c.toNat ∧ c.toNat ≤ 122) ∨ (65 ≤ c.toNat ∧ c.toNat ≤ 90) ∨
    (48 ≤ c.toNat ∧ c.toNat ≤ 57) := by
  unfold isAlnumC isAsciiLetter isAsciiDigit at h
  simp only [Bool.or_eq_true, Bool.and_eq_true, decide_eq_true_eq] at h
  rcases h with (⟨h1, h2⟩ | ⟨h1, h2⟩) | ⟨h1, h2⟩
  · exact Or.inl ⟨h1, h2⟩
  · exact Or.inr (Or.inl ⟨h1, h2⟩)
  · exact Or.inr (Or.inr ⟨h1, h2⟩)

theorem isJsWs_toNat {c : Char} (h : isJsWs c = true) :
    c.toNat = 9 ∨ c.toNat = 10 ∨ c.toNat = 11 ∨ c.toNat = 12 ∨ c.toNat = 13 ∨
    c.toNat = 32 ∨ c.toNat = 160 ∨ c.toNat = 5760 ∨
    (8192 ≤ c.toNat ∧ c.toNat ≤ 8202) ∨ c.toNat = 8232 ∨ c.toNat = 8233 ∨
    c.toNat = 8239 ∨ c.toNat = 8287 ∨ c.toNat = 12288 ∨ c.toNat = 65279 := by
  unfold isJsWs at h
  simp only [Bool.or_eq_true, Bool.and_eq_true, decide_eq_true_eq] at h
  omega

theorem isAlnumC_not_ws {c : Char} (h : isAlnumC c = true) : isJsWs c = false := by
  rcases hws : isJsWs c with _ | _
  · rfl
  · have h1 := isAlnumC_toNat h
    have h2 := isJsWs_toNat hws
    omega

theorem isAlnumC_ne_gt {c : Char} (h : isAlnumC c = true) : ¬c = '>' := by
  intro he
  subst he
  simp [isAlnumC, isAsciiLetter, isAsciiDigit] at h

theorem isAsciiLetter_ne_slash {c : Char} (h : isAsciiLetter c = true) : ¬c = '/' := by
  intro he
  subst he
  simp [isAsciiLetter] at h

theorem safeAfter_alnum_false {c : Char} {v : List Char} (h : isAlnumC c = true) :
    safeAfter (c :: v) = false := by
  unfold safeAfter
  simp [isAlnumC_ne_gt h, isAlnumC_not_ws h]

theorem jsUpper_of_lower {c : Char} (h1 : 97 ≤ c.toNat) (h2 : c.toNat ≤ 122) :
    (jsUpper c).toNat = c.toNat - 32 := by
  unfold jsUpper
  split_ifs with g1 g2 g3 g4
  · exact toNat_ofNat_valid (by omega)
  · subst g2; exact absurd (show (295 : Nat) ≤ 122 from h2) (by omega)
  · subst g3; exact absurd (show (273 : Nat) ≤ 122 from h2) (by omega)
  · subst g4; exact absurd (show (322 : Nat) ≤ 122 from h2) (by omega)
  · refine absurd ?_ g1
    simp only [Bool.and_eq_true, decide_eq_true_eq]
    exact ⟨(show 'a' ≤ c from h1), (show c ≤ 'z' from h2)⟩

theorem jsUpper_of_hbar {c : Char} (h : c.toNat = 295) : (jsUpper c).toNat = 294 := by
  have hc : c = 'ħ' := char_eq_of_toNat 'ħ' rfl h
  subst hc
  rfl

theorem jsUpper_of_dbar {c : Char} (h : c.toNat = 273) : (jsUpper c).toNat = 272 := by
  have hc : c = 'đ' := char_eq_of_toNat 'đ' rfl h
  subst hc
  rfl

theorem jsUpper_of_lbar {c : Char} (h : c.toNat = 322) : (jsUpper c).toNat = 321 := by
  have hc : c = 'ł' := char_eq_of_toNat 'ł' rfl h
  subst hc
  rfl

theorem jsUpper_other {c : Char} (h1 : ¬(97 ≤ c.toNat ∧ c.toNat ≤ 122))
    (h2 : c.toNat ≠ 295) (h3 : c.toNat ≠ 273) (h4 : c.toNat ≠ 322) :
    (jsUpper c).toNat = c.toNat := by
  unfold jsUpper
  split_ifs with g1 g2 g3 g4
  · simp only [Bool.and_eq_true, decide_eq_true_eq] at g1
    exact absurd ⟨(show 97 ≤ c.toNat from g1.1), (show c.toNat ≤ 122 from g1.2)⟩ h1
  · exact absurd (show c.toNat = 295 from congrArg Char.toNat g2) h2
  · exact absurd (show c.toNat = 273 from congrArg Char.toNat g3) h3
  · exact absurd (show c.toNat = 322 from congrArg Char.toNat g4) h4
  · rfl

/-- `jsUpper` in terms of code points. -/
theorem jsUpper_toNat (c : Char) :
    (jsUpper c).toNat =
      if 97 ≤ c.toNat ∧ c.toNat ≤ 122 then c.toNat - 32
      else if c.toNat = 295 then 294
      else if c.toNat = 273 then 272
      else if c.toNat = 322 then 321
      else c.toNat := by
  by_cases h1 : 97 ≤ c.toNat ∧ c.toNat ≤ 122
  · rw [if_pos h1, jsUpper_of_lower h1.1 h1.2]
  · rw [if_neg h1]
    by_cases h2 : c.toNat = 295
    · rw [if_pos h2, jsUpper_of_hbar h2]
    · rw [if_neg h2]
      by_cases h3 : c.toNat = 273
      · rw [if_pos h3, jsUpper_of_dbar h3]
      · rw [if_neg h3]
        by_cases h4 : c.toNat = 322
        · rw [if_pos h4, jsUpper_of_lbar h4]
        · rw [if_neg h4, jsUpper_other h1 h2 h3 h4]

theorem ciEq_iff {a b : Char} :
    ciEq a b = true ↔ (jsUpper a).toNat = (jsUpper b).toNat := by
  unfold ciEq
  constructor
  · intro h
    have := eq_of_beq h
    rw [this]
  · intro h
    have : jsUpper a = jsUpper b := char_eq_of_toNat (jsUpper b) rfl h
    rw [this]
    exact beq_self_eq_true _

theorem ciEq_lower_stop {x t : Char} (hx : 97 ≤ x.toNat ∧ x.toNat ≤ 122)
    (ht : t = '>' ∨ isJsWs t = true) : ciEq x t = false := by
  rcases hc : ciEq x t with _ | _
  · rfl
  · exfalso
    have hEq := ciEq_iff.mp hc
    rw [jsUpper_of_lower hx.1 hx.2] at hEq
    rcases ht with ht | ht
    · subst ht
      have h62 : (jsUpper '>').toNat = 62 := rfl
      rw [h62] at hEq
      omega
    · have hw := isJsWs_toNat ht
      rw [jsUpper_other (by omega) (by omega) (by omega) (by omega)] at hEq
      omega

/-!
## Structure of a tag-pattern match, and the sanitizer
-/

theorem findAfterGt_append_gt (u2 l : List Char) :
    (findAfterGt (u2 ++ '>' :: l)).isSome = true := by
  induction u2 with
  | nil => simp [findAfterGt]
  | cons c cs ih =>
    by_cases hc : c = '>'
    · simp [findAfterGt, hc]
    · simpa [findAfterGt, hc] using ih

theorem takeWhile_all_append {p : Char → Bool} {xs : List Char} (ys : List Char)
    (h : ∀ x ∈ xs, p x = true) :
    (xs ++ ys).takeWhile p = xs ++ ys.takeWhile p := by
  induction xs with
  | nil => simp
  | cons a as ih =>
    have ha : p a = true := h a (by simp)
    simp only [List.cons_append, List.takeWhile_cons, ha, if_true]
    rw [ih (fun x hx => h x (by simp [hx]))]

/-- Decompose a tag-pattern match into `<`, an optional slash, a letter-led
alphanumeric name and a tail that starts with `>` or whitespace and satisfies
the `(?:\s+[^>]*)?>` tail of `SAFE_TAGS`. -/
theorem matchTag_parts {s m r : List Char} (h : matchTagAt s = some (m, r)) :
    ∃ sl c tw tail,
      m = '<' :: (sl ++ (c :: tw) ++ tail) ∧
      (sl = [] ∨ sl = ['/']) ∧
      isAsciiLetter c = true ∧ (∀ x ∈ tw, isAlnumC x = true) ∧
      tail ≠ [] ∧ safeAfter tail = true ∧
      (∀ x, tail.head? = some x → isAlnumC x = false) := by
  match s with
  | [] => simp [matchTagAt] at h
  | c0 :: s1 =>
    simp only [matchTagAt] at h
    split_ifs at h with hc0
    subst hc0
    rcases hend : tagEnd s1 with _ | r'
    · rw [hend] at h; simp at h
    · rw [hend] at h
      simp only [Option.map_some', Option.some.injEq, Prod.mk.injEq] at h
      obtain ⟨hm, hr⟩ := h
      subst hr
      -- analyse the reading
      have hslash : (afterSlash s1 = s1 ∧ (∀ x, s1.head? = some x → ¬x = '/')) ∨
          ∃ s1', s1 = '/' :: s1' ∧ afterSlash s1 = s1' := by
        match s1 with
        | [] => exact Or.inl ⟨rfl, by simp⟩
        | a :: as =>
          by_cases ha : a = '/'
          · subst ha
            exact Or.inr ⟨as, rfl, by simp [afterSlash]⟩
          · exact Or.inl ⟨by simp [afterSlash, ha], by simp_all⟩
      unfold tagEnd at hend
      split at hend
      · simp at hend
      · rename_i c s3 hsl
        split_ifs at hend with hlet
        obtain ⟨tw, htweq⟩ : ∃ tw, s3.takeWhile isAlnumC = tw := ⟨_, rfl⟩
        have htw : ∀ x ∈ tw, isAlnumC x = true :=
          fun _ hx => List.mem_takeWhile_imp (htweq ▸ hx)
        -- identify the tail part consumed by tagClose
        have htail : ∃ tail, s3.dropWhile isAlnumC = tail ++ r' ∧ tail ≠ [] ∧
            safeAfter tail = true ∧
            (∀ x, tail.head? = some x → isAlnumC x = false) := by
          rcases hdm : s3.dropWhile isAlnumC with _ | ⟨e, d2⟩
          · rw [hdm] at hend; simp [tagClose] at hend
          · rw [hdm] at hend
            simp only [tagClose] at hend
            split_ifs at hend with he hws
            · -- direct `>`
              refine ⟨['>'], ?_, by simp, by simp [safeAfter], ?_⟩
              · subst he
                simp only [Option.some.injEq] at hend
                rw [hend]
                rfl
              · intro x hx
                simp only [List.head?_cons, Option.some.injEq] at hx
                subst hx
                simp [isAlnumC, isAsciiLetter, isAsciiDigit]
            · -- whitespace then scan to the first `>`
              obtain ⟨u2, hu2, _⟩ := findAfterGt_suffix hend
              refine ⟨e :: u2 ++ ['>'], by simp [hu2], by simp, ?_, ?_⟩
              · unfold safeAfter
                have hg : (findAfterGt (u2 ++ '>' :: ([] : List Char))).isSome = true :=
                  findAfterGt_append_gt u2 []
                simp only [List.cons_append, List.head?_cons, Bool.or_eq_true,
                  Bool.and_eq_true, decide_eq_true_eq]
                exact Or.inr ⟨hws, by simpa using hg⟩
              · intro x hx
                simp only [List.cons_append, List.head?_cons, Option.some.injEq] at hx
                subst hx
                rcases ha : isAlnumC e with _ | _
                · rfl
                · rw [isAlnumC_not_ws ha] at hws; exact absurd hws (by simp)
        obtain ⟨tail, htl, htlne, htsafe, hthead⟩ := htail
        -- reconstruct s1 and m
        have hs3 : s3 = tw ++ (tail ++ r') := by
          rw [← htweq, ← htl]
          exact (List.takeWhile_append_dropWhile isAlnumC s3).symm
        rcases hslash with ⟨heq, _⟩ | ⟨s1', h1', heq'⟩
        · -- no slash
          have hs1 : s1 = ([] ++ (c :: tw) ++ tail) ++ r' := by
            rw [← heq, hsl, hs3]
            simp
          have hfull : '<' :: s1 = ('<' :: ([] ++ (c :: tw) ++ tail)) ++ r' := by
            rw [hs1]; simp
          have := take_of_append _ _ _ hfull
          rw [this] at hm
          exact ⟨[], c, tw, tail, hm.symm, Or.inl rfl, hlet, htw,
            htlne, htsafe, hthead⟩
        · -- slash present
          have hs1 : s1 = (['/'] ++ (c :: tw) ++ tail) ++ r' := by
            rw [h1']
            have hx : s1' = (c :: tw ++ tail) ++ r' := by
              rw [← heq', hsl, hs3]
              simp
            rw [hx]
            simp
          have hfull : '<' :: s1 = ('<' :: (['/'] ++ (c :: tw) ++ tail)) ++ r' := by
            rw [hs1]; simp
          have := take_of_append _ _ _ hfull
          rw [this] at hm
          exact ⟨['/'], c, tw, tail, hm.symm, Or.inr rfl, hlet, htw,
            htlne, htsafe, hthead⟩

theorem any_congr {α : Type} {f g : α → Bool} :
    ∀ l : List α, (∀ x ∈ l, f x = g x) → l.any f = l.any g := by
  intro l h
  induction l with
  | nil => rfl
  | cons a as ih =>
    simp only [List.any_cons, h a (by simp), ih (fun x hx => h x (by simp [hx]))]

theorem ciStarts_append_of_le {nm name : List Char} (tail : List Char)
    (h : nm.length ≤ name.length) :
    ciStarts nm (name ++ tail) = ciStarts nm name := by
  induction nm generalizing name with
  | nil => simp [ciStarts]
  | cons a as ih =>
    match name with
    | [] => simp at h
    | b :: bs =>
      simp only [List.cons_append, ciStarts, List.append_eq]
      rw [ih (by simpa using h)]

theorem ciStarts_drop {nm name tail : List Char} (h : ciStarts nm (name ++ tail) = true)
    (hlen : name.length < nm.length) :
    ciStarts (nm.drop name.length) tail = true := by
  induction name generalizing nm with
  | nil => simpa using h
  | cons a as ih =>
    match nm with
    | [] => simp at hlen
    | b :: bs =>
      simp only [List.cons_append, ciStarts, Bool.and_eq_true] at h
      simpa using ih h.2 (by simpa using hlen)

/-- One alternative of `SAFE_TAGS` followed by the tail pattern succeeds on
`name ++ tail` exactly when the alternative equals the name
case-insensitively. -/
theorem alternative_point {nm name tail : List Char}
    (hlow : ∀ x ∈ nm, 97 ≤ x.toNat ∧ x.toNat ≤ 122)
    (hname : ∀ x ∈ name, isAlnumC x = true)
    (htail : tail ≠ [])
    (hsa : safeAfter tail = true)
    (hhead : ∀ x, tail.head? = some x → isAlnumC x = false) :
    (ciStarts nm (name ++ tail) && safeAfter ((name ++ tail).drop nm.length)) =
      ciEqL nm name := by
  rcases Nat.lt_trichotomy nm.length name.length with hlt | heq | hgt
  · -- shorter than the name: the follow-up lands on an alphanumeric
    have hdrop : (name ++ tail).drop nm.length = name.drop nm.length ++ tail := by
      rw [List.drop_append_of_le_length (Nat.le_of_lt hlt)]
    rcases hnd : name.drop nm.length with _ | ⟨x, xs⟩
    · have := congrArg List.length hnd
      simp at this
      omega
    · have hx : x ∈ name := by
        have : x ∈ name.drop nm.length := by rw [hnd]; simp
        exact (List.drop_sublist _ _).mem this
      have hxa := hname x hx
      rw [hdrop, hnd]
      simp only [List.cons_append, safeAfter_alnum_false hxa, Bool.and_false]
      unfold ciEqL
      have : (nm.length == name.length) = false := by
        simp only [beq_eq_false_iff_ne, ne_eq]
        omega
      rw [this, Bool.false_and]
  · -- same length as the name
    have hdrop : (name ++ tail).drop nm.length = tail := by
      rw [heq, List.drop_left]
    rw [hdrop, hsa, Bool.and_true, ciStarts_append_of_le tail (Nat.le_of_eq heq)]
    unfold ciEqL
    have : (nm.length == name.length) = true := by simp [heq]
    rw [this, Bool.true_and]
  · -- longer than the name: the comparison crosses into the tail and fails
    have hci : ciStarts nm (name ++ tail) = false := by
      rcases hc : ciStarts nm (name ++ tail) with _ | _
      · rfl
      · exfalso
        have hsplit := ciStarts_drop hc hgt
        rcases hnd : nm.drop name.length with _ | ⟨x, nm2⟩
        · have := congrArg List.length hnd
          simp at this
          omega
        · rcases htl : tail with _ | ⟨t0, ts⟩
          · exact htail htl
          · rw [hnd, htl] at hsplit
            simp only [ciStarts, Bool.and_eq_true] at hsplit
            have hx : x ∈ nm := by
              have : x ∈ nm.drop name.length := by rw [hnd]; simp
              exact (List.drop_sublist _ _).mem this
            have ht0 : t0 = '>' ∨ isJsWs t0 = true := by
              rw [htl] at hsa
              unfold safeAfter at hsa
              simp only [Bool.or_eq_true, Bool.and_eq_true, decide_eq_true_eq] at hsa
              rcases hsa with hsa | ⟨hsa, _⟩
              · exact Or.inl hsa
              · exact Or.inr hsa
            rw [ciEq_lower_stop (hlow x hx) ht0] at hsplit
            exact absurd hsplit.1 (by simp)
    rw [hci, Bool.false_and]
    unfold ciEqL
    have : (nm.length == name.length) = false := by
      simp only [beq_eq_false_iff_ne, ne_eq]
      omega
    rw [this, Bool.false_and]

/-- All allow-list alternatives are non-empty lowercase ASCII words. -/
theorem safeNames_lower :
    ∀ nm ∈ safeNames, ∀ x ∈ nm, 97 ≤ x.toNat ∧ x.toNat ≤ 122 := by decide

/-- For every tag-pattern match, `SAFE_TAGS` accepts it exactly when its tag
name is on the allow-list (case-insensitively). -/
theorem safeTest_eq_nameAllowed {s m r : List Char} (h : matchTagAt s = some (m, r)) :
    safeTest m = nameAllowed (tagName m) := by
  obtain ⟨sl, c, tw, tail, hm, hsl, hlet, htw, htlne, htsafe, hthead⟩ := matchTag_parts h
  have hcnotslash : ¬c = '/' := isAsciiLetter_ne_slash hlet
  have hcal : isAlnumC c = true := by unfold isAlnumC; rw [hlet]; rfl
  have hs2 : afterSlash (sl ++ (c :: tw) ++ tail) = (c :: tw) ++ tail := by
    rcases hsl with hsl | hsl <;> subst hsl
    · simp [afterSlash, hcnotslash]
    · simp [afterSlash]
  have hnm : tagName m = c :: tw := by
    unfold tagName
    rw [hm]
    simp only [List.tail_cons]
    rw [hs2]
    have : ((c :: tw) ++ tail).takeWhile isAlnumC = (c :: tw) ++ tail.takeWhile isAlnumC :=
      takeWhile_all_append tail (by
        intro x hx
        simp only [List.mem_cons] at hx
        rcases hx with hx | hx
        · subst hx; exact hcal
        · exact htw x hx)
    rw [this]
    rcases htl : tail with _ | ⟨t0, ts⟩
    · exact absurd htl htlne
    · have := hthead t0 (by rw [htl]; rfl)
      simp [List.takeWhile_cons, this]
  have hst : safeTest m = safeNames.any fun nm =>
      ciStarts nm ((c :: tw) ++ tail) && safeAfter (((c :: tw) ++ tail).drop nm.length) := by
    rw [hm]
    unfold safeTest
    simp only [List.tail_cons]
    rw [hs2]
  rw [hst, hnm]
  unfold nameAllowed
  apply any_congr
  intro nm hnm'
  exact alternative_point (safeNames_lower nm hnm')
    (by
      intro x hx
      simp only [List.mem_cons] at hx
      rcases hx with hx | hx
      · subst hx; exact hcal
      · exact htw x hx)
    htlne htsafe hthead

theorem sanPassF_congr (f1 : Nat) : ∀ (f2 : Nat) (s : List Char),
    s.length ≤ f1 → s.length ≤ f2 → sanPassF f1 s = sanPassF f2 s := by
  induction f1 with
  | zero =>
    intro f2 s h1 _
    have : s = [] := List.length_eq_zero.mp (Nat.le_zero.mp h1)
    subst this
    cases f2 <;> simp [sanPassF]
  | succ f1 ih =>
    intro f2 s h1 h2
    cases f2 with
    | zero =>
      have : s = [] := List.length_eq_zero.mp (Nat.le_zero.mp h2)
      subst this
      simp [sanPassF]
    | succ f2 =>
      cases s with
      | nil => simp [sanPassF]
      | cons c cs =>
        simp only [sanPassF]
        rcases hm : matchTagAt (c :: cs) with _ | ⟨m, r⟩
        · have hlen : cs.length ≤ f1 := by simp at h1; omega
          have hlen2 : cs.length ≤ f2 := by simp at h2; omega
          simp [ih f2 cs hlen hlen2]
        · have hr := length_rest_lt consumes_tag hm
          have hlen : r.length ≤ f1 := by simp at h1; simp at hr; omega
          have hlen2 : r.length ≤ f2 := by simp at h2; simp at hr; omega
          simp [ih f2 r hlen hlen2]

theorem sanitize_cons_match {c : Char} {cs m r : List Char}
    (h : matchTagAt (c :: cs) = some (m, r)) :
    sanitizeHtmlContent (c :: cs) =
      (if safeTest m then m else []) ++ sanitizeHtmlContent r := by
  have hr := length_rest_lt consumes_tag h
  unfold sanitizeHtmlContent
  conv_lhs => rw [show (c :: cs).length = cs.length + 1 from rfl]
  simp only [sanPassF, h]
  rw [sanPassF_congr cs.length r.length r (by simp at hr; omega) le_rfl]

/-- Claim C8: the sanitizer processes each tag-pattern match independently:
a match is kept verbatim (attributes included) exactly when its tag name is
on the fixed case-insensitive allow-list, and otherwise only the matched tag
is deleted — the text around it (in particular enclosed text) is processed
separately and plain characters are copied.  On the spec's example the result
keeps the enclosed `x` and `<strong>y</strong>` and contains no `script`
tag. -/
theorem claimC8_sanitizer :
    (∀ s m r : List Char, matchTagAt s = some (m, r) →
      sanitizeHtmlContent s =
        (if nameAllowed (tagName m) then m else []) ++ sanitizeHtmlContent r ∧
      (safeTest m = true ↔ nameAllowed (tagName m) = true)) ∧
    sanitizeHtmlContent (str "<script>x</script><strong>y</strong>") =
      str "x<strong>y</strong>" := by
  constructor
  · intro s m r h
    have hs := (matchTagAt_consumes h).1
    have hne := (matchTagAt_consumes h).2
    constructor
    · match s with
      | [] => simp [matchTagAt] at h
      | c :: cs =>
        rw [sanitize_cons_match h, safeTest_eq_nameAllowed h]
    · rw [safeTest_eq_nameAllowed h]
  · decide

/-- Witness for C8 at a concrete match. -/
theorem claimC8_sanitizer_witness :
    matchTagAt (str "<script>x") = some (str "<script>", str "x") ∧
    (sanitizeHtmlContent (str "<script>x") =
      (if nameAllowed (tagName (str "<script>")) then str "<script>" else []) ++
        sanitizeHtmlContent (str "x") ∧
     (safeTest (str "<script>") = true ↔ nameAllowed (tagName (str "<script>")) = true)) :=
  ⟨by decide, claimC8_sanitizer.1 _ _ _ (by decide)⟩

/-!
## Characters of matches and of placeholders
-/

theorem isHexDig_isAlnumC {c : Char} (h : isHexDig c = true) : isAlnumC c = true := by
  unfold isHexDig at h
  unfold isAlnumC isAsciiLetter
  simp only [Bool.or_eq_true, Bool.and_eq_true, decide_eq_true_eq] at *
  rcases h with (h | ⟨h1, h2⟩) | ⟨h1, h2⟩
  · exact Or.inr h
  · refine Or.inl (Or.inl ⟨h1, ?_⟩)
    have g2 : c.toNat ≤ 102 := h2
    exact show c.toNat ≤ 122 by omega
  · refine Or.inl (Or.inr ⟨h1, ?_⟩)
    have g2 : c.toNat ≤ 70 := h2
    exact show c.toNat ≤ 90 by omega

theorem isAsciiLetter_isAlnumC {c : Char} (h : isAsciiLetter c = true) :
    isAlnumC c = true := by
  unfold isAlnumC
  rw [h]
  rfl

theorem isAsciiDigit_isAlnumC {c : Char} (h : isAsciiDigit c = true) :
    isAlnumC c = true := by
  unfold isAlnumC
  rw [h]
  simp

theorem isAlnumC_entChar {c : Char} (h : isAlnumC c = true) : entChar c = true := by
  unfold entChar
  rw [h]
  simp

/-- Every character of an entity-pattern match is in the entity alphabet. -/
theorem matchEnt_chars {s m r : List Char} (h : matchEntAt s = some (m, r)) :
    ∀ c ∈ m, entChar c = true := by
  match s with
  | [] => simp [matchEntAt] at h
  | c0 :: s1 =>
    simp only [matchEntAt] at h
    split_ifs at h with hc0
    subst hc0
    rcases hend : entEnd s1 with _ | r'
    · rw [hend] at h; simp at h
    · rw [hend] at h
      simp only [Option.map_some', Option.some.injEq, Prod.mk.injEq] at h
      obtain ⟨hm, hr⟩ := h
      subst hr
      -- body of the entity and its characters
      have hbody : ∃ body, s1 = body ++ r' ∧ ∀ c ∈ body, entChar c = true := by
        match s1 with
        | [] => simp [entEnd] at hend
        | c1 :: s2 =>
          simp only [entEnd] at hend
          split_ifs at hend with h1 h2
          · -- named entity
            have hsemi := semiAfter_suffix hend
            obtain ⟨tw, htweq⟩ : ∃ tw, s2.takeWhile isAlnumC = tw := ⟨_, rfl⟩
            have htwc : ∀ x ∈ tw, isAlnumC x = true :=
              fun _ hx => List.mem_takeWhile_imp (by rw [htweq]; exact hx)
            have hs2 : s2 = tw ++ (';' :: r') := by
              rw [← htweq, ← hsemi]
              exact (List.takeWhile_append_dropWhile isAlnumC s2).symm
            refine ⟨c1 :: tw ++ [';'], by rw [hs2]; simp, ?_⟩
            intro c hc
            simp only [List.cons_append, List.mem_cons, List.mem_append,
              List.mem_singleton, List.not_mem_nil, or_false] at hc
            rcases hc with hc | hc | hc
            · subst hc; exact isAlnumC_entChar (isAsciiLetter_isAlnumC h1)
            · exact isAlnumC_entChar (htwc c hc)
            · subst hc; rfl
          · -- numeric or hex reference
            match s2 with
            | [] => simp at hend
            | d :: s3 =>
              simp only at hend
              split_ifs at hend with h3 h4
              · have hsemi := semiAfter_suffix hend
                obtain ⟨tw, htweq⟩ : ∃ tw, s3.takeWhile isAsciiDigit = tw := ⟨_, rfl⟩
                have htwc : ∀ x ∈ tw, isAsciiDigit x = true :=
                  fun _ hx => List.mem_takeWhile_imp (by rw [htweq]; exact hx)
                have hs3 : s3 = tw ++ (';' :: r') := by
                  rw [← htweq, ← hsemi]
                  exact (List.takeWhile_append_dropWhile isAsciiDigit s3).symm
                refine ⟨c1 :: d :: tw ++ [';'], by rw [hs3]; simp, ?_⟩
                intro c hc
                simp only [List.cons_append, List.mem_cons, List.mem_append,
                  List.mem_singleton, List.not_mem_nil, or_false] at hc
                rcases hc with hc | hc | hc | hc
                · subst hc; subst h2; rfl
                · subst hc; exact isAlnumC_entChar (isAsciiDigit_isAlnumC h3)
                · exact isAlnumC_entChar (isAsciiDigit_isAlnumC (htwc c hc))
                · subst hc; rfl
              · match s3 with
                | [] => simp at hend
                | e :: s4 =>
                  simp only at hend
                  split_ifs at hend with h5
                  have hsemi := semiAfter_suffix hend
                  obtain ⟨tw, htweq⟩ : ∃ tw, s4.takeWhile isHexDig = tw := ⟨_, rfl⟩
                  have htwc : ∀ x ∈ tw, isHexDig x = true :=
                    fun _ hx => List.mem_takeWhile_imp (by rw [htweq]; exact hx)
                  have hs4 : s4 = tw ++ (';' :: r') := by
                    rw [← htweq, ← hsemi]
                    exact (List.takeWhile_append_dropWhile isHexDig s4).symm
                  refine ⟨c1 :: d :: e :: tw ++ [';'], by rw [hs4]; simp, ?_⟩
                  intro c hc
                  simp only [List.cons_append, List.mem_cons, List.mem_append,
                    List.mem_singleton, List.not_mem_nil, or_false] at hc
                  rcases hc with hc | hc | hc | hc | hc
                  · subst hc; subst h2; rfl
                  · subst hc; subst h4; rfl
                  · subst hc; exact isAlnumC_entChar (isHexDig_isAlnumC h5)
                  · exact isAlnumC_entChar (isHexDig_isAlnumC (htwc c hc))
                  · subst hc; rfl
      obtain ⟨body, hb, hbc⟩ := hbody
      have hfull : '&' :: s1 = ('&' :: body) ++ r' := by rw [hb]; simp
      have := take_of_append _ _ _ hfull
      rw [this] at hm
      subst hm
      intro c hc
      simp only [List.mem_cons] at hc
      rcases hc with hc | hc
      · subst hc; rfl
      · exact hbc c hc

/-- An entity-pattern match starts with `&`. -/
theorem matchEnt_start {s m r : List Char} (h : matchEntAt s = some (m, r)) :
    ∃ cs, s = '&' :: cs ∧ isAmp '&' = true := by
  match s with
  | [] => simp [matchEntAt] at h
  | c0 :: s1 =>
    simp only [matchEntAt] at h
    split_ifs at h with hc0
    subst hc0
    exact ⟨s1, rfl, rfl⟩

theorem matchColon_start {s m r : List Char} (h : matchColonAt s = some (m, r)) :
    ∃ cs, s = ':' :: cs ∧ isColonC ':' = true := by
  match s with
  | [] => simp [matchColonAt] at h
  | c0 :: s1 =>
    simp only [matchColonAt] at h
    split_ifs at h with hc0
    subst hc0
    exact ⟨s1, rfl, rfl⟩

theorem matchColon_shape {s m r : List Char} (h : matchColonAt s = some (m, r)) :
    m = [':'] := by
  match s with
  | [] => simp [matchColonAt] at h
  | c0 :: s1 =>
    simp only [matchColonAt] at h
    split_ifs at h with hc0
    simp only [Option.some.injEq, Prod.mk.injEq] at h
    exact h.1.symm

/-- The digits of `natDigits` are ASCII digits. -/
theorem natDigitsF_digits : ∀ fuel n, ∀ c ∈ natDigitsF fuel n, isAsciiDigit c = true := by
  intro fuel
  induction fuel with
  | zero =>
    intro n c hc
    simp only [natDigitsF, List.mem_singleton] at hc
    subst hc
    unfold isAsciiDigit digitChar
    have h10 : n % 10 < 10 := Nat.mod_lt _ (by omega)
    have := toNat_ofNat_valid (show 48 + n % 10 < 55296 by omega)
    simp only [Bool.and_eq_true, decide_eq_true_eq]
    constructor
    · exact show 48 ≤ (Char.ofNat (48 + n % 10)).toNat by omega
    · exact show (Char.ofNat (48 + n % 10)).toNat ≤ 57 by omega
  | succ fuel ih =>
    intro n c hc
    simp only [natDigitsF] at hc
    split_ifs at hc with hn
    · simp only [List.mem_singleton] at hc
      subst hc
      unfold isAsciiDigit digitChar
      have := toNat_ofNat_valid (show 48 + n < 55296 by omega)
      simp only [Bool.and_eq_true, decide_eq_true_eq]
      constructor
      · exact show 48 ≤ (Char.ofNat (48 + n)).toNat by omega
      · exact show (Char.ofNat (48 + n)).toNat ≤ 57 by omega
    · simp only [List.mem_append, List.mem_singleton] at hc
      rcases hc with hc | hc
      · exact ih (n / 10) c hc
      · subst hc
        unfold isAsciiDigit digitChar
        have h10 : n % 10 < 10 := Nat.mod_lt _ (by omega)
        have := toNat_ofNat_valid (show 48 + n % 10 < 55296 by omega)
        simp only [Bool.and_eq_true, decide_eq_true_eq]
        constructor
        · exact show 48 ≤ (Char.ofNat (48 + n % 10)).toNat by omega
        · exact show (Char.ofNat (48 + n % 10)).toNat ≤ 57 by omega

theorem natDigits_digits {n : Nat} : ∀ c ∈ natDigits n, isAsciiDigit c = true :=
  natDigitsF_digits n n

/-- Every character of a placeholder is in the placeholder alphabet. -/
theorem tokenOf_chars {n : Nat} : ∀ c ∈ tokenOf n, tokChar c = true := by
  intro c hc
  unfold tokenOf phMark str at hc
  simp only [List.mem_append] at hc
  have hmark : ∀ x ∈ ("ĦĐŁXĦ" : String).data, tokChar x = true := by decide
  rcases hc with (hc | hc) | hc
  · exact hmark c hc
  · unfold pad3 at hc
    split_ifs at hc
    · simp only [List.mem_append] at hc
      rcases hc with hc | hc
      · have : c = '0' := List.eq_of_mem_replicate hc
        subst this
        rfl
      · unfold tokChar
        rw [natDigits_digits c hc]
        simp
    · unfold tokChar
      rw [natDigits_digits c hc]
      simp
  · exact hmark c hc

theorem tokChar_toNat {c : Char} (h : tokChar c = true) :
    c.toNat = 294 ∨ c.toNat = 272 ∨ c.toNat = 321 ∨ c.toNat = 88 ∨
    (48 ≤ c.toNat ∧ c.toNat ≤ 57) := by
  unfold tokChar isAsciiDigit at h
  simp only [Bool.or_eq_true, Bool.and_eq_true, decide_eq_true_eq] at h
  rcases h with (((h | h) | h) | h) | h
  · subst h; exact Or.inl rfl
  · subst h; exact Or.inr (Or.inl rfl)
  · subst h; exact Or.inr (Or.inr (Or.inl rfl))
  · subst h; exact Or.inr (Or.inr (Or.inr (Or.inl rfl)))
  · exact Or.inr (Or.inr (Or.inr (Or.inr
      ⟨show 48 ≤ c.toNat from h.1, show c.toNat ≤ 57 from h.2⟩)))

theorem tokChar_not_amp {c : Char} (h : tokChar c = true) : isAmp c = false := by
  have hn := tokChar_toNat h
  rcases hc : isAmp c with _ | _
  · rfl
  · exfalso
    unfold isAmp at hc
    simp only [decide_eq_true_eq] at hc
    subst hc
    have h38 : ('&' : Char).toNat = 38 := rfl
    rw [h38] at hn
    omega

theorem tokChar_not_colon {c : Char} (h : tokChar c = true) : isColonC c = false := by
  have hn := tokChar_toNat h
  rcases hc : isColonC c with _ | _
  · rfl
  · exfalso
    unfold isColonC at hc
    simp only [decide_eq_true_eq] at hc
    subst hc
    have h58 : (':' : Char).toNat = 58 := rfl
    rw [h58] at hn
    omega

theorem tokenOf_head (n : Nat) : ∃ rest, tokenOf n = 'Ħ' :: rest := by
  unfold tokenOf phMark str
  exact ⟨_, rfl⟩

theorem entChar_hbar : entChar 'Ħ' = false := by decide

theorem colonC_hbar : isColonC 'Ħ' = false := by decide

/-!
## Record structure of a pass
-/

theorem runPass_record {mAt : List Char → Option (List Char × List Char)}
    (hcons : Consumes mAt) :
    ∀ (n : Nat) (s : List Char) (p : Preserved), s.length ≤ n →
    ∃ news : List (List Char × List Char),
      (runPass mAt s p).2.placeholders = p.placeholders ++ news ∧
      (runPass mAt s p).2.counter = p.counter + news.length ∧
      (∀ i e, news.get? i = some e → e.1 = tokenOf (p.counter + i) ∧
        ∃ rst, mAt (e.2 ++ rst) = some (e.2, rst)) ∧
      (∀ e ∈ news, e.1 <:+: (runPass mAt s p).1) := by
  intro n
  induction n with
  | zero =>
    intro s p hlen
    have : s = [] := List.length_eq_zero.mp (Nat.le_zero.mp hlen)
    subst this
    exact ⟨[], by simp [runPass_nil], by simp [runPass_nil], by simp, by simp⟩
  | succ n ih =>
    intro s p hlen
    match s with
    | [] =>
      exact ⟨[], by simp [runPass_nil], by simp [runPass_nil], by simp, by simp⟩
    | c :: cs =>
      rcases hm : mAt (c :: cs) with _ | ⟨m, r⟩
      · obtain ⟨news, h1, h2, h3, h4⟩ := ih cs p (by simp at hlen; omega)
        refine ⟨news, ?_, ?_, h3, ?_⟩
        · rw [runPass_cons_none hm]; exact h1
        · rw [runPass_cons_none hm]; exact h2
        · intro e he
          rw [runPass_cons_none hm]
          obtain ⟨u, v, huv⟩ := h4 e he
          exact ⟨c :: u, v, by rw [← huv]; rfl⟩
      · have hsr := (hcons _ _ _ hm).1
        have hrlen := length_rest_lt hcons hm
        obtain ⟨news, h1, h2, h3, h4⟩ :=
          ih r (addPh m p).2 (by simp at hlen; simp at hrlen; omega)
        refine ⟨(tokenOf p.counter, m) :: news, ?_, ?_, ?_, ?_⟩
        · rw [runPass_cons_match hcons hm, h1]
          simp [addPh]
        · rw [runPass_cons_match hcons hm, h2]
          simp [addPh]
          omega
        · intro i e he
          match i with
          | 0 =>
            simp only [List.get?_cons_zero, Option.some.injEq] at he
            subst he
            refine ⟨by simp, r, ?_⟩
            rw [← hsr]
            exact hm
          | i + 1 =>
            simp only [List.get?_cons_succ] at he
            obtain ⟨hkey, horig⟩ := h3 i e he
            refine ⟨?_, horig⟩
            rw [hkey, show (addPh m p).2.counter = p.counter + 1 from rfl]
            congr 1
            omega
        · intro e he
          rw [runPass_cons_match hcons hm]
          simp only [List.mem_cons] at he
          rcases he with he | he
          · subst he
            exact ⟨[], (runPass mAt r (addPh m p).2).1, by simp⟩
          · obtain ⟨u, v, huv⟩ := h4 e he
            exact ⟨tokenOf p.counter ++ u, v, by rw [← huv]; simp⟩

/-!
## Survival of earlier placeholders through later passes
-/

theorem runPass_copy_pre {mAt : List Char → Option (List Char × List Char)}
    (startOK : Char → Bool)
    (hstart : ∀ s m r, mAt s = some (m, r) → ∃ c cs, s = c :: cs ∧ startOK c = true)
    (w : List Char) (hw : ∀ c ∈ w, startOK c = false) :
    ∀ v p, runPass mAt (w ++ v) p =
      (w ++ (runPass mAt v p).1, (runPass mAt v p).2) := by
  induction w with
  | nil => intro v p; simp
  | cons c w' ihw =>
    intro v p
    have hw' : ∀ x ∈ w', startOK x = false := fun x hx => hw x (by simp [hx])
    have hnone : mAt (c :: (w' ++ v)) = none := by
      rcases hmm : mAt (c :: (w' ++ v)) with _ | ⟨m, r⟩
      · rfl
      · obtain ⟨c0, cs0, heq, hok⟩ := hstart _ _ _ hmm
        have hc0 : c = c0 := by injection heq
        rw [← hc0] at hok
        rw [hw c (by simp)] at hok
        exact absurd hok (by simp)
    rw [show (c :: w') ++ v = c :: (w' ++ v) from rfl, runPass_cons_none hnone,
      ihw hw' v p]
    rfl

theorem runPass_decomp {mAt : List Char → Option (List Char × List Char)}
    (hcons : Consumes mAt) (startOK alpha : Char → Bool)
    (hstart : ∀ s m r, mAt s = some (m, r) → ∃ c cs, s = c :: cs ∧ startOK c = true)
    (halpha : ∀ s m r, mAt s = some (m, r) → ∀ c ∈ m, alpha c = true)
    (w : List Char) (hw : ∀ c ∈ w, startOK c = false)
    (hwh : ∀ c, w.head? = some c → alpha c = false) :
    ∀ (n : Nat) (s u v : List Char) (p : Preserved), s.length ≤ n →
      s = u ++ (w ++ v) →
      ∃ u' v', (runPass mAt s p).1 = u' ++ (w ++ v') := by
  intro n
  induction n with
  | zero =>
    intro s u v p hlen hseq
    have hnil : s = [] := List.length_eq_zero.mp (Nat.le_zero.mp hlen)
    subst hnil
    have : w = [] := by
      rcases List.append_eq_nil.mp hseq.symm with ⟨_, h2⟩
      exact (List.append_eq_nil.mp h2).1
    subst this
    exact ⟨[], [], by simp [runPass_nil]⟩
  | succ n ih =>
    intro s u v p hlen hseq
    match u with
    | [] =>
      simp only [List.nil_append] at hseq
      subst hseq
      rw [runPass_copy_pre startOK hstart w hw v p]
      exact ⟨[], (runPass mAt v p).1, by simp⟩
    | uc :: u₂ =>
      match s with
      | [] => simp at hseq
      | c :: cs =>
        have hseq' : c :: cs = uc :: (u₂ ++ (w ++ v)) := hseq
        have hcuc : c = uc := by injection hseq'
        have hcs : cs = u₂ ++ (w ++ v) := by injection hseq'
        rcases hm : mAt (c :: cs) with _ | ⟨m, r⟩
        · obtain ⟨u', v', h'⟩ := ih cs u₂ v p (by simp at hlen; omega) hcs
          rw [runPass_cons_none hm]
          exact ⟨c :: u', v', by simp [h']⟩
        · have hsr := (hcons _ _ _ hm).1
          by_cases hml : m.length ≤ (uc :: u₂).length
          · -- the match lies inside `u`
            have hpm : m <+: (c :: cs) := ⟨r, hsr.symm⟩
            have hpu : (uc :: u₂) <+: (c :: cs) := ⟨w ++ v, by rw [hseq']; simp⟩
            have hmu : m <+: (uc :: u₂) :=
              List.prefix_of_prefix_length_le hpm hpu hml
            obtain ⟨u₃, hu₃⟩ := hmu
            have hr : r = u₃ ++ (w ++ v) := by
              have hmr : m ++ r = m ++ (u₃ ++ (w ++ v)) := by
                rw [← hsr, hseq']
                rw [show m ++ (u₃ ++ (w ++ v)) = (m ++ u₃) ++ (w ++ v) from by simp]
                rw [hu₃]
                simp
              exact List.append_cancel_left hmr
            have hrlen := length_rest_lt hcons hm
            obtain ⟨u', v', h'⟩ :=
              ih r u₃ v (addPh m p).2 (by simp at hlen; simp at hrlen; omega) hr
            rw [runPass_cons_match hcons hm]
            exact ⟨tokenOf p.counter ++ u', v', by simp [h']⟩
          · -- the match would swallow the head of `w`: impossible
            by_cases hwnil : w = []
            · subst hwnil
              exact ⟨(runPass mAt (c :: cs) p).1, [], by simp⟩
            · exfalso
              obtain ⟨wc, w₂, hwc⟩ : ∃ wc w₂, w = wc :: w₂ := by
                match w, hwnil with
                | wc :: w₂, _ => exact ⟨wc, w₂, rfl⟩
              have hidx : (c :: cs).get? (uc :: u₂).length = some wc := by
                rw [hseq', hwc]
                have hlen2 : (uc :: u₂).length = (uc :: (u₂ ++ ([] : List Char))).length := by
                  simp
                rw [show uc :: (u₂ ++ (wc :: w₂ ++ v)) = (uc :: u₂) ++ (wc :: w₂ ++ v) from
                  by simp]
                rw [List.get?_append_right (by omega)]
                simp
              have hidx2 : m.get? (uc :: u₂).length = some wc := by
                rw [← @List.get?_append _ m r (uc :: u₂).length (by omega), ← hsr]
                exact hidx
              have hwcm : wc ∈ m := List.get?_mem hidx2
              have halp := halpha _ _ _ hm wc hwcm
              rw [hwh wc (by rw [hwc]; rfl)] at halp
              exact absurd halp (by simp)

/-!
## Injectivity of placeholders
-/

theorem digitsVal_append (a b : List Char) :
    digitsVal (a ++ b) = b.foldl (fun x c => x * 10 + (c.toNat - 48)) (digitsVal a) := by
  unfold digitsVal
  rw [List.foldl_append]

theorem digitChar_toNat {k : Nat} (h : k < 10) : (digitChar k).toNat = 48 + k := by
  unfold digitChar
  exact toNat_ofNat_valid (by omega)

theorem digitsVal_natDigitsF : ∀ fuel n, n ≤ fuel → digitsVal (natDigitsF fuel n) = n := by
  intro fuel
  induction fuel with
  | zero =>
    intro n hle
    have : n = 0 := Nat.le_zero.mp hle
    subst this
    unfold natDigitsF digitsVal
    simp only [List.foldl_cons, List.foldl_nil]
    rw [digitChar_toNat (by omega)]
  | succ fuel ih =>
    intro n hle
    unfold natDigitsF
    split_ifs with hn
    · unfold digitsVal
      simp only [List.foldl_cons, List.foldl_nil]
      rw [digitChar_toNat hn]
      omega
    · rw [digitsVal_append]
      have h10 : n / 10 ≤ fuel := by omega
      rw [ih (n / 10) h10]
      simp only [List.foldl_cons, List.foldl_nil]
      rw [digitChar_toNat (by omega)]
      omega

theorem digitsVal_natDigits (n : Nat) : digitsVal (natDigits n) = n :=
  digitsVal_natDigitsF n n le_rfl

theorem digitsVal_replicate_zero (k : Nat) : digitsVal (List.replicate k '0') = 0 := by
  induction k with
  | zero => rfl
  | succ k ihk =>
    unfold digitsVal at *
    simp only [List.replicate_succ, List.foldl_cons]
    have h0 : ('0' : Char).toNat = 48 := rfl
    simpa [h0] using ihk

theorem digitsVal_pad3 (s : List Char) : digitsVal (pad3 s) = digitsVal s := by
  unfold pad3
  split_ifs with h
  · rw [digitsVal_append, digitsVal_replicate_zero]
    rfl
  · rfl

theorem tokenOf_inj {a b : Nat} (h : tokenOf a = tokenOf b) : a = b := by
  unfold tokenOf at h
  have h' : phMark ++ (pad3 (natDigits a) ++ phMark) =
      phMark ++ (pad3 (natDigits b) ++ phMark) := by
    simpa [List.append_assoc] using h
  have h1 : pad3 (natDigits a) ++ phMark = pad3 (natDigits b) ++ phMark :=
    List.append_cancel_left h'
  have h2 : pad3 (natDigits a) = pad3 (natDigits b) :=
    List.append_cancel_right h1
  have := congrArg digitsVal h2
  rwa [digitsVal_pad3, digitsVal_pad3, digitsVal_natDigits, digitsVal_natDigits] at this

/-!
## Claim C9: record invariants
-/

theorem preserve_record (t : List Char) :
    ∃ n1 n2 n3 : List (List Char × List Char),
      (preserveHtmlContent t).2.placeholders = n1 ++ n2 ++ n3 ∧
      (preserveHtmlContent t).2.counter = n1.length + n2.length + n3.length ∧
      (∀ i e, (n1 ++ n2 ++ n3).get? i = some e → e.1 = tokenOf i) ∧
      (∀ e ∈ n1, ∃ rst, matchTagAt (e.2 ++ rst) = some (e.2, rst)) ∧
      (∀ e ∈ n2, ∃ rst, matchEntAt (e.2 ++ rst) = some (e.2, rst)) ∧
      (∀ e ∈ n3, e.2 = [':']) ∧
      (∀ e ∈ n1 ++ n2 ++ n3, e.1 <:+: (preserveHtmlContent t).1) := by
  obtain ⟨n1, h11, h12, h13, h14⟩ :=
    runPass_record consumes_tag t.length t emptyPreserved le_rfl
  obtain ⟨n2, h21, h22, h23, h24⟩ :=
    runPass_record consumes_ent (runPass matchTagAt t emptyPreserved).1.length
      (runPass matchTagAt t emptyPreserved).1
      (runPass matchTagAt t emptyPreserved).2 le_rfl
  obtain ⟨n3, h31, h32, h33, h34⟩ :=
    runPass_record consumes_colon _
      (runPass matchEntAt (runPass matchTagAt t emptyPreserved).1
        (runPass matchTagAt t emptyPreserved).2).1
      (runPass matchEntAt (runPass matchTagAt t emptyPreserved).1
        (runPass matchTagAt t emptyPreserved).2).2 le_rfl
  have hph : (preserveHtmlContent t).2.placeholders = n1 ++ n2 ++ n3 := by
    show (runPass matchColonAt _ _).2.placeholders = _
    rw [h31, h21, h11]
    simp [emptyPreserved]
  have hct : (preserveHtmlContent t).2.counter = n1.length + n2.length + n3.length := by
    show (runPass matchColonAt _ _).2.counter = _
    rw [h32, h22, h12]
    simp [emptyPreserved]
  have hc1 : emptyPreserved.counter = 0 := rfl
  have hc2 : (runPass matchTagAt t emptyPreserved).2.counter = n1.length := by
    rw [h12]; simp [emptyPreserved]
  have hc3 : (runPass matchEntAt (runPass matchTagAt t emptyPreserved).1
      (runPass matchTagAt t emptyPreserved).2).2.counter = n1.length + n2.length := by
    rw [h22, hc2]
  refine ⟨n1, n2, n3, hph, hct, ?_, ?_, ?_, ?_, ?_⟩
  · -- keys
    intro i e he
    by_cases hi1 : i < n1.length
    · rw [List.get?_append (by simp; omega)] at he
      rw [List.get?_append hi1] at he
      have := (h13 i e he).1
      rw [this, hc1]
      congr 1
      omega
    · by_cases hi2 : i < n1.length + n2.length
      · rw [List.get?_append (by simp; omega)] at he
        rw [List.get?_append_right (by omega)] at he
        have := (h23 (i - n1.length) e he).1
        rw [this, hc2]
        congr 1
        omega
      · rw [List.get?_append_right (by simp; omega)] at he
        have := (h33 (i - (n1 ++ n2).length) e he).1
        rw [this, hc3]
        congr 1
        simp
        omega
  · -- n1 origs are tag matches
    intro e he
    obtain ⟨i, hi⟩ := List.get_of_mem he
    have := h13 i e (by rw [List.get?_eq_get]; rw [hi])
    exact this.2
  · intro e he
    obtain ⟨i, hi⟩ := List.get_of_mem he
    have := h23 i e (by rw [List.get?_eq_get]; rw [hi])
    exact this.2
  · intro e he
    obtain ⟨i, hi⟩ := List.get_of_mem he
    obtain ⟨_, rst, hrst⟩ := h33 i e (by rw [List.get?_eq_get]; rw [hi])
    exact matchColon_shape hrst
  · -- occurrence of every placeholder in the final text
    have hkeys : ∀ i e, (n1 ++ n2 ++ n3).get? i = some e → e.1 = tokenOf i := by
      intro i e he
      by_cases hi1 : i < n1.length
      · rw [List.get?_append (by simp; omega)] at he
        rw [List.get?_append hi1] at he
        have := (h13 i e he).1
        rw [this, hc1]
        congr 1
        omega
      · by_cases hi2 : i < n1.length + n2.length
        · rw [List.get?_append (by simp; omega)] at he
          rw [List.get?_append_right (by omega)] at he
          have := (h23 (i - n1.length) e he).1
          rw [this, hc2]
          congr 1
          omega
        · rw [List.get?_append_right (by simp; omega)] at he
          have := (h33 (i - (n1 ++ n2).length) e he).1
          rw [this, hc3]
          congr 1
          simp
          omega
    intro e he
    have htokchars : ∀ c ∈ e.1, tokChar c = true := by
      obtain ⟨i, hi⟩ := List.get_of_mem he
      have hkey := hkeys i e (by rw [List.get?_eq_get]; rw [hi])
      rw [hkey]
      exact tokenOf_chars
    have hhead : ∀ c, e.1.head? = some c → c = 'Ħ' := by
      obtain ⟨i, hi⟩ := List.get_of_mem he
      have hkey := hkeys i e (by rw [List.get?_eq_get]; rw [hi])
      rw [hkey]
      obtain ⟨rest, hr⟩ := tokenOf_head i
      rw [hr]
      intro c hc
      simp only [List.head?_cons, Option.some.injEq] at hc
      exact hc.symm
    -- survival through the entity pass and the colon pass
    have hsurv_ent : e.1 <:+: (runPass matchTagAt t emptyPreserved).1 →
        e.1 <:+: (runPass matchEntAt (runPass matchTagAt t emptyPreserved).1
          (runPass matchTagAt t emptyPreserved).2).1 := by
      intro ⟨u, v, huv⟩
      obtain ⟨u', v', h'⟩ := runPass_decomp consumes_ent isAmp entChar
        (fun s m r h => by
          obtain ⟨cs, hcs, hok⟩ := matchEnt_start h
          exact ⟨'&', cs, hcs, hok⟩)
        (fun s m r h => matchEnt_chars h)
        e.1 (fun c hc => tokChar_not_amp (htokchars c hc))
        (fun c hc => by rw [hhead c hc]; exact entChar_hbar)
        (runPass matchTagAt t emptyPreserved).1.length
        (runPass matchTagAt t emptyPreserved).1 u v
        (runPass matchTagAt t emptyPreserved).2 le_rfl (by rw [← huv]; simp)
      exact ⟨u', v', by rw [h']; simp⟩
    have hsurv_col : ∀ txt p2, e.1 <:+: txt →
        e.1 <:+: (runPass matchColonAt txt p2).1 := by
      intro txt p2 ⟨u, v, huv⟩
      obtain ⟨u', v', h'⟩ := runPass_decomp consumes_colon isColonC isColonC
        (fun s m r h => by
          obtain ⟨cs, hcs, hok⟩ := matchColon_start h
          exact ⟨':', cs, hcs, hok⟩)
        (fun s m r h => by
          rw [matchColon_shape h]
          intro c hc
          simp only [List.mem_singleton] at hc
          subst hc
          rfl)
        e.1 (fun c hc => tokChar_not_colon (htokchars c hc))
        (fun c hc => by rw [hhead c hc]; exact colonC_hbar)
        txt.length txt u v p2 le_rfl (by rw [← huv]; simp)
      exact ⟨u', v', by rw [h']; simp⟩
    have hfinal : (preserveHtmlContent t).1 =
        (runPass matchColonAt (runPass matchEntAt
          (runPass matchTagAt t emptyPreserved).1
          (runPass matchTagAt t emptyPreserved).2).1
          (runPass matchEntAt (runPass matchTagAt t emptyPreserved).1
            (runPass matchTagAt t emptyPreserved).2).2).1 := rfl
    rw [hfinal]
    simp only [List.mem_append] at he
    rcases he with (he | he) | he
    · exact hsurv_col _ _ (hsurv_ent (h14 e he))
    · exact hsurv_col _ _ (h24 e he)
    · exact h34 e he

/-- Claim C9: after `encode(text)`, the record's placeholder keys are pairwise
distinct (key `i` is the placeholder of counter `i`), the insertion order is
discovery order — all tag entries first (each original a tag-pattern match),
then all entity entries (each original an entity-pattern match), then all
colon entries (each original `":"`) — and every placeholder in the record
occurs at least once in the returned processed text. -/
theorem claimC9_record_invariants (t : List Char) :
    (preserveHtmlContent t).2.counter = (preserveHtmlContent t).2.placeholders.length ∧
    (∀ i e, (preserveHtmlContent t).2.placeholders.get? i = some e → e.1 = tokenOf i) ∧
    ((preserveHtmlContent t).2.placeholders.Pairwise fun a b => a.1 ≠ b.1) ∧
    (∃ n1 n2 n3 : List (List Char × List Char),
      (preserveHtmlContent t).2.placeholders = n1 ++ n2 ++ n3 ∧
      (∀ e ∈ n1, ∃ rst, matchTagAt (e.2 ++ rst) = some (e.2, rst)) ∧
      (∀ e ∈ n2, ∃ rst, matchEntAt (e.2 ++ rst) = some (e.2, rst)) ∧
      (∀ e ∈ n3, e.2 = [':'])) ∧
    (∀ e ∈ (preserveHtmlContent t).2.placeholders, e.1 <:+: (preserveHtmlContent t).1) := by
  obtain ⟨n1, n2, n3, hph, hct, hkeys, ht1, ht2, ht3, hocc⟩ := preserve_record t
  have hkeys' : ∀ i e, (preserveHtmlContent t).2.placeholders.get? i = some e →
      e.1 = tokenOf i := by
    intro i e he
    rw [hph] at he
    exact hkeys i e he
  refine ⟨?_, hkeys', ?_, ⟨n1, n2, n3, hph, ht1, ht2, ht3⟩, ?_⟩
  · rw [hph, hct]
    simp
    omega
  · rw [List.pairwise_iff_get]
    intro i j hij
    have hi := hkeys' i.val ((preserveHtmlContent t).2.placeholders.get i)
      (List.get?_eq_get i.isLt)
    have hj := hkeys' j.val ((preserveHtmlContent t).2.placeholders.get j)
      (List.get?_eq_get j.isLt)
    rw [hi, hj]
    intro hcontra
    have heq := tokenOf_inj hcontra
    have hlt : i.val < j.val := hij
    omega
  · intro e he
    rw [hph] at he
    exact hocc e he

/-!
## No leakage: the processed text contains no tag match, no entity match and
no colon

The key invariant: every placeholder starts with `Ħ`, a character that is
not `<`, `&`, `:`, `>`, `;`, `#`, `x`, not alphanumeric and not whitespace,
so a substitution can never complete a partial pattern around it; and the
text a pass leaves behind consists of original characters that already
failed to match plus placeholder characters.
-/

theorem tokChar_facts {c : Char} (h : tokChar c = true) :
    ¬c = '<' ∧ ¬c = '>' ∧ ¬c = '&' ∧ ¬c = ';' ∧ ¬c = ':' := by
  refine ⟨?_, ?_, ?_, ?_, ?_⟩ <;> intro he <;> subst he <;> exact absurd h (by decide)

theorem semiAfter_cons (c : Char) (r : List Char) :
    semiAfter (c :: r) = if c = ';' then some r else none := rfl

theorem tagClose_cons (c : Char) (r : List Char) :
    tagClose (c :: r) =
      if c = '>' then some r else if isJsWs c then findAfterGt r else none := rfl

theorem afterSlash_cons (c : Char) (r : List Char) :
    afterSlash (c :: r) = if c = '/' then r else c :: r := rfl

theorem bodyRead_cons (c : Char) (s3 : List Char) :
    bodyRead (c :: s3) =
      if isAsciiLetter c then tagClose (s3.dropWhile isAlnumC) else none := rfl

theorem entHex_cons (e : Char) (s4 : List Char) :
    entHex (e :: s4) =
      if isHexDig e then semiAfter (s4.dropWhile isHexDig) else none := rfl

theorem entNum_cons (d : Char) (s3 : List Char) :
    entNum (d :: s3) =
      if isAsciiDigit d then semiAfter (s3.dropWhile isAsciiDigit)
      else if d = 'x' then entHex s3
      else none := rfl

/-- The nested matches of `entEnd` are exactly `entNum` and `entHex`. -/
theorem entEnd_eq (c : Char) (s2 : List Char) :
    entEnd (c :: s2) =
      if isAsciiLetter c then semiAfter (s2.dropWhile isAlnumC)
      else if c = '#' then entNum s2
      else none := by
  match s2 with
  | [] => rfl
  | d :: s3 =>
    match s3 with
    | [] => rfl
    | e :: s4 => rfl

theorem tagEnd_eq_bodyRead (s : List Char) : tagEnd s = bodyRead (afterSlash s) := by
  unfold tagEnd
  cases h : afterSlash s with
  | nil => simp only [h]; rfl
  | cons c s3 => simp only [h]; rfl

/-- Characters of a pass output come from the input or from a placeholder. -/
theorem runPass_chars {mAt : List Char → Option (List Char × List Char)}
    (hcons : Consumes mAt) :
    ∀ (n : Nat) (s : List Char) (p : Preserved), s.length ≤ n →
      ∀ c ∈ (runPass mAt s p).1, c ∈ s ∨ tokChar c = true := by
  intro n
  induction n with
  | zero =>
    intro s p hlen
    have : s = [] := List.length_eq_zero.mp (Nat.le_zero.mp hlen)
    subst this
    simp [runPass_nil]
  | succ n ih =>
    intro s p hlen c hc
    match s with
    | [] => simp [runPass_nil] at hc
    | a :: as =>
      rcases hm : mAt (a :: as) with _ | ⟨m, r⟩
      · rw [runPass_cons_none hm] at hc
        simp only [List.mem_cons] at hc
        rcases hc with hc | hc
        · exact Or.inl (by simp [hc])
        · rcases ih as p (by simp at hlen; omega) c hc with h | h
          · exact Or.inl (by simp [h])
          · exact Or.inr h
      · rw [runPass_cons_match hcons hm] at hc
        simp only [List.mem_append] at hc
        rcases hc with hc | hc
        · exact Or.inr (tokenOf_chars c hc)
        · have hrlen := length_rest_lt hcons hm
          rcases ih r (addPh m p).2 (by simp at hlen; simp at hrlen; omega) c hc with h | h
          · have hsr := (hcons _ _ _ hm).1
            exact Or.inl (by rw [hsr]; simp [h])
          · exact Or.inr h

theorem findAfterGt_none_iff {s : List Char} :
    findAfterGt s = none ↔ '>' ∉ s := by
  induction s with
  | nil => simp [findAfterGt]
  | cons c cs ih =>
    by_cases hc : c = '>'
    · subst hc
      simp [findAfterGt]
    · have hc' : ¬('>' : Char) = c := fun he => hc he.symm
      rw [show findAfterGt (c :: cs) = findAfterGt cs from by simp [findAfterGt, hc]]
      rw [ih]
      simp [hc']

theorem tails_append_cases {u : List Char} {a b : List Char}
    (h : u ∈ (a ++ b).tails) :
    (∃ a₁ a₂, a = a₁ ++ a₂ ∧ a₂ ≠ [] ∧ u = a₂ ++ b) ∨ u ∈ b.tails := by
  induction a with
  | nil => exact Or.inr (by simpa using h)
  | cons x a' iha =>
    rw [show (x :: a') ++ b = x :: (a' ++ b) from rfl, List.tails_cons] at h
    simp only [List.mem_cons] at h
    rcases h with h | h
    · exact Or.inl ⟨[], x :: a', rfl, by simp, by simpa using h⟩
    · rcases iha h with ⟨a₁, a₂, h1, h2, h3⟩ | h
      · exact Or.inl ⟨x :: a₁, a₂, by rw [h1]; rfl, h2, h3⟩
      · exact Or.inr h

theorem tails_subset_of_suffix {r s : List Char} (h : r <:+ s) :
    ∀ u ∈ r.tails, u ∈ s.tails := by
  intro u hu
  exact (List.mem_tails _ _).mpr (((List.mem_tails _ _).mp hu).trans h)

/-- Failure of `semiAfter ∘ dropWhile q` survives a pass (for a run class `q`
that excludes the placeholder head `Ħ`). -/
theorem semiFT {mAt : List Char → Option (List Char × List Char)}
    (hcons : Consumes mAt) (q : Char → Bool) (hq : q 'Ħ' = false) :
    ∀ (n : Nat) (s : List Char) (p : Preserved), s.length ≤ n →
      semiAfter (s.dropWhile q) = none →
      semiAfter (((runPass mAt s p).1).dropWhile q) = none := by
  intro n
  induction n with
  | zero =>
    intro s p hlen hsa
    have : s = [] := List.length_eq_zero.mp (Nat.le_zero.mp hlen)
    subst this
    simpa [runPass_nil] using hsa
  | succ n ih =>
    intro s p hlen hsa
    match s with
    | [] => simpa [runPass_nil] using hsa
    | b :: s4 =>
      rcases hm : mAt (b :: s4) with _ | ⟨m, r⟩
      · rw [runPass_cons_none hm]
        by_cases hb : q b = true
        · rw [List.dropWhile_cons_of_pos hb] at hsa ⊢
          exact ih s4 p (by simp at hlen; omega) hsa
        · rw [List.dropWhile_cons_of_neg (by simp [hb])] at hsa ⊢
          rw [semiAfter_cons] at hsa ⊢
          split_ifs at hsa ⊢
          rfl
      · rw [runPass_cons_match hcons hm]
        obtain ⟨rest, hrest⟩ := tokenOf_head p.counter
        rw [hrest, show ('Ħ' :: rest) ++ (runPass mAt r (addPh m p).2).1 =
          'Ħ' :: (rest ++ (runPass mAt r (addPh m p).2).1) from rfl]
        rw [List.dropWhile_cons_of_neg (by simp [hq])]
        rw [semiAfter_cons]
        split_ifs with h1
        · exact absurd h1 (by decide)
        · rfl

/-- Failure of the `tagClose ∘ dropWhile` tail reading survives a pass. -/
theorem closeFT {mAt : List Char → Option (List Char × List Char)}
    (hcons : Consumes mAt) :
    ∀ (n : Nat) (s : List Char) (p : Preserved), s.length ≤ n →
      tagClose (s.dropWhile isAlnumC) = none →
      tagClose (((runPass mAt s p).1).dropWhile isAlnumC) = none := by
  intro n
  induction n with
  | zero =>
    intro s p hlen hsa
    have : s = [] := List.length_eq_zero.mp (Nat.le_zero.mp hlen)
    subst this
    simpa [runPass_nil] using hsa
  | succ n ih =>
    intro s p hlen hsa
    match s with
    | [] => simpa [runPass_nil] using hsa
    | b :: s4 =>
      rcases hm : mAt (b :: s4) with _ | ⟨m, r⟩
      · rw [runPass_cons_none hm]
        by_cases hb : isAlnumC b = true
        · rw [List.dropWhile_cons_of_pos hb] at hsa ⊢
          exact ih s4 p (by simp at hlen; omega) hsa
        · rw [List.dropWhile_cons_of_neg (by simp [hb])] at hsa ⊢
          rw [tagClose_cons] at hsa ⊢
          split_ifs at hsa ⊢ with h1 h2
          · -- whitespace head: no follow-up character may be a `>`
            have hgt : '>' ∉ s4 := findAfterGt_none_iff.mp hsa
            rw [findAfterGt_none_iff]
            intro hmem
            rcases runPass_chars hcons s4.length s4 p le_rfl '>' hmem with h | h
            · exact hgt h
            · exact (tokChar_facts h).2.1 rfl
          · rfl
      · rw [runPass_cons_match hcons hm]
        obtain ⟨rest, hrest⟩ := tokenOf_head p.counter
        rw [hrest, show ('Ħ' :: rest) ++ (runPass mAt r (addPh m p).2).1 =
          'Ħ' :: (rest ++ (runPass mAt r (addPh m p).2).1) from rfl]
        rw [List.dropWhile_cons_of_neg (by decide)]
        rw [tagClose_cons]
        split_ifs with g1 g2
        · exact absurd g1 (by decide)
        · exact absurd g2 (by decide)
        · rfl

/-- Failure of the tag-pattern reading after `<` and `/` survives a pass. -/
theorem bodyFT {mAt : List Char → Option (List Char × List Char)}
    (hcons : Consumes mAt) (s : List Char) (p : Preserved)
    (h : bodyRead s = none) : bodyRead ((runPass mAt s p).1) = none := by
  match s with
  | [] => simpa [runPass_nil] using h
  | a :: s3 =>
    rcases hm : mAt (a :: s3) with _ | ⟨m, r⟩
    · rw [runPass_cons_none hm]
      rw [bodyRead_cons] at h ⊢
      split_ifs at h ⊢ with h1
      · exact closeFT hcons s3.length s3 p le_rfl h
      · rfl
    · rw [runPass_cons_match hcons hm]
      obtain ⟨rest, hrest⟩ := tokenOf_head p.counter
      rw [hrest, show ('Ħ' :: rest) ++ (runPass mAt r (addPh m p).2).1 =
        'Ħ' :: (rest ++ (runPass mAt r (addPh m p).2).1) from rfl]
      rw [bodyRead_cons]
      split_ifs with g1
      · exact absurd g1 (by decide)
      · rfl

theorem matchTagAt_head_none {c : Char} {cs : List Char} (h : ¬c = '<') :
    matchTagAt (c :: cs) = none := by
  simp [matchTagAt, h]

theorem matchTagAt_lt_none_iff {cs : List Char} :
    matchTagAt ('<' :: cs) = none ↔ tagEnd cs = none := by
  simp [matchTagAt]

theorem matchEntAt_head_none {c : Char} {cs : List Char} (h : ¬c = '&') :
    matchEntAt (c :: cs) = none := by
  simp [matchEntAt, h]

theorem matchEntAt_amp_none_iff {cs : List Char} :
    matchEntAt ('&' :: cs) = none ↔ entEnd cs = none := by
  simp [matchEntAt]

/-- Failure of the tag pattern at a position survives a pass on the tail. -/
theorem tagFT {mAt : List Char → Option (List Char × List Char)}
    (hcons : Consumes mAt) {c : Char} {cs : List Char} (p : Preserved)
    (h : matchTagAt (c :: cs) = none) :
    matchTagAt (c :: (runPass mAt cs p).1) = none := by
  by_cases hc : c = '<'
  · subst hc
    rw [matchTagAt_lt_none_iff] at h ⊢
    rw [tagEnd_eq_bodyRead] at h ⊢
    match cs with
    | [] => simpa [runPass_nil] using h
    | c₁ :: cs₂ =>
      rcases hm : mAt (c₁ :: cs₂) with _ | ⟨m, r⟩
      · rw [runPass_cons_none hm]
        by_cases h₁ : c₁ = '/'
        · subst h₁
          rw [show afterSlash ('/' :: cs₂) = cs₂ from by
            rw [afterSlash_cons]; exact if_pos rfl] at h
          rw [show afterSlash ('/' :: (runPass mAt cs₂ p).1) = (runPass mAt cs₂ p).1
            from by rw [afterSlash_cons]; exact if_pos rfl]
          exact bodyFT hcons cs₂ p h
        · rw [show afterSlash (c₁ :: cs₂) = c₁ :: cs₂ from by
            rw [afterSlash_cons]; exact if_neg h₁] at h
          rw [show afterSlash (c₁ :: (runPass mAt cs₂ p).1) =
            c₁ :: (runPass mAt cs₂ p).1 from by rw [afterSlash_cons]; exact if_neg h₁]
          rw [bodyRead_cons] at h ⊢
          split_ifs at h ⊢ with g1
          · exact closeFT hcons cs₂.length cs₂ p le_rfl h
          · rfl
      · rw [runPass_cons_match hcons hm]
        obtain ⟨rest, hrest⟩ := tokenOf_head p.counter
        rw [hrest, show ('Ħ' :: rest) ++ (runPass mAt r (addPh m p).2).1 =
          'Ħ' :: (rest ++ (runPass mAt r (addPh m p).2).1) from rfl]
        rw [show afterSlash ('Ħ' :: (rest ++ (runPass mAt r (addPh m p).2).1)) =
          'Ħ' :: (rest ++ (runPass mAt r (addPh m p).2).1) from by
            rw [afterSlash_cons]; exact if_neg (by decide)]
        rw [bodyRead_cons]
        split_ifs with g1
        · exact absurd g1 (by decide)
        · rfl
  · exact matchTagAt_head_none hc

/-- Failure of the hexadecimal entity reading survives a pass. -/
theorem entHexFT {mAt : List Char → Option (List Char × List Char)}
    (hcons : Consumes mAt) (s : List Char) (p : Preserved)
    (h : entHex s = none) : entHex ((runPass mAt s p).1) = none := by
  match s with
  | [] => simpa [runPass_nil] using h
  | e :: s4 =>
    rcases hm : mAt (e :: s4) with _ | ⟨m, r⟩
    · rw [runPass_cons_none hm]
      rw [entHex_cons] at h ⊢
      split_ifs at h ⊢ with k1
      · exact semiFT hcons isHexDig (by decide) s4.length s4 p le_rfl h
      · rfl
    · rw [runPass_cons_match hcons hm]
      obtain ⟨rest, hrest⟩ := tokenOf_head p.counter
      rw [hrest, show ('Ħ' :: rest) ++ (runPass mAt r (addPh m p).2).1 =
        'Ħ' :: (rest ++ (runPass mAt r (addPh m p).2).1) from rfl]
      rw [entHex_cons]
      split_ifs with k1
      · exact absurd k1 (by decide)
      · rfl

/-- Failure of the numeric entity reading survives a pass. -/
theorem entNumFT {mAt : List Char → Option (List Char × List Char)}
    (hcons : Consumes mAt) (s : List Char) (p : Preserved)
    (h : entNum s = none) : entNum ((runPass mAt s p).1) = none := by
  match s with
  | [] => simpa [runPass_nil] using h
  | d :: s3 =>
    rcases hm : mAt (d :: s3) with _ | ⟨m, r⟩
    · rw [runPass_cons_none hm]
      rw [entNum_cons] at h ⊢
      split_ifs at h ⊢ with e1 e2
      · exact semiFT hcons isAsciiDigit (by decide) s3.length s3 p le_rfl h
      · exact entHexFT hcons s3 p h
      · rfl
    · rw [runPass_cons_match hcons hm]
      obtain ⟨rest, hrest⟩ := tokenOf_head p.counter
      rw [hrest, show ('Ħ' :: rest) ++ (runPass mAt r (addPh m p).2).1 =
        'Ħ' :: (rest ++ (runPass mAt r (addPh m p).2).1) from rfl]
      rw [entNum_cons]
      split_ifs with e1 e2
      · exact absurd e1 (by decide)
      · exact absurd e2 (by decide)
      · rfl

/-- Failure of the entity pattern at a position survives a pass on the tail. -/
theorem entFT {mAt : List Char → Option (List Char × List Char)}
    (hcons : Consumes mAt) {c : Char} {cs : List Char} (p : Preserved)
    (h : matchEntAt (c :: cs) = none) :
    matchEntAt (c :: (runPass mAt cs p).1) = none := by
  by_cases hc : c = '&'
  · subst hc
    rw [matchEntAt_amp_none_iff] at h ⊢
    match cs with
    | [] => simpa [runPass_nil] using h
    | c₁ :: cs₂ =>
      rcases hm : mAt (c₁ :: cs₂) with _ | ⟨m, r⟩
      · rw [runPass_cons_none hm]
        rw [entEnd_eq] at h ⊢
        split_ifs at h ⊢ with g1 g2
        · exact semiFT hcons isAlnumC (by decide) cs₂.length cs₂ p le_rfl h
        · exact entNumFT hcons cs₂ p h
        · rfl
      · rw [runPass_cons_match hcons hm]
        obtain ⟨rest, hrest⟩ := tokenOf_head p.counter
        rw [hrest, show ('Ħ' :: rest) ++ (runPass mAt r (addPh m p).2).1 =
          'Ħ' :: (rest ++ (runPass mAt r (addPh m p).2).1) from rfl]
        rw [entEnd_eq]
        split_ifs with g1 g2
        · exact absurd g1 (by decide)
        · exact absurd g2 (by decide)
        · rfl
  · exact matchEntAt_head_none hc

/-- A pass output has no tag match, provided every position where the pass's
own matcher failed also fails the tag pattern (instantiated with the tag pass
itself, and with the later passes on already tag-free text). -/
theorem passNTM {mAt : List Char → Option (List Char × List Char)}
    (hcons : Consumes mAt) :
    ∀ (n : Nat) (s : List Char) (p : Preserved), s.length ≤ n →
      (∀ u ∈ s.tails, mAt u = none → matchTagAt u = none) →
      ∀ u ∈ ((runPass mAt s p).1).tails, matchTagAt u = none := by
  intro n
  induction n with
  | zero =>
    intro s p hlen hin u hu
    have : s = [] := List.length_eq_zero.mp (Nat.le_zero.mp hlen)
    subst this
    simp only [runPass_nil] at hu
    have hu0 : u = [] := by simpa using (List.mem_tails _ _).mp hu
    subst hu0
    rfl
  | succ n ih =>
    intro s p hlen hin u hu
    match s with
    | [] =>
      simp only [runPass_nil] at hu
      have hu0 : u = [] := by simpa using (List.mem_tails _ _).mp hu
      subst hu0
      rfl
    | a :: as =>
      rcases hm : mAt (a :: as) with _ | ⟨m, r⟩
      · rw [runPass_cons_none hm, List.tails_cons] at hu
        simp only [List.mem_cons] at hu
        rcases hu with hu | hu
        · subst hu
          have htop : matchTagAt (a :: as) = none := hin _ (by simp) hm
          exact tagFT hcons p htop
        · exact ih as p (by simp at hlen; omega)
            (fun v hv hnone => hin v (by rw [List.tails_cons]; simp [hv]) hnone) u hu
      · rw [runPass_cons_match hcons hm] at hu
        rcases tails_append_cases hu with ⟨a₁, a₂, h1, h2, h3⟩ | hu
        · subst h3
          obtain ⟨x, a₃, ha⟩ := List.exists_cons_of_ne_nil h2
          subst ha
          have hx : x ∈ tokenOf p.counter := by rw [h1]; simp
          have hxt := (tokChar_facts (tokenOf_chars x hx)).1
          rw [List.cons_append]
          exact matchTagAt_head_none hxt
        · have hrlen := length_rest_lt hcons hm
          have hsr := (hcons _ _ _ hm).1
          have hsuffix : r <:+ (a :: as) := ⟨m, hsr.symm⟩
          exact ih r (addPh m p).2 (by simp at hlen; simp at hrlen; omega)
            (fun v hv hnone => hin v (tails_subset_of_suffix hsuffix v hv) hnone) u hu

/-- As `passNTM`, for the entity pattern. -/
theorem passNEM {mAt : List Char → Option (List Char × List Char)}
    (hcons : Consumes mAt) :
    ∀ (n : Nat) (s : List Char) (p : Preserved), s.length ≤ n →
      (∀ u ∈ s.tails, mAt u = none → matchEntAt u = none) →
      ∀ u ∈ ((runPass mAt s p).1).tails, matchEntAt u = none := by
  intro n
  induction n with
  | zero =>
    intro s p hlen hin u hu
    have : s = [] := List.length_eq_zero.mp (Nat.le_zero.mp hlen)
    subst this
    simp only [runPass_nil] at hu
    have hu0 : u = [] := by simpa using (List.mem_tails _ _).mp hu
    subst hu0
    rfl
  | succ n ih =>
    intro s p hlen hin u hu
    match s with
    | [] =>
      simp only [runPass_nil] at hu
      have hu0 : u = [] := by simpa using (List.mem_tails _ _).mp hu
      subst hu0
      rfl
    | a :: as =>
      rcases hm : mAt (a :: as) with _ | ⟨m, r⟩
      · rw [runPass_cons_none hm, List.tails_cons] at hu
        simp only [List.mem_cons] at hu
        rcases hu with hu | hu
        · subst hu
          have htop : matchEntAt (a :: as) = none := hin _ (by simp) hm
          exact entFT hcons p htop
        · exact ih as p (by simp at hlen; omega)
            (fun v hv hnone => hin v (by rw [List.tails_cons]; simp [hv]) hnone) u hu
      · rw [runPass_cons_match hcons hm] at hu
        rcases tails_append_cases hu with ⟨a₁, a₂, h1, h2, h3⟩ | hu
        · subst h3
          obtain ⟨x, a₃, ha⟩ := List.exists_cons_of_ne_nil h2
          subst ha
          have hx : x ∈ tokenOf p.counter := by rw [h1]; simp
          have hxt := (tokChar_facts (tokenOf_chars x hx)).2.2.1
          rw [List.cons_append]
          exact matchEntAt_head_none hxt
        · have hrlen := length_rest_lt hcons hm
          have hsr := (hcons _ _ _ hm).1
          have hsuffix : r <:+ (a :: as) := ⟨m, hsr.symm⟩
          exact ih r (addPh m p).2 (by simp at hlen; simp at hrlen; omega)
            (fun v hv hnone => hin v (tails_subset_of_suffix hsuffix v hv) hnone) u hu

/-- The colon pass leaves no colon behind. -/
theorem colonPass_no_colon :
    ∀ (n : Nat) (s : List Char) (p : Preserved), s.length ≤ n →
      ':' ∉ (runPass matchColonAt s p).1 := by
  intro n
  induction n with
  | zero =>
    intro s p hlen
    have : s = [] := List.length_eq_zero.mp (Nat.le_zero.mp hlen)
    subst this
    simp [runPass_nil]
  | succ n ih =>
    intro s p hlen hmem
    match s with
    | [] => simp [runPass_nil] at hmem
    | a :: as =>
      rcases hm : matchColonAt (a :: as) with _ | ⟨m, r⟩
      · rw [runPass_cons_none hm] at hmem
        simp only [List.mem_cons] at hmem
        rcases hmem with hmem | hmem
        · rw [← hmem] at hm
          simp [matchColonAt] at hm
        · exact ih as p (by simp at hlen; omega) hmem
      · rw [runPass_cons_match consumes_colon hm] at hmem
        simp only [List.mem_append] at hmem
        rcases hmem with hmem | hmem
        · exact absurd rfl (tokChar_facts (tokenOf_chars ':' hmem)).2.2.2.2
        · have hrlen := length_rest_lt consumes_colon hm
          exact ih r (addPh m p).2 (by simp at hlen; simp at hrlen; omega) hmem

/-- Claim C5: for every input text, the processed text returned by encode
contains no tag-pattern match, no entity-pattern match and no ASCII colon:
placeholder substitution never leaves or creates a protectable fragment, in
particular whenever the original text had such fragments none survives. -/
theorem claimC5_no_leakage (t : List Char) :
    hasTagMatch (preserveHtmlContent t).1 = false ∧
    hasEntMatch (preserveHtmlContent t).1 = false ∧
    ':' ∉ (preserveHtmlContent t).1 := by
  have hNTM1 : ∀ u ∈ ((runPass matchTagAt t emptyPreserved).1).tails,
      matchTagAt u = none :=
    passNTM consumes_tag t.length t emptyPreserved le_rfl (fun _ _ h => h)
  have hNTM2 : ∀ u ∈ ((runPass matchEntAt (runPass matchTagAt t emptyPreserved).1
      (runPass matchTagAt t emptyPreserved).2).1).tails, matchTagAt u = none :=
    passNTM consumes_ent _ _ _ le_rfl (fun u hu _ => hNTM1 u hu)
  have hNTM3 : ∀ u ∈ ((preserveHtmlContent t).1).tails, matchTagAt u = none :=
    passNTM consumes_colon _ _ _ le_rfl (fun u hu _ => hNTM2 u hu)
  have hNEM2 : ∀ u ∈ ((runPass matchEntAt (runPass matchTagAt t emptyPreserved).1
      (runPass matchTagAt t emptyPreserved).2).1).tails, matchEntAt u = none :=
    passNEM consumes_ent _ _ _ le_rfl (fun _ _ h => h)
  have hNEM3 : ∀ u ∈ ((preserveHtmlContent t).1).tails, matchEntAt u = none :=
    passNEM consumes_colon _ _ _ le_rfl (fun u hu _ => hNEM2 u hu)
  refine ⟨?_, ?_, ?_⟩
  · unfold hasTagMatch
    rw [List.any_eq_false]
    intro u hu
    simp [hNTM3 u hu]
  · unfold hasEntMatch
    rw [List.any_eq_false]
    intro u hu
    simp [hNEM3 u hu]
  · exact colonPass_no_colon _ _ _ le_rfl

/-!
## Interleaving structure of an encoded text

An encoded text is an interleaving of whole placeholders and copied
characters (`Item`).  The restore loop is analysed stage by stage on this
structure.
-/

theorem flatStage_tok (j n : Nat) (disp o : List Char) (L : List Item) :
    flatStage j (Item.tok n disp o :: L) =
      (if n < j then o else disp) ++ flatStage j L := rfl

theorem flatStage_raw (j : Nat) (c : Char) (L : List Item) :
    flatStage j (Item.raw c :: L) = c :: flatStage j L := rfl

theorem flatTok_tok (n : Nat) (disp o : List Char) (L : List Item) :
    flatTok (Item.tok n disp o :: L) = disp ++ flatTok L := by
  unfold flatTok
  rw [flatStage_tok, if_neg (Nat.not_lt_zero n)]

theorem flatTok_raw (c : Char) (L : List Item) :
    flatTok (Item.raw c :: L) = c :: flatTok L := rfl

theorem flatStage_append (j : Nat) (A B : List Item) :
    flatStage j (A ++ B) = flatStage j A ++ flatStage j B := by
  induction A with
  | nil => rfl
  | cons it A2 ih =>
    cases it with
    | tok n disp o =>
      rw [List.cons_append, flatStage_tok, flatStage_tok, ih, List.append_assoc]
    | raw c => rw [List.cons_append, flatStage_raw, flatStage_raw, ih]; rfl

theorem flatStage_rawItems (j : Nat) (s : List Char) :
    flatStage j (rawItems s) = s := by
  induction s with
  | nil => rfl
  | cons c cs ih =>
    rw [show rawItems (c :: cs) = Item.raw c :: rawItems cs from rfl, flatStage_raw, ih]

theorem flatOrig_tok (n : Nat) (disp o : List Char) (L : List Item) :
    flatOrig (Item.tok n disp o :: L) = o ++ flatOrig L := rfl

theorem flatOrig_raw (c : Char) (L : List Item) :
    flatOrig (Item.raw c :: L) = c :: flatOrig L := rfl

theorem flatOrig_append (A B : List Item) :
    flatOrig (A ++ B) = flatOrig A ++ flatOrig B := by
  induction A with
  | nil => rfl
  | cons it A2 ih =>
    cases it with
    | tok n disp o =>
      rw [List.cons_append, flatOrig_tok, flatOrig_tok, ih, List.append_assoc]
    | raw c => rw [List.cons_append, flatOrig_raw, flatOrig_raw, ih]; rfl

theorem flatOrig_rawItems (s : List Char) : flatOrig (rawItems s) = s := by
  induction s with
  | nil => rfl
  | cons c cs ih =>
    rw [show rawItems (c :: cs) = Item.raw c :: rawItems cs from rfl, flatOrig_raw, ih]

theorem flatTok_rawSplit (L : List Item) :
    flatTok L = rawTake L ++ flatTok (rawDrop L) := by
  induction L with
  | nil => rfl
  | cons it L2 ih =>
    cases it with
    | raw c =>
      rw [flatTok_raw, show rawTake (Item.raw c :: L2) = c :: rawTake L2 from rfl,
        show rawDrop (Item.raw c :: L2) = rawDrop L2 from rfl, ih]
      rfl
    | tok n disp o =>
      rw [show rawTake (Item.tok n disp o :: L2) = [] from rfl,
        show rawDrop (Item.tok n disp o :: L2) = Item.tok n disp o :: L2 from rfl]
      rfl

theorem flatOrig_rawSplit (L : List Item) :
    flatOrig L = rawTake L ++ flatOrig (rawDrop L) := by
  induction L with
  | nil => rfl
  | cons it L2 ih =>
    cases it with
    | raw c =>
      rw [flatOrig_raw, show rawTake (Item.raw c :: L2) = c :: rawTake L2 from rfl,
        show rawDrop (Item.raw c :: L2) = rawDrop L2 from rfl, ih]
      rfl
    | tok n disp o =>
      rw [show rawTake (Item.tok n disp o :: L2) = [] from rfl,
        show rawDrop (Item.tok n disp o :: L2) = Item.tok n disp o :: L2 from rfl]
      rfl

theorem rawDrop_shape (L : List Item) :
    rawDrop L = [] ∨ ∃ n disp o L2, rawDrop L = Item.tok n disp o :: L2 := by
  induction L with
  | nil => exact Or.inl rfl
  | cons it L2 ih =>
    cases it with
    | raw c => rw [show rawDrop (Item.raw c :: L2) = rawDrop L2 from rfl]; exact ih
    | tok n disp o => exact Or.inr ⟨n, disp, o, L2, rfl⟩

theorem IOF_tok {ps : List (List Char × List Char)} {n : Nat} {disp o : List Char}
    {L : List Item} :
    ItemsOKFor ps (Item.tok n disp o :: L) ↔
      disp.map jsUpper = tokenOf n ∧ ps.get? n = some (tokenOf n, o) ∧ o ≠ [] ∧
      ItemsOKFor ps L := Iff.rfl

theorem IOF_raw {ps : List (List Char × List Char)} {c : Char} {L : List Item} :
    ItemsOKFor ps (Item.raw c :: L) ↔ ItemsOKFor ps L := Iff.rfl

theorem IOF_nil (ps : List (List Char × List Char)) : ItemsOKFor ps [] := trivial

theorem IOF_mono {ps ps2 : List (List Char × List Char)}
    (h : ∀ i e, ps.get? i = some e → ps2.get? i = some e) :
    ∀ L, ItemsOKFor ps L → ItemsOKFor ps2 L := by
  intro L
  induction L with
  | nil => intro _; trivial
  | cons it L2 ih =>
    cases it with
    | tok n disp o =>
      intro hOK
      rw [IOF_tok] at hOK ⊢
      exact ⟨hOK.1, h n _ hOK.2.1, hOK.2.2.1, ih hOK.2.2.2⟩
    | raw c =>
      intro hOK
      rw [IOF_raw] at hOK ⊢
      exact ih hOK

theorem IOF_rawItems (ps : List (List Char × List Char)) (s : List Char) :
    ItemsOKFor ps (rawItems s) := by
  induction s with
  | nil => trivial
  | cons c cs ih =>
    rw [show rawItems (c :: cs) = Item.raw c :: rawItems cs from rfl, IOF_raw]
    exact ih

theorem IOF_append {ps : List (List Char × List Char)} (A B : List Item) :
    ItemsOKFor ps (A ++ B) ↔ ItemsOKFor ps A ∧ ItemsOKFor ps B := by
  induction A with
  | nil =>
    constructor
    · intro h; exact ⟨trivial, h⟩
    · intro h; exact h.2
  | cons it A2 ih =>
    cases it with
    | tok n disp o =>
      rw [List.cons_append, IOF_tok, IOF_tok, ih]
      tauto
    | raw c => rw [List.cons_append, IOF_raw, IOF_raw, ih]

theorem IOF_rawDrop {ps : List (List Char × List Char)} :
    ∀ {L}, ItemsOKFor ps L → ItemsOKFor ps (rawDrop L) := by
  intro L
  induction L with
  | nil => intro _; trivial
  | cons it L2 ih =>
    cases it with
    | raw c =>
      intro h
      rw [IOF_raw] at h
      rw [show rawDrop (Item.raw c :: L2) = rawDrop L2 from rfl]
      exact ih h
    | tok n disp o =>
      intro h
      rw [show rawDrop (Item.tok n disp o :: L2) = Item.tok n disp o :: L2 from rfl]
      exact h

theorem tok_mem_rawDrop : ∀ {L : List Item} {n : Nat} {disp o : List Char},
    Item.tok n disp o ∈ L → Item.tok n disp o ∈ rawDrop L := by
  intro L
  induction L with
  | nil => intro n disp o h; simp at h
  | cons it L2 ih =>
    cases it with
    | raw c =>
      intro n disp o h
      rw [show rawDrop (Item.raw c :: L2) = rawDrop L2 from rfl]
      rcases List.mem_cons.mp h with h | h
      · exact absurd h (by simp)
      · exact ih h
    | tok n2 disp2 o2 =>
      intro n disp o h
      rw [show rawDrop (Item.tok n2 disp2 o2 :: L2) = Item.tok n2 disp2 o2 :: L2 from rfl]
      exact h

theorem IOF_tok_mem {ps : List (List Char × List Char)} :
    ∀ {L : List Item} {n : Nat} {disp o : List Char},
      ItemsOKFor ps L → Item.tok n disp o ∈ L →
      disp.map jsUpper = tokenOf n ∧ ps.get? n = some (tokenOf n, o) ∧ o ≠ [] := by
  intro L
  induction L with
  | nil => intro n disp o _ h; simp at h
  | cons it L2 ih =>
    cases it with
    | tok n2 disp2 o2 =>
      intro n disp o hOK h
      rw [IOF_tok] at hOK
      rcases List.mem_cons.mp h with h | h
      · injection h with h1 h2 h3
        subst h1
        subst h2
        subst h3
        exact ⟨hOK.1, hOK.2.1, hOK.2.2.1⟩
      · exact ih hOK.2.2.2 h
    | raw c =>
      intro n disp o hOK h
      rw [IOF_raw] at hOK
      rcases List.mem_cons.mp h with h | h
      · exact absurd h (by simp)
      · exact ih hOK h

theorem IC_tok {n : Nat} {disp o : List Char} {L : List Item} :
    ItemsClean (Item.tok n disp o :: L) ↔
      (∀ c ∈ o, cleanChar c = true) ∧ ItemsClean L := Iff.rfl

theorem IC_raw {c : Char} {L : List Item} :
    ItemsClean (Item.raw c :: L) ↔ cleanChar c = true ∧ ItemsClean L := Iff.rfl

theorem IC_of_flatOrig : ∀ (L : List Item),
    (∀ c ∈ flatOrig L, cleanChar c = true) → ItemsClean L := by
  intro L
  induction L with
  | nil => intro _; trivial
  | cons it L2 ih =>
    cases it with
    | tok n disp o =>
      intro h
      rw [flatOrig_tok] at h
      rw [IC_tok]
      exact ⟨fun c hc => h c (by simp [hc]),
        ih fun c hc => h c (by simp [hc])⟩
    | raw c =>
      intro h
      rw [flatOrig_raw] at h
      rw [IC_raw]
      exact ⟨h c (by simp), ih fun x hx => h x (by simp [hx])⟩

theorem IC_tok_mem : ∀ {L : List Item} {n : Nat} {disp o : List Char},
    ItemsClean L → Item.tok n disp o ∈ L → ∀ c ∈ o, cleanChar c = true := by
  intro L
  induction L with
  | nil => intro n disp o _ h; simp at h
  | cons it L2 ih =>
    cases it with
    | tok n2 disp2 o2 =>
      intro n disp o hC h
      rw [IC_tok] at hC
      rcases List.mem_cons.mp h with h | h
      · have ho : o = o2 := by injection h
        rw [ho]
        exact hC.1
      · exact ih hC.2 h
    | raw c =>
      intro n disp o hC h
      rw [IC_raw] at hC
      rcases List.mem_cons.mp h with h | h
      · exact absurd h (by simp)
      · exact ih hC.2 h

/-!
## Case normalisation

`ciStarts` compares `jsUpper`-images, and every placeholder character is a
`jsUpper` fixed point, so case-insensitive matching reduces to plain prefix
matching of normalised texts.
-/

theorem map_fix {f : Char → Char} : ∀ (l : List Char), (∀ c ∈ l, f c = c) → l.map f = l := by
  intro l
  induction l with
  | nil => intro _; rfl
  | cons c cs ih =>
    intro h
    rw [List.map_cons, h c (List.mem_cons_self c cs),
      ih fun x hx => h x (List.mem_cons_of_mem c hx)]

theorem jsUpper_fixed_of_tokChar {c : Char} (h : tokChar c = true) : jsUpper c = c := by
  have hn := tokChar_toNat h
  refine char_eq_of_toNat c rfl ?_
  rw [jsUpper_toNat]
  rcases hn with h5 | h5 | h5 | h5 | h5 <;> (split_ifs with g1 g2 g3 g4 <;> omega)

theorem jnorm_tokenOf (n : Nat) : (tokenOf n).map jsUpper = tokenOf n :=
  map_fix _ fun c hc => jsUpper_fixed_of_tokChar (tokenOf_chars c hc)

theorem tokenOf_ne_nil (n : Nat) : tokenOf n ≠ [] := by
  obtain ⟨rest, h⟩ := tokenOf_head n
  rw [h]
  simp

theorem jsUpper_hbar_inv {c : Char} (h : jsUpper c = 'Ħ') : c = 'Ħ' ∨ c = 'ħ' := by
  have hn := congrArg Char.toNat h
  rw [show ('Ħ' : Char).toNat = 294 from rfl] at hn
  rw [jsUpper_toNat] at hn
  split_ifs at hn with g1 g2 g3 g4
  · omega
  · exact Or.inr (char_eq_of_toNat 'ħ' rfl g2)
  · omega
  · omega
  · exact Or.inl (char_eq_of_toNat 'Ħ' rfl hn)

theorem cleanChar_spec {c : Char} (h : cleanChar c = true) :
    ¬c.toNat = 294 ∧ ¬c.toNat = 295 ∧ ¬c.toNat = 272 ∧ ¬c.toNat = 273 ∧
    ¬c.toNat = 321 ∧ ¬c.toNat = 322 ∧ ¬(48 ≤ c.toNat ∧ c.toNat ≤ 57) ∧
    ¬c.toNat = 36 ∧ ¬c.toNat = 65306 := of_decide_eq_true h

theorem clean_jsUpper {c : Char} (h : cleanChar c = true) :
    ¬(jsUpper c).toNat = 294 ∧ ¬(jsUpper c).toNat = 272 ∧
    ¬(48 ≤ (jsUpper c).toNat ∧ (jsUpper c).toNat ≤ 57) := by
  have hs := cleanChar_spec h
  rw [jsUpper_toNat]
  split_ifs with g1 g2 g3 g4 <;> omega

theorem clean_ne_dollar {o : List Char} (h : ∀ c ∈ o, cleanChar c = true) : '$' ∉ o := by
  intro hm
  exact (cleanChar_spec (h '$' hm)).2.2.2.2.2.2.2.1 rfl

theorem clean_ne_fwColon {c : Char} (h : cleanChar c = true) : ¬c = fwColon := by
  intro he
  have hs := (cleanChar_spec h).2.2.2.2.2.2.2.2
  rw [he] at hs
  exact hs rfl

theorem ciStarts_iff_map : ∀ (a b : List Char),
    ciStarts a b = true ↔ a.map jsUpper <+: b.map jsUpper := by
  intro a
  induction a with
  | nil => intro b; simp [ciStarts]
  | cons x a2 ih =>
    intro b
    cases b with
    | nil => simp [ciStarts]
    | cons y b2 =>
      rw [show ciStarts (x :: a2) (y :: b2) = (ciEq x y && ciStarts a2 b2) from rfl]
      rw [List.map_cons, List.map_cons]
      constructor
      · intro h
        obtain ⟨hc, hs⟩ := (Bool.and_eq_true _ _).mp h
        have hxy : jsUpper x = jsUpper y := char_eq_of_toNat _ rfl (ciEq_iff.mp hc)
        obtain ⟨t, ht⟩ := (ih b2).mp hs
        exact ⟨t, by rw [List.cons_append, hxy, ht]⟩
      · intro h
        obtain ⟨t, ht⟩ := h
        rw [List.cons_append] at ht
        injection ht with h1 h2
        rw [Bool.and_eq_true]
        exact ⟨ciEq_iff.mpr (by rw [h1]), (ih b2).mpr ⟨t, h2⟩⟩

theorem ciEqL_iff_map {a b : List Char} :
    ciEqL a b = true ↔ a.map jsUpper = b.map jsUpper := by
  unfold ciEqL
  rw [Bool.and_eq_true]
  constructor
  · intro h
    obtain ⟨hl, hs⟩ := h
    have hp := (ciStarts_iff_map a b).mp hs
    refine hp.eq_of_length ?_
    have hlen : a.length = b.length := by simpa using hl
    simp [hlen]
  · intro h
    have hl : a.length = b.length := by
      have h2 := congrArg List.length h
      simpa using h2
    exact ⟨by simp [hl], (ciStarts_iff_map a b).mpr (by rw [h])⟩

theorem noStart_clean {j : Nat} {c : Char} (h : cleanChar c = true) (cs : List Char) :
    ciStarts (tokenOf j) (c :: cs) = false := by
  obtain ⟨rest, hrest⟩ := tokenOf_head j
  rw [hrest, show ciStarts ('Ħ' :: rest) (c :: cs) = (ciEq 'Ħ' c && ciStarts rest cs) from rfl]
  have hcf : ciEq 'Ħ' c = false := by
    rcases hce : ciEq 'Ħ' c with _ | _
    · rfl
    · exfalso
      have h2 := ciEq_iff.mp hce
      rw [show (jsUpper 'Ħ').toNat = 294 from rfl] at h2
      exact (clean_jsUpper h).1 h2.symm
  rw [hcf, Bool.false_and]

/-!
## The explicit form of a placeholder for counters below 1000
-/

theorem natDigitsF_small (fuel : Nat) {n : Nat} (h : n < 10) :
    natDigitsF fuel n = [digitChar n] := by
  cases fuel with
  | zero =>
    unfold natDigitsF
    rw [Nat.mod_eq_of_lt h]
  | succ f =>
    unfold natDigitsF
    rw [if_pos h]

theorem natDigitsF_step {fuel n : Nat} (h : ¬n < 10) :
    natDigitsF (fuel + 1) n = natDigitsF fuel (n / 10) ++ [digitChar (n % 10)] := by
  conv_lhs => unfold natDigitsF
  rw [if_neg h]

theorem natDigits_small {n : Nat} (h : n < 10) : natDigits n = [digitChar n] := by
  unfold natDigits
  exact natDigitsF_small n h

theorem natDigits_med {n : Nat} (h1 : 10 ≤ n) (h2 : n < 100) :
    natDigits n = [digitChar (n / 10), digitChar (n % 10)] := by
  unfold natDigits
  obtain ⟨f, hf⟩ : ∃ f, n = f + 1 := ⟨n - 1, by omega⟩
  subst hf
  rw [natDigitsF_step (by omega), natDigitsF_small f (by omega)]
  rfl

theorem natDigits_big {n : Nat} (h1 : 100 ≤ n) (h2 : n < 1000) :
    natDigits n = [digitChar (n / 100), digitChar (n / 10 % 10), digitChar (n % 10)] := by
  unfold natDigits
  obtain ⟨f, hf⟩ : ∃ f, n = f + 2 := ⟨n - 2, by omega⟩
  subst hf
  rw [show f + 2 = (f + 1) + 1 from rfl]
  rw [natDigitsF_step (by omega)]
  rw [natDigitsF_step (by omega)]
  rw [natDigitsF_small f (by omega)]
  rw [Nat.div_div_eq_div_mul]
  rfl

theorem tokenOf_explicit {n : Nat} (h : n < 1000) :
    tokenOf n =
      ['Ħ', 'Đ', 'Ł', 'X', 'Ħ', digitChar (n / 100), digitChar (n / 10 % 10),
       digitChar (n % 10), 'Ħ', 'Đ', 'Ł', 'X', 'Ħ'] := by
  by_cases h1 : n < 10
  · unfold tokenOf pad3
    rw [natDigits_small h1]
    rw [if_pos (by simp)]
    rw [show n / 100 = 0 from by omega, show n / 10 % 10 = 0 from by omega,
      Nat.mod_eq_of_lt h1]
    rfl
  · by_cases h2 : n < 100
    · unfold tokenOf pad3
      rw [natDigits_med (by omega) h2]
      rw [if_pos (by simp)]
      rw [show n / 100 = 0 from by omega, show n / 10 % 10 = n / 10 from by omega]
      rfl
    · unfold tokenOf pad3
      rw [natDigits_big (by omega) h]
      rw [if_neg (by simp)]
      rfl

/-!
## No spurious case-insensitive occurrence of a placeholder

A 13-character window over an interleaving of whole placeholders and clean
characters can only match a placeholder when it is exactly one whole
(possibly case-mutated) placeholder, and then the counters agree.
-/

theorem tails_nil_eq : (([] : List Char)).tails = [[]] := rfl

theorem cons_pre {a b : Char} {l m : List Char} (h : (a :: l) <+: (b :: m)) :
    a = b ∧ l <+: m := by
  obtain ⟨t2, ht⟩ := h
  rw [List.cons_append] at ht
  injection ht with h1 h2
  exact ⟨h1, t2, h2⟩

theorem cons_pre_nil {a : Char} {l : List Char} (h : (a :: l) <+: ([] : List Char)) :
    False := by
  obtain ⟨t2, ht⟩ := h
  simp at ht

theorem suffix_tails_map {x l : List Char} (f : Char → Char) (h : x ∈ l.tails) :
    x.map f ∈ (l.map f).tails := by
  obtain ⟨p, hp⟩ := (List.mem_tails _ _).mp h
  exact (List.mem_tails _ _).mpr ⟨p.map f, by rw [← List.map_append, hp]⟩

theorem noMatch_suffix_gen {a1 a2 a3 b1 b2 b3 : Nat}
    (ha1 : a1 < 10) (ha2 : a2 < 10) (ha3 : a3 < 10)
    (hb1 : b1 < 10) (hb2 : b2 < 10) (hb3 : b3 < 10)
    (hne : ¬(b1 = a1 ∧ b2 = a2 ∧ b3 = a3))
    {y rest : List Char}
    (hy : y ∈ (['Ħ', 'Đ', 'Ł', 'X', 'Ħ', digitChar b1, digitChar b2, digitChar b3,
      'Ħ', 'Đ', 'Ł', 'X', 'Ħ'] : List Char).tails)
    (hyne : y ≠ [])
    (hrest : rest = [] ∨ ∃ h0 t2, rest = h0 :: t2 ∧
      ¬h0.toNat = 272 ∧ ¬(48 ≤ h0.toNat ∧ h0.toNat ≤ 57)) :
    ¬(['Ħ', 'Đ', 'Ł', 'X', 'Ħ', digitChar a1, digitChar a2, digitChar a3,
      'Ħ', 'Đ', 'Ł', 'X', 'Ħ'] : List Char) <+: (y ++ rest) := by
  intro hpre
  simp only [List.tails_cons, tails_nil_eq, List.mem_cons, List.mem_singleton] at hy
  rcases hy with hy | hy | hy | hy | hy | hy | hy | hy | hy | hy | hy | hy | hy | hy | hy
  · -- whole placeholder: counters must agree
    subst hy
    simp only [List.cons_append] at hpre
    have p1 := cons_pre hpre
    have p2 := cons_pre p1.2
    have p3 := cons_pre p2.2
    have p4 := cons_pre p3.2
    have p5 := cons_pre p4.2
    have p6 := cons_pre p5.2
    have p7 := cons_pre p6.2
    have p8 := cons_pre p7.2
    have e1 : b1 = a1 := by
      have h2 := congrArg Char.toNat p6.1
      rw [digitChar_toNat ha1, digitChar_toNat hb1] at h2
      omega
    have e2 : b2 = a2 := by
      have h2 := congrArg Char.toNat p7.1
      rw [digitChar_toNat ha2, digitChar_toNat hb2] at h2
      omega
    have e3 : b3 = a3 := by
      have h2 := congrArg Char.toNat p8.1
      rw [digitChar_toNat ha3, digitChar_toNat hb3] at h2
      omega
    exact hne ⟨e1, e2, e3⟩
  · subst hy
    simp only [List.cons_append] at hpre
    exact absurd (cons_pre hpre).1 (by decide)
  · subst hy
    simp only [List.cons_append] at hpre
    exact absurd (cons_pre hpre).1 (by decide)
  · subst hy
    simp only [List.cons_append] at hpre
    exact absurd (cons_pre hpre).1 (by decide)
  · -- suffix starting at the second delimiter head
    subst hy
    simp only [List.cons_append] at hpre
    have p1 := cons_pre hpre
    have p2 := cons_pre p1.2
    have h2 := congrArg Char.toNat p2.1
    rw [digitChar_toNat hb1] at h2
    rw [show ('Đ' : Char).toNat = 272 from rfl] at h2
    omega
  · subst hy
    simp only [List.cons_append] at hpre
    have h2 := congrArg Char.toNat (cons_pre hpre).1
    rw [digitChar_toNat hb1] at h2
    rw [show ('Ħ' : Char).toNat = 294 from rfl] at h2
    omega
  · subst hy
    simp only [List.cons_append] at hpre
    have h2 := congrArg Char.toNat (cons_pre hpre).1
    rw [digitChar_toNat hb2] at h2
    rw [show ('Ħ' : Char).toNat = 294 from rfl] at h2
    omega
  · subst hy
    simp only [List.cons_append] at hpre
    have h2 := congrArg Char.toNat (cons_pre hpre).1
    rw [digitChar_toNat hb3] at h2
    rw [show ('Ħ' : Char).toNat = 294 from rfl] at h2
    omega
  · -- suffix `ĦĐŁXĦ`: the pattern would need a digit next
    subst hy
    simp only [List.cons_append, List.nil_append] at hpre
    have p1 := cons_pre hpre
    have p2 := cons_pre p1.2
    have p3 := cons_pre p2.2
    have p4 := cons_pre p3.2
    have p5 := cons_pre p4.2
    rcases hrest with hrest | ⟨h0, t2, hrest, hh1, hh2⟩
    · subst hrest
      exact cons_pre_nil p5.2
    · subst hrest
      have p6 := cons_pre p5.2
      have h2 := congrArg Char.toNat p6.1
      rw [digitChar_toNat ha1] at h2
      exact hh2 ⟨by omega, by omega⟩
  · subst hy
    simp only [List.cons_append] at hpre
    exact absurd (cons_pre hpre).1 (by decide)
  · subst hy
    simp only [List.cons_append] at hpre
    exact absurd (cons_pre hpre).1 (by decide)
  · subst hy
    simp only [List.cons_append] at hpre
    exact absurd (cons_pre hpre).1 (by decide)
  · -- suffix `Ħ`: the pattern would need `Đ` next
    subst hy
    simp only [List.cons_append, List.nil_append] at hpre
    have p1 := cons_pre hpre
    rcases hrest with hrest | ⟨h0, t2, hrest, hh1, hh2⟩
    · subst hrest
      exact cons_pre_nil p1.2
    · subst hrest
      have p2 := cons_pre p1.2
      have h2 := congrArg Char.toNat p2.1
      rw [show ('Đ' : Char).toNat = 272 from rfl] at h2
      exact hh1 h2.symm
  · exact hyne hy
  · simp at hy

theorem noMatch_disp {j n : Nat} (hj : j < 1000) (hn : n < 1000) (hne : ¬n = j)
    {disp : List Char} (hD : disp.map jsUpper = tokenOf n)
    {rest : List Char}
    (hrest : rest = [] ∨ ∃ h0 t2, rest = h0 :: t2 ∧
      (cleanChar h0 = true ∨ jsUpper h0 = 'Ħ')) :
    ∀ x2 ∈ disp.tails, x2 ≠ [] → ciStarts (tokenOf j) (x2 ++ rest) = false := by
  intro x2 hx2 hx2ne
  rcases hb : ciStarts (tokenOf j) (x2 ++ rest) with _ | _
  · rfl
  · exfalso
    have hpre := (ciStarts_iff_map _ _).mp hb
    rw [List.map_append, jnorm_tokenOf] at hpre
    have hy : x2.map jsUpper ∈ (tokenOf n).tails := by
      rw [← hD]
      exact suffix_tails_map jsUpper hx2
    rw [tokenOf_explicit hn] at hy
    rw [tokenOf_explicit hj] at hpre
    have hrest2 : rest.map jsUpper = [] ∨ ∃ h0 t2, rest.map jsUpper = h0 :: t2 ∧
        ¬h0.toNat = 272 ∧ ¬(48 ≤ h0.toNat ∧ h0.toNat ≤ 57) := by
      rcases hrest with hrest | ⟨h0, t2, hrest, hfact⟩
      · subst hrest
        exact Or.inl rfl
      · subst hrest
        refine Or.inr ⟨jsUpper h0, t2.map jsUpper, rfl, ?_, ?_⟩
        · rcases hfact with hfact | hfact
          · exact (clean_jsUpper hfact).2.1
          · rw [hfact]
            intro h2
            rw [show ('Ħ' : Char).toNat = 294 from rfl] at h2
            omega
        · rcases hfact with hfact | hfact
          · exact (clean_jsUpper hfact).2.2
          · rw [hfact]
            intro h2
            rw [show ('Ħ' : Char).toNat = 294 from rfl] at h2
            omega
    exact noMatch_suffix_gen (by omega) (by omega) (by omega) (by omega) (by omega)
      (by omega)
      (fun he => hne (by omega))
      hy
      (fun hmape => hx2ne (List.map_eq_nil.mp hmape))
      hrest2 hpre

/-!
## The restore scan
-/

theorem restoreGoF_cons (tok orig : List Char) (f : Nat) (pre : List Char)
    (c : Char) (cs : List Char) :
    restoreGoF tok orig (f + 1) pre (c :: cs) =
      if ciStarts tok (c :: cs) = true then
        subst ((c :: cs).take tok.length) pre ((c :: cs).drop tok.length) orig ++
          restoreGoF tok orig f (pre ++ (c :: cs).take tok.length) ((c :: cs).drop tok.length)
      else c :: restoreGoF tok orig f (pre ++ [c]) cs := rfl

theorem restoreGoF_congr (tok orig : List Char) (htok : tok ≠ []) :
    ∀ (f1 f2 : Nat) (pre s : List Char), s.length ≤ f1 → s.length ≤ f2 →
      restoreGoF tok orig f1 pre s = restoreGoF tok orig f2 pre s := by
  intro f1
  induction f1 with
  | zero =>
    intro f2 pre s h1 h2
    have hs : s = [] := List.length_eq_zero.mp (Nat.le_zero.mp h1)
    subst hs
    cases f2 with
    | zero => rfl
    | succ f => rfl
  | succ f1 ih =>
    intro f2 pre s h1 h2
    match s with
    | [] =>
      cases f2 with
      | zero => rfl
      | succ f => rfl
    | c :: cs =>
      cases f2 with
      | zero => simp at h2
      | succ f2 =>
        have htl : 1 ≤ tok.length := by
          cases tok with
          | nil => exact absurd rfl htok
          | cons a as => simp
        have h1c : cs.length + 1 ≤ f1 + 1 := by simpa using h1
        have h2c : cs.length + 1 ≤ f2 + 1 := by simpa using h2
        rw [restoreGoF_cons, restoreGoF_cons]
        by_cases hci : ciStarts tok (c :: cs) = true
        · rw [if_pos hci, if_pos hci]
          have hdl1 : ((c :: cs).drop tok.length).length ≤ f1 := by
            rw [List.length_drop]
            simp only [List.length_cons]
            omega
          have hdl2 : ((c :: cs).drop tok.length).length ≤ f2 := by
            rw [List.length_drop]
            simp only [List.length_cons]
            omega
          rw [ih f2 _ _ hdl1 hdl2]
        · rw [if_neg hci, if_neg hci]
          rw [ih f2 _ _ (by omega) (by omega)]

theorem restoreGo_no {tok orig pre : List Char} {c : Char} {cs : List Char}
    (h : ciStarts tok (c :: cs) = false) :
    restoreGo tok orig pre (c :: cs) = c :: restoreGo tok orig (pre ++ [c]) cs := by
  unfold restoreGo
  rw [show (c :: cs).length = cs.length + 1 from rfl, restoreGoF_cons,
    if_neg (by simp [h])]

theorem restoreGo_match {tok orig pre : List Char} {c : Char} {cs : List Char}
    (htok : tok ≠ []) (h : ciStarts tok (c :: cs) = true) :
    restoreGo tok orig pre (c :: cs) =
      subst ((c :: cs).take tok.length) pre ((c :: cs).drop tok.length) orig ++
        restoreGo tok orig (pre ++ (c :: cs).take tok.length) ((c :: cs).drop tok.length) := by
  unfold restoreGo
  rw [show (c :: cs).length = cs.length + 1 from rfl, restoreGoF_cons, if_pos h]
  congr 1
  have htl : 1 ≤ tok.length := by
    cases tok with
    | nil => exact absurd rfl htok
    | cons a as => simp
  apply restoreGoF_congr tok orig htok
  · rw [List.length_drop]
    simp only [List.length_cons]
    omega
  · exact le_rfl

theorem restoreOne_eq {tok orig s : List Char} (htok : tok ≠ []) :
    restoreOne tok orig s = restoreGo tok orig [] s := by
  unfold restoreOne restoreGo
  rw [if_neg]
  intro hiE
  cases tok with
  | nil => exact htok rfl
  | cons a as => simp [List.isEmpty] at hiE

theorem restoreGo_copy (tok orig : List Char) (htok : tok ≠ []) :
    ∀ (x rest pre : List Char),
      (∀ x2 ∈ x.tails, x2 ≠ [] → ciStarts tok (x2 ++ rest) = false) →
      restoreGo tok orig pre (x ++ rest) = x ++ restoreGo tok orig (pre ++ x) rest := by
  intro x
  induction x with
  | nil =>
    intro rest pre _
    simp
  | cons c x2 ih =>
    intro rest pre hno
    have hh : ciStarts tok ((c :: x2) ++ rest) = false :=
      hno (c :: x2) (by rw [List.tails_cons]; exact List.mem_cons_self _ _) (by simp)
    rw [List.cons_append] at hh
    rw [List.cons_append, restoreGo_no hh]
    rw [ih rest (pre ++ [c])
      (fun x3 hx3 hx3ne => hno x3 (by rw [List.tails_cons]; exact List.mem_cons_of_mem _ hx3) hx3ne)]
    simp

theorem subst_cons (m b a : List Char) (c : Char) (r : List Char) :
    subst m b a (c :: r) =
      if c = '$' then
        (match r with
         | [] => ['$']
         | d :: r2 =>
           if d = '$' then '$' :: subst m b a r2
           else if d = '&' then m ++ subst m b a r2
           else if d = Char.ofNat 96 then b ++ subst m b a r2
           else if d = Char.ofNat 39 then a ++ subst m b a r2
           else '$' :: subst m b a (d :: r2))
      else c :: subst m b a r := by
  cases r with
  | nil => rfl
  | cons d r2 => rfl

theorem subst_no_dollar (m b a : List Char) : ∀ (o : List Char), '$' ∉ o →
    subst m b a o = o := by
  intro o
  induction o with
  | nil => intro _; rfl
  | cons c r ih =>
    intro h
    have hc : ¬c = '$' := by
      intro he
      subst he
      exact h (List.mem_cons_self _ _)
    rw [subst_cons, if_neg hc, ih fun hm => h (List.mem_cons_of_mem c hm)]

theorem map_fwColon_id (t : List Char) (h : ∀ c ∈ t, ¬c = fwColon) :
    (t.map fun c => if c = fwColon then ':' else c) = t :=
  map_fix t fun c hc => if_neg (h c hc)

/-!
## One restore stage
-/

theorem flatStage_head {ps : List (List Char × List Char)} (j : Nat) (L : List Item)
    (hOK : ItemsOKFor ps L) (hC : ItemsClean L) :
    flatStage j L = [] ∨ ∃ h0 t2, flatStage j L = h0 :: t2 ∧
      (cleanChar h0 = true ∨ jsUpper h0 = 'Ħ') := by
  cases L with
  | nil => exact Or.inl rfl
  | cons it L2 =>
    cases it with
    | raw c =>
      rw [IC_raw] at hC
      exact Or.inr ⟨c, _, flatStage_raw j c L2, Or.inl hC.1⟩
    | tok n disp o =>
      rw [IOF_tok] at hOK
      rw [IC_tok] at hC
      rw [flatStage_tok]
      by_cases hlt : n < j
      · rw [if_pos hlt]
        match o, hOK.2.2.1 with
        | c :: o2, _ =>
          exact Or.inr ⟨c, _, rfl, Or.inl (hC.1 c (List.mem_cons_self _ _))⟩
      · rw [if_neg hlt]
        obtain ⟨rest, hrest⟩ := tokenOf_head n
        match disp, hOK.1 with
        | [], hD =>
          rw [List.map_nil, hrest] at hD
          exact absurd hD (by simp)
        | d0 :: d2, hD =>
          rw [List.map_cons, hrest] at hD
          injection hD with hD1 hD2
          exact Or.inr ⟨d0, _, rfl, Or.inr hD1⟩

theorem stage_step {ps : List (List Char × List Char)} (hps : ps.length ≤ 1000)
    {j : Nat} {oj : List Char} (hee : ps.get? j = some (tokenOf j, oj)) :
    ∀ (L : List Item) (pre : List Char),
      ItemsOKFor ps L → ItemsClean L →
      restoreGo (tokenOf j) oj pre (flatStage j L) = flatStage (j + 1) L := by
  have hj : j < 1000 := by
    obtain ⟨hlt, _⟩ := List.get?_eq_some.mp hee
    omega
  intro L
  induction L with
  | nil =>
    intro pre _ _
    rfl
  | cons it L2 ih =>
    cases it with
    | raw c =>
      intro pre hOK hC
      rw [IC_raw] at hC
      rw [IOF_raw] at hOK
      rw [flatStage_raw, flatStage_raw]
      rw [restoreGo_no (noStart_clean hC.1 _)]
      rw [ih _ hOK hC.2]
    | tok n disp o =>
      intro pre hOK hC
      rw [IOF_tok] at hOK
      obtain ⟨hD, hent, hone, hOK2⟩ := hOK
      rw [IC_tok] at hC
      obtain ⟨hoclean, hC2⟩ := hC
      have hn : n < 1000 := by
        obtain ⟨hlt, _⟩ := List.get?_eq_some.mp hent
        omega
      rw [flatStage_tok, flatStage_tok]
      rcases Nat.lt_trichotomy n j with hlt | heq | hgt
      · -- already restored: the clean original is copied unchanged
        rw [if_pos hlt, if_pos (by omega)]
        have hcopy : ∀ x2 ∈ o.tails, x2 ≠ [] →
            ciStarts (tokenOf j) (x2 ++ flatStage j L2) = false := by
          intro x2 hx2 hx2ne
          match x2, hx2ne with
          | c :: x3, _ =>
            have hcmem : c ∈ o :=
              ((List.mem_tails _ _).mp hx2).subset (List.mem_cons_self _ _)
            exact noStart_clean (hoclean c hcmem) _
        rw [restoreGo_copy (tokenOf j) oj (tokenOf_ne_nil j) o (flatStage j L2) pre hcopy]
        rw [ih _ hOK2 hC2]
      · -- the entry being restored: replaced by its original
        rw [if_neg (by omega), if_pos (by omega)]
        rw [heq] at hent hD
        have ho : o = oj := by
          have h2 := Option.some.inj (hent.symm.trans hee)
          exact (Prod.ext_iff.mp h2).2
        rw [ho]
        rw [ho] at hoclean
        match disp, hD with
        | [], hD =>
          exact absurd (by simpa using hD.symm) (tokenOf_ne_nil j)
        | d0 :: d2, hD =>
          have hdl : (d0 :: d2).length = (tokenOf j).length := by
            have h2 := congrArg List.length hD
            simpa using h2
          have hci : ciStarts (tokenOf j) (d0 :: (d2 ++ flatStage j L2)) = true := by
            rw [show d0 :: (d2 ++ flatStage j L2) = (d0 :: d2) ++ flatStage j L2 from rfl]
            rw [ciStarts_iff_map, List.map_append, hD, jnorm_tokenOf]
            exact List.prefix_append _ _
          have htake : (d0 :: (d2 ++ flatStage j L2)).take (tokenOf j).length = d0 :: d2 := by
            rw [show d0 :: (d2 ++ flatStage j L2) = (d0 :: d2) ++ flatStage j L2 from rfl,
              ← hdl]
            exact List.take_left _ _
          have hdrop : (d0 :: (d2 ++ flatStage j L2)).drop (tokenOf j).length =
              flatStage j L2 := by
            rw [show d0 :: (d2 ++ flatStage j L2) = (d0 :: d2) ++ flatStage j L2 from rfl,
              ← hdl]
            exact List.drop_left _ _
          rw [List.cons_append, restoreGo_match (tokenOf_ne_nil j) hci, htake, hdrop]
          rw [subst_no_dollar _ _ _ oj (clean_ne_dollar hoclean)]
          rw [ih _ hOK2 hC2]
      · -- a later placeholder: no case-insensitive occurrence anywhere in it
        rw [if_neg (by omega), if_neg (by omega)]
        have hcopy := noMatch_disp hj hn (by omega) hD (flatStage_head j L2 hOK2 hC2)
        rw [restoreGo_copy (tokenOf j) oj (tokenOf_ne_nil j) disp (flatStage j L2) pre hcopy]
        rw [ih _ hOK2 hC2]

theorem flatStage_ge_of_OK {ps : List (List Char × List Char)} {j : Nat}
    (hge : ps.length ≤ j) :
    ∀ (L : List Item), ItemsOKFor ps L → flatStage j L = flatOrig L := by
  intro L
  induction L with
  | nil => intro _; rfl
  | cons it L2 ih =>
    cases it with
    | tok n disp o =>
      intro hOK
      rw [IOF_tok] at hOK
      have hn : n < ps.length := (List.get?_eq_some.mp hOK.2.1).1
      rw [flatStage_tok, if_pos (by omega), flatOrig_tok, ih hOK.2.2.2]
    | raw c =>
      intro hOK
      rw [IOF_raw] at hOK
      rw [flatStage_raw, flatOrig_raw, ih hOK]

theorem restore_fold {ps : List (List Char × List Char)} (hps : ps.length ≤ 1000)
    (hkeys : ∀ i e, ps.get? i = some e → e.1 = tokenOf i) :
    ∀ (es : List (List Char × List Char)) (j : Nat), ps.drop j = es →
      ∀ (L : List Item), ItemsOKFor ps L → ItemsClean L →
      es.foldl (fun acc e => restoreOne e.1 e.2 acc) (flatStage j L) =
        flatStage ps.length L := by
  intro es
  induction es with
  | nil =>
    intro j hdrop L hOK hC
    have hle : ps.length ≤ j := by
      have h2 := congrArg List.length hdrop
      rw [List.length_drop] at h2
      simp at h2
      omega
    simp only [List.foldl_nil]
    rw [flatStage_ge_of_OK hle L hOK, flatStage_ge_of_OK (le_refl ps.length) L hOK]
  | cons e es2 ih =>
    intro j hdrop L hOK hC
    have hej : ps.get? j = some e := by
      have h0 : (ps.drop j).get? 0 = some e := by rw [hdrop]; rfl
      rw [List.get?_drop] at h0
      simpa using h0
    have hkey := hkeys j e hej
    have hee : ps.get? j = some (tokenOf j, e.2) := by
      rw [hej]
      rw [show (tokenOf j, e.2) = e from by rw [← hkey]]
    simp only [List.foldl_cons]
    rw [show restoreOne e.1 e.2 (flatStage j L) =
        restoreGo (tokenOf j) e.2 [] (flatStage j L) from by
      rw [hkey]
      exact restoreOne_eq (tokenOf_ne_nil j)]
    rw [stage_step hps hee L [] hOK hC]
    refine ih (j + 1) ?_ L hOK hC
    have h1 : (ps.drop j).drop 1 = es2 := by rw [hdrop]; rfl
    rw [← h1, List.drop_drop]

/-!
## Locality of the later matchers

A placeholder block starts with a character whose `jsUpper` image is `Ħ`,
which can extend no entity or colon match: a match of a later pass that
starts in a copied-character run is contained in that run.
-/

theorem runPass_lencnt {mAt : List Char → Option (List Char × List Char)}
    (hcons : Consumes mAt) (s : List Char) (p : Preserved)
    (h : p.placeholders.length = p.counter) :
    (runPass mAt s p).2.placeholders.length = (runPass mAt s p).2.counter := by
  obtain ⟨news, h1, h2, _, _⟩ := runPass_record hcons s.length s p le_rfl
  rw [h1, h2, List.length_append, h]

theorem runPass_ph_ext {mAt : List Char → Option (List Char × List Char)}
    (hcons : Consumes mAt) (s : List Char) (p : Preserved) :
    ∀ i e, p.placeholders.get? i = some e →
      (runPass mAt s p).2.placeholders.get? i = some e := by
  obtain ⟨news, h1, _, _, _⟩ := runPass_record hcons s.length s p le_rfl
  intro i e h
  rw [h1, List.get?_append (List.get?_eq_some.mp h).1]
  exact h

theorem flatTok_append (A B : List Item) :
    flatTok (A ++ B) = flatTok A ++ flatTok B := flatStage_append 0 A B

theorem dropWhile_append_stop (q : Char → Bool) {v : List Char}
    (hv : v = [] ∨ ∃ h0 t2, v = h0 :: t2 ∧ q h0 = false) :
    ∀ (u : List Char), (u ++ v).dropWhile q = u.dropWhile q ++ v := by
  intro u
  induction u with
  | nil =>
    rcases hv with hv | ⟨h0, t2, hv, hq⟩
    · subst hv; rfl
    · subst hv
      simp only [List.nil_append, List.dropWhile_nil]
      rw [List.dropWhile_cons_of_neg (by simp [hq])]
  | cons c u2 ih =>
    by_cases hc : q c = true
    · rw [List.cons_append, List.dropWhile_cons_of_pos hc,
        List.dropWhile_cons_of_pos hc, ih]
    · rw [List.cons_append, List.dropWhile_cons_of_neg (by simp [hc]),
        List.dropWhile_cons_of_neg (by simp [hc])]
      rfl

theorem semiLocal (q : Char → Bool) (hqh : q 'Ħ' = false) (hqh2 : q 'ħ' = false)
    {u v r0 : List Char}
    (hv : v = [] ∨ ∃ h0 t2, v = h0 :: t2 ∧ (h0 = 'Ħ' ∨ h0 = 'ħ'))
    (h : semiAfter ((u ++ v).dropWhile q) = some r0) :
    ∃ e w2, u = e ++ w2 ∧ r0 = w2 ++ v := by
  have hv2 : v = [] ∨ ∃ h0 t2, v = h0 :: t2 ∧ q h0 = false := by
    rcases hv with hv | ⟨h0, t2, hv, hh⟩
    · exact Or.inl hv
    · refine Or.inr ⟨h0, t2, hv, ?_⟩
      rcases hh with hh | hh <;> subst hh
      · exact hqh
      · exact hqh2
  rw [dropWhile_append_stop q hv2 u] at h
  rcases hx : u.dropWhile q with _ | ⟨x0, x2⟩
  · rw [hx, List.nil_append] at h
    rcases hv with hv | ⟨h0, t2, hv, hh⟩
    · subst hv
      exact absurd h (by rw [show semiAfter ([] : List Char) = none from rfl]; simp)
    · subst hv
      rw [semiAfter_cons, if_neg (by rcases hh with hh | hh <;> subst hh <;> decide)] at h
      exact absurd h (by simp)
  · rw [hx, List.cons_append, semiAfter_cons] at h
    by_cases hx0 : x0 = ';'
    · rw [if_pos hx0] at h
      have hr : r0 = x2 ++ v := (Option.some.inj h).symm
      refine ⟨u.takeWhile q ++ [x0], x2, ?_, hr⟩
      rw [List.append_assoc, show [x0] ++ x2 = x0 :: x2 from rfl, ← hx]
      exact (List.takeWhile_append_dropWhile q u).symm
    · rw [if_neg hx0] at h
      exact absurd h (by simp)

theorem entEnd_local {u v r0 : List Char}
    (hv : v = [] ∨ ∃ h0 t2, v = h0 :: t2 ∧ (h0 = 'Ħ' ∨ h0 = 'ħ'))
    (h : entEnd (u ++ v) = some r0) :
    ∃ e w2, u = e ++ w2 ∧ r0 = w2 ++ v := by
  match u with
  | [] =>
    rw [List.nil_append] at h
    rcases hv with hv | ⟨h0, t2, hv, hh⟩
    · subst hv
      rw [show entEnd ([] : List Char) = none from rfl] at h
      exact absurd h (by simp)
    · subst hv
      rw [entEnd_eq, if_neg (by rcases hh with hh | hh <;> subst hh <;> decide),
        if_neg (by rcases hh with hh | hh <;> subst hh <;> decide)] at h
      exact absurd h (by simp)
  | c :: u2 =>
    rw [List.cons_append, entEnd_eq] at h
    by_cases hL : isAsciiLetter c = true
    · rw [if_pos hL] at h
      obtain ⟨e2, w2, he, hr⟩ := semiLocal isAlnumC (by decide) (by decide) hv h
      exact ⟨c :: e2, w2, by rw [he]; rfl, hr⟩
    · rw [if_neg hL] at h
      by_cases hH : c = '#'
      · rw [if_pos hH] at h
        match u2 with
        | [] =>
          rw [List.nil_append] at h
          rcases hv with hv | ⟨h0, t2, hv, hh⟩
          · subst hv
            rw [show entNum ([] : List Char) = none from rfl] at h
            exact absurd h (by simp)
          · subst hv
            rw [entNum_cons, if_neg (by rcases hh with hh | hh <;> subst hh <;> decide),
              if_neg (by rcases hh with hh | hh <;> subst hh <;> decide)] at h
            exact absurd h (by simp)
        | d :: u3 =>
          rw [List.cons_append, entNum_cons] at h
          by_cases hd : isAsciiDigit d = true
          · rw [if_pos hd] at h
            obtain ⟨e2, w2, he, hr⟩ := semiLocal isAsciiDigit (by decide) (by decide) hv h
            exact ⟨c :: d :: e2, w2, by rw [he]; rfl, hr⟩
          · rw [if_neg hd] at h
            by_cases hx : d = 'x'
            · rw [if_pos hx] at h
              match u3 with
              | [] =>
                rw [List.nil_append] at h
                rcases hv with hv | ⟨h0, t2, hv, hh⟩
                · subst hv
                  rw [show entHex ([] : List Char) = none from rfl] at h
                  exact absurd h (by simp)
                · subst hv
                  rw [entHex_cons,
                    if_neg (by rcases hh with hh | hh <;> subst hh <;> decide)] at h
                  exact absurd h (by simp)
              | e0 :: u4 =>
                rw [List.cons_append, entHex_cons] at h
                by_cases hhx : isHexDig e0 = true
                · rw [if_pos hhx] at h
                  obtain ⟨e2, w2, he, hr⟩ := semiLocal isHexDig (by decide) (by decide) hv h
                  exact ⟨c :: d :: e0 :: e2, w2, by rw [he]; rfl, hr⟩
                · rw [if_neg hhx] at h
                  exact absurd h (by simp)
            · rw [if_neg hx] at h
              exact absurd h (by simp)
      · rw [if_neg hH] at h
        exact absurd h (by simp)

theorem matchEnt_local {u v m r : List Char}
    (hv : v = [] ∨ ∃ h0 t2, v = h0 :: t2 ∧ (h0 = 'Ħ' ∨ h0 = 'ħ'))
    (h : matchEntAt (u ++ v) = some (m, r)) :
    ∃ w2, u = m ++ w2 ∧ r = w2 ++ v := by
  match u with
  | [] =>
    rw [List.nil_append] at h
    rcases hv with hv | ⟨h0, t2, hv, hh⟩
    · subst hv
      rw [matchEntAt_nil] at h
      exact absurd h (by simp)
    · subst hv
      rw [matchEntAt_head_none (by rcases hh with hh | hh <;> subst hh <;> decide)] at h
      exact absurd h (by simp)
  | c :: u2 =>
    by_cases hc : c = '&'
    · subst hc
      rw [List.cons_append] at h
      simp only [matchEntAt] at h
      rw [if_pos trivial] at h
      rcases he : entEnd (u2 ++ v) with _ | r1
      · rw [he] at h
        exact absurd h (by simp)
      · rw [he] at h
        simp only [Option.map_some'] at h
        have h3 := Option.some.inj h
        injection h3 with hm1 hr1
        obtain ⟨e2, w2, he2, hr2⟩ := entEnd_local hv he
        have htk : ('&' :: (u2 ++ v)).take (('&' :: (u2 ++ v)).length - r1.length) =
            '&' :: e2 := by
          rw [he2, hr2]
          rw [show ('&' :: ((e2 ++ w2) ++ v)) = ('&' :: e2) ++ (w2 ++ v) from by simp]
          rw [show (('&' :: e2) ++ (w2 ++ v)).length - (w2 ++ v).length =
            ('&' :: e2).length from by rw [List.length_append]; omega]
          exact List.take_left _ _
        refine ⟨w2, ?_, ?_⟩
        · rw [← hm1, htk, he2]
          rfl
        · rw [← hr1, hr2]
    · rw [List.cons_append, matchEntAt_head_none hc] at h
      exact absurd h (by simp)

theorem matchColon_local {u v m r : List Char}
    (hv : v = [] ∨ ∃ h0 t2, v = h0 :: t2 ∧ (h0 = 'Ħ' ∨ h0 = 'ħ'))
    (h : matchColonAt (u ++ v) = some (m, r)) :
    ∃ w2, u = m ++ w2 ∧ r = w2 ++ v := by
  match u with
  | [] =>
    rw [List.nil_append] at h
    rcases hv with hv | ⟨h0, t2, hv, hh⟩
    · subst hv
      rw [matchColonAt_nil] at h
      exact absurd h (by simp)
    · subst hv
      simp only [matchColonAt] at h
      rw [if_neg (by rcases hh with hh | hh <;> subst hh <;> decide)] at h
      exact absurd h (by simp)
  | c :: u2 =>
    rw [List.cons_append] at h
    simp only [matchColonAt] at h
    by_cases hc : c = ':'
    · rw [if_pos hc] at h
      subst hc
      have h3 := Option.some.inj h
      injection h3 with hm1 hr1
      refine ⟨u2, ?_, ?_⟩
      · rw [← hm1]
        rfl
      · rw [← hr1]
    · rw [if_neg hc] at h
      exact absurd h (by simp)

theorem amp_dispf (c : Char) (h : tokChar (jsUpper c) = true) : isAmp c = false := by
  by_cases hc : c = '&'
  · subst hc
    exact absurd h (by decide)
  · simp [isAmp, hc]

theorem colon_dispf (c : Char) (h : tokChar (jsUpper c) = true) : isColonC c = false := by
  by_cases hc : c = ':'
  · subst hc
    exact absurd h (by decide)
  · simp [isColonC, hc]

/-!
## Item structure of the three passes

Each pass turns an interleaving into a finer interleaving: placeholder items
persist unchanged, and every record entry (old or new) is represented by a
placeholder item.
-/

theorem get?_concat_cases {α : Type} {l : List α} {a : α} {i : Nat} {e : α}
    (h : (l ++ [a]).get? i = some e) :
    l.get? i = some e ∨ (i = l.length ∧ e = a) := by
  by_cases hi : i < l.length
  · rw [List.get?_append hi] at h
    exact Or.inl h
  · rw [List.get?_append_right (by omega)] at h
    rcases hd : i - l.length with _ | k
    · rw [hd] at h
      simp at h
      exact Or.inr ⟨by omega, h.symm⟩
    · rw [hd] at h
      simp at h

theorem runPass_items_plain {mAt : List Char → Option (List Char × List Char)}
    (hcons : Consumes mAt) :
    ∀ (n : Nat) (s : List Char) (p : Preserved),
      s.length ≤ n → p.placeholders.length = p.counter →
      ∃ M : List Item,
        (runPass mAt s p).1 = flatTok M ∧
        flatOrig M = s ∧
        ItemsOKFor (runPass mAt s p).2.placeholders M ∧
        (∀ i e, (runPass mAt s p).2.placeholders.get? i = some e →
          p.placeholders.get? i = some e ∨ ∃ dd, Item.tok i dd e.2 ∈ M) := by
  intro n
  induction n with
  | zero =>
    intro s p hlen _
    have hs : s = [] := List.length_eq_zero.mp (Nat.le_zero.mp hlen)
    subst hs
    refine ⟨[], by rw [runPass_nil]; rfl, rfl, ?_, ?_⟩
    · rw [runPass_nil]
      trivial
    · rw [runPass_nil]
      exact fun i e he => Or.inl he
  | succ n ih =>
    intro s p hlen hpc
    match s with
    | [] =>
      refine ⟨[], by rw [runPass_nil]; rfl, rfl, ?_, ?_⟩
      · rw [runPass_nil]
        trivial
      · rw [runPass_nil]
        exact fun i e he => Or.inl he
    | c :: cs =>
      rcases hm : mAt (c :: cs) with _ | ⟨m, r⟩
      · obtain ⟨M2, hf, ho, hOK, hcomp⟩ := ih cs p (by simp at hlen; omega) hpc
        refine ⟨Item.raw c :: M2, ?_, ?_, ?_, ?_⟩
        · rw [runPass_cons_none hm]
          show c :: (runPass mAt cs p).1 = flatTok (Item.raw c :: M2)
          rw [flatTok_raw, hf]
        · rw [flatOrig_raw, ho]
        · rw [IOF_raw, runPass_cons_none hm]
          exact hOK
        · rw [runPass_cons_none hm]
          intro i e he
          rcases hcomp i e he with hc2 | ⟨dd, hdd⟩
          · exact Or.inl hc2
          · exact Or.inr ⟨dd, List.mem_cons_of_mem _ hdd⟩
      · have hsr := (hcons _ _ _ hm).1
        have hrlen := length_rest_lt hcons hm
        have hpc2 : (addPh m p).2.placeholders.length = (addPh m p).2.counter := by
          simp [addPh, hpc]
        obtain ⟨M2, hf, ho, hOK, hcomp⟩ :=
          ih r (addPh m p).2 (by simp at hlen; simp at hrlen; omega) hpc2
        refine ⟨Item.tok p.counter (tokenOf p.counter) m :: M2, ?_, ?_, ?_, ?_⟩
        · rw [runPass_cons_match hcons hm]
          show tokenOf p.counter ++ (runPass mAt r (addPh m p).2).1 =
            flatTok (Item.tok p.counter (tokenOf p.counter) m :: M2)
          rw [flatTok_tok, hf]
        · rw [flatOrig_tok, ho, ← hsr]
        · rw [runPass_cons_match hcons hm]
          show ItemsOKFor (runPass mAt r (addPh m p).2).2.placeholders
            (Item.tok p.counter (tokenOf p.counter) m :: M2)
          rw [IOF_tok]
          refine ⟨jnorm_tokenOf _, ?_, (hcons _ _ _ hm).2, hOK⟩
          obtain ⟨news, h1, _, _, _⟩ := runPass_record hcons r.length r (addPh m p).2 le_rfl
          rw [h1, show (addPh m p).2.placeholders =
            p.placeholders ++ [(tokenOf p.counter, m)] from rfl, List.append_assoc]
          rw [List.get?_append_right (by omega)]
          simp [hpc]
        · rw [runPass_cons_match hcons hm]
          intro i e he
          rcases hcomp i e he with hc2 | ⟨dd, hdd⟩
          · rcases get?_concat_cases hc2 with hc3 | ⟨hi, hea⟩
            · exact Or.inl hc3
            · refine Or.inr ⟨tokenOf p.counter, ?_⟩
              rw [show i = p.counter from by omega, hea]
              exact List.mem_cons_self _ _
          · exact Or.inr ⟨dd, List.mem_cons_of_mem _ hdd⟩

theorem passItems {mAt : List Char → Option (List Char × List Char)}
    (hcons : Consumes mAt) (mStart : Char → Bool)
    (hstart : ∀ s m r, mAt s = some (m, r) → ∃ c cs, s = c :: cs ∧ mStart c = true)
    (hdispf : ∀ c, tokChar (jsUpper c) = true → mStart c = false)
    (hlocal : ∀ u v m r,
      (v = [] ∨ ∃ h0 t2, v = h0 :: t2 ∧ (h0 = 'Ħ' ∨ h0 = 'ħ')) →
      mAt (u ++ v) = some (m, r) → ∃ w2, u = m ++ w2 ∧ r = w2 ++ v) :
    ∀ (n : Nat) (M : List Item) (p : Preserved),
      (flatTok M).length ≤ n → p.placeholders.length = p.counter →
      ItemsOKFor p.placeholders M →
      ∃ M2 : List Item,
        (runPass mAt (flatTok M) p).1 = flatTok M2 ∧
        flatOrig M2 = flatOrig M ∧
        ItemsOKFor (runPass mAt (flatTok M) p).2.placeholders M2 ∧
        (∀ n4 dd o4, Item.tok n4 dd o4 ∈ M → Item.tok n4 dd o4 ∈ M2) ∧
        (∀ i e, (runPass mAt (flatTok M) p).2.placeholders.get? i = some e →
          p.placeholders.get? i = some e ∨ ∃ dd, Item.tok i dd e.2 ∈ M2) := by
  intro n
  induction n with
  | zero =>
    intro M p hlen hpc hOK
    have hft : flatTok M = [] := List.length_eq_zero.mp (Nat.le_zero.mp hlen)
    refine ⟨M, ?_, rfl, ?_, fun _ _ _ h => h, ?_⟩
    · rw [hft, runPass_nil]
    · rw [hft, runPass_nil]
      exact hOK
    · rw [hft, runPass_nil]
      exact fun i e he => Or.inl he
  | succ n ih =>
    intro M p hlen hpc hOK
    match M with
    | [] =>
      refine ⟨[], ?_, rfl, ?_, fun _ _ _ h => h, ?_⟩
      · rw [show flatTok ([] : List Item) = [] from rfl, runPass_nil]
      · rw [show flatTok ([] : List Item) = [] from rfl, runPass_nil]
        trivial
      · rw [show flatTok ([] : List Item) = [] from rfl, runPass_nil]
        exact fun i e he => Or.inl he
    | Item.tok n2 disp o :: M3 =>
      rw [IOF_tok] at hOK
      obtain ⟨hD, hent, hone, hOK3⟩ := hOK
      have hdchars : ∀ c ∈ disp, mStart c = false := by
        intro c hc
        apply hdispf
        have hmm : jsUpper c ∈ disp.map jsUpper := List.mem_map_of_mem jsUpper hc
        rw [hD] at hmm
        exact tokenOf_chars _ hmm
      have hdne : disp ≠ [] := by
        intro hdn
        rw [hdn] at hD
        exact tokenOf_ne_nil n2 (by simpa using hD.symm)
      rw [flatTok_tok, runPass_copy_pre mStart hstart disp hdchars (flatTok M3) p]
      have hlen3 : (flatTok M3).length ≤ n := by
        rw [flatTok_tok, List.length_append] at hlen
        have hd1 : 1 ≤ disp.length := by
          match disp, hdne with
          | d :: ds, _ => simp
        omega
      obtain ⟨M2, hf, ho, hOK2, hpers, hcomp⟩ := ih M3 p hlen3 hpc hOK3
      refine ⟨Item.tok n2 disp o :: M2, ?_, ?_, ?_, ?_, ?_⟩
      · show disp ++ (runPass mAt (flatTok M3) p).1 =
          flatTok (Item.tok n2 disp o :: M2)
        rw [flatTok_tok, hf]
      · rw [flatOrig_tok, flatOrig_tok, ho]
      · show ItemsOKFor (runPass mAt (flatTok M3) p).2.placeholders
          (Item.tok n2 disp o :: M2)
        rw [IOF_tok]
        exact ⟨hD, runPass_ph_ext hcons (flatTok M3) p n2 _ hent, hone, hOK2⟩
      · intro n4 dd o4 hmem
        rcases List.mem_cons.mp hmem with hmem | hmem
        · rw [hmem]
          exact List.mem_cons_self _ _
        · exact List.mem_cons_of_mem _ (hpers _ _ _ hmem)
      · intro i e he
        rcases hcomp i e he with hc2 | ⟨dd, hdd⟩
        · exact Or.inl hc2
        · exact Or.inr ⟨dd, List.mem_cons_of_mem _ hdd⟩
    | Item.raw c :: M3 =>
      rw [IOF_raw] at hOK
      rw [flatTok_raw]
      rcases hm : mAt (c :: flatTok M3) with _ | ⟨m, r⟩
      · rw [runPass_cons_none hm]
        have hlen3 : (flatTok M3).length ≤ n := by
          rw [flatTok_raw] at hlen
          simp at hlen
          omega
        obtain ⟨M2, hf, ho, hOK2, hpers, hcomp⟩ := ih M3 p hlen3 hpc hOK
        refine ⟨Item.raw c :: M2, ?_, ?_, ?_, ?_, ?_⟩
        · show c :: (runPass mAt (flatTok M3) p).1 = flatTok (Item.raw c :: M2)
          rw [flatTok_raw, hf]
        · rw [flatOrig_raw, flatOrig_raw, ho]
        · show ItemsOKFor (runPass mAt (flatTok M3) p).2.placeholders (Item.raw c :: M2)
          rw [IOF_raw]
          exact hOK2
        · intro n4 dd o4 hmem
          rcases List.mem_cons.mp hmem with hmem | hmem
          · exact absurd hmem (by simp)
          · exact List.mem_cons_of_mem _ (hpers _ _ _ hmem)
        · intro i e he
          rcases hcomp i e he with hc2 | ⟨dd, hdd⟩
          · exact Or.inl hc2
          · exact Or.inr ⟨dd, List.mem_cons_of_mem _ hdd⟩
      · -- a match starting the raw run: it is contained in the run
        have hsplit : c :: flatTok M3 =
            rawTake (Item.raw c :: M3) ++ flatTok (rawDrop (Item.raw c :: M3)) := by
          rw [← flatTok_raw]
          exact flatTok_rawSplit _
        have hv : flatTok (rawDrop (Item.raw c :: M3)) = [] ∨
            ∃ h0 t2, flatTok (rawDrop (Item.raw c :: M3)) = h0 :: t2 ∧
              (h0 = 'Ħ' ∨ h0 = 'ħ') := by
          rcases rawDrop_shape (Item.raw c :: M3) with hsh | ⟨n4, disp4, o4, L4, hsh⟩
          · rw [hsh]
            exact Or.inl rfl
          · have hOK4 : ItemsOKFor p.placeholders (rawDrop (Item.raw c :: M3)) := by
              rw [show rawDrop (Item.raw c :: M3) = rawDrop M3 from rfl]
              exact IOF_rawDrop hOK
            rw [hsh, IOF_tok] at hOK4
            obtain ⟨hD4, _, _, _⟩ := hOK4
            obtain ⟨rest4, hrest4⟩ := tokenOf_head n4
            rw [hsh, flatTok_tok]
            match disp4, hD4 with
            | [], hD4 =>
              rw [List.map_nil, hrest4] at hD4
              exact absurd hD4 (by simp)
            | d0 :: d5, hD4 =>
              rw [List.map_cons, hrest4] at hD4
              injection hD4 with hD41 hD42
              exact Or.inr ⟨d0, _, rfl, jsUpper_hbar_inv hD41⟩
        have hm2 : mAt (rawTake (Item.raw c :: M3) ++
            flatTok (rawDrop (Item.raw c :: M3))) = some (m, r) := by
          rw [← hsplit]
          exact hm
        obtain ⟨w2, hu, hr⟩ := hlocal _ _ _ _ hv hm2
        have hrflat : r = flatTok (rawItems w2 ++ rawDrop (Item.raw c :: M3)) := by
          rw [hr, flatTok_append, show flatTok (rawItems w2) = w2 from flatStage_rawItems 0 w2]
        have hrlen := length_rest_lt hcons hm
        have hlenr : (flatTok (rawItems w2 ++ rawDrop (Item.raw c :: M3))).length ≤ n := by
          rw [← hrflat]
          rw [flatTok_raw] at hlen
          simp at hlen
          simp at hrlen
          omega
        have hpc2 : (addPh m p).2.placeholders.length = (addPh m p).2.counter := by
          simp [addPh, hpc]
        have hOKnext : ItemsOKFor (addPh m p).2.placeholders
            (rawItems w2 ++ rawDrop (Item.raw c :: M3)) := by
          rw [IOF_append]
          constructor
          · exact IOF_rawItems _ _
          · have hext : ∀ i e, p.placeholders.get? i = some e →
                (addPh m p).2.placeholders.get? i = some e := by
              intro i e he
              rw [show (addPh m p).2.placeholders =
                p.placeholders ++ [(tokenOf p.counter, m)] from rfl]
              rw [List.get?_append (List.get?_eq_some.mp he).1]
              exact he
            have hbase : ItemsOKFor p.placeholders (rawDrop (Item.raw c :: M3)) := by
              rw [show rawDrop (Item.raw c :: M3) = rawDrop M3 from rfl]
              exact IOF_rawDrop hOK
            exact IOF_mono hext _ hbase
        obtain ⟨M2, hf, ho, hOK2, hpers, hcomp⟩ := ih _ (addPh m p).2 hlenr hpc2 hOKnext
        refine ⟨Item.tok p.counter (tokenOf p.counter) m :: M2, ?_, ?_, ?_, ?_, ?_⟩
        · rw [runPass_cons_match hcons hm]
          show tokenOf p.counter ++ (runPass mAt r (addPh m p).2).1 =
            flatTok (Item.tok p.counter (tokenOf p.counter) m :: M2)
          rw [flatTok_tok, hrflat, hf]
        · rw [flatOrig_tok, ho, flatOrig_append, flatOrig_rawItems]
          rw [← List.append_assoc, ← hu]
          rw [show rawTake (Item.raw c :: M3) ++ flatOrig (rawDrop (Item.raw c :: M3)) =
            flatOrig (Item.raw c :: M3) from (flatOrig_rawSplit _).symm]
        · rw [runPass_cons_match hcons hm]
          show ItemsOKFor (runPass mAt r (addPh m p).2).2.placeholders
            (Item.tok p.counter (tokenOf p.counter) m :: M2)
          rw [IOF_tok]
          refine ⟨jnorm_tokenOf _, ?_, (hcons _ _ _ hm).2, ?_⟩
          · obtain ⟨news, h1, _, _, _⟩ :=
              runPass_record hcons r.length r (addPh m p).2 le_rfl
            rw [h1, show (addPh m p).2.placeholders =
              p.placeholders ++ [(tokenOf p.counter, m)] from rfl, List.append_assoc]
            rw [List.get?_append_right (by omega)]
            simp [hpc]
          · rw [hrflat]
            exact hOK2
        · intro n4 dd o4 hmem
          rcases List.mem_cons.mp hmem with hmem | hmem
          · exact absurd hmem (by simp)
          · refine List.mem_cons_of_mem _ (hpers _ _ _ ?_)
            refine List.mem_append_right _ ?_
            rw [show rawDrop (Item.raw c :: M3) = rawDrop M3 from rfl]
            exact tok_mem_rawDrop hmem
        · rw [runPass_cons_match hcons hm]
          intro i e he
          rw [hrflat] at he
          rcases hcomp i e he with hc2 | ⟨dd, hdd⟩
          · rcases get?_concat_cases hc2 with hc3 | ⟨hi, hea⟩
            · exact Or.inl hc3
            · refine Or.inr ⟨tokenOf p.counter, ?_⟩
              rw [show i = p.counter from by omega, hea]
              exact List.mem_cons_self _ _
          · exact Or.inr ⟨dd, List.mem_cons_of_mem _ hdd⟩

theorem preserve_lencnt (t : List Char) :
    (preserveHtmlContent t).2.placeholders.length = (preserveHtmlContent t).2.counter := by
  have h1 := runPass_lencnt consumes_tag t emptyPreserved rfl
  have h2 := runPass_lencnt consumes_ent (runPass matchTagAt t emptyPreserved).1
    (runPass matchTagAt t emptyPreserved).2 h1
  exact runPass_lencnt consumes_colon _ _ h2

theorem preserve_items (t : List Char) :
    ∃ L : List Item,
      (preserveHtmlContent t).1 = flatTok L ∧
      flatOrig L = t ∧
      ItemsOKFor (preserveHtmlContent t).2.placeholders L ∧
      (∀ i e, (preserveHtmlContent t).2.placeholders.get? i = some e →
        ∃ dd, Item.tok i dd e.2 ∈ L) := by
  obtain ⟨L1, hf1, ho1, hOK1, hcomp1⟩ :=
    runPass_items_plain consumes_tag t.length t emptyPreserved le_rfl rfl
  have hlc1 := runPass_lencnt consumes_tag t emptyPreserved rfl
  have hfacts2 := passItems consumes_ent isAmp
    (fun s m r h => by
      obtain ⟨cs, hcs, ha⟩ := matchEnt_start h
      exact ⟨'&', cs, hcs, ha⟩)
    amp_dispf
    (fun u v m r hv h => matchEnt_local hv h)
    (flatTok L1).length L1 (runPass matchTagAt t emptyPreserved).2 le_rfl hlc1 hOK1
  rw [← hf1] at hfacts2
  obtain ⟨L12, hf2, ho2, hOK2, hpers2, hcomp2⟩ := hfacts2
  have hlc2 := runPass_lencnt consumes_ent (runPass matchTagAt t emptyPreserved).1
    (runPass matchTagAt t emptyPreserved).2 hlc1
  have hfacts3 := passItems consumes_colon isColonC
    (fun s m r h => by
      obtain ⟨cs, hcs, ha⟩ := matchColon_start h
      exact ⟨':', cs, hcs, ha⟩)
    colon_dispf
    (fun u v m r hv h => matchColon_local hv h)
    (flatTok L12).length L12
    (runPass matchEntAt (runPass matchTagAt t emptyPreserved).1
      (runPass matchTagAt t emptyPreserved).2).2 le_rfl hlc2 hOK2
  rw [← hf2] at hfacts3
  obtain ⟨L, hf3, ho3, hOK3, hpers3, hcomp3⟩ := hfacts3
  refine ⟨L, hf3, by rw [ho3, ho2, ho1], hOK3, ?_⟩
  intro i e he
  rcases hcomp3 i e he with hc2 | ⟨dd, hdd⟩
  · rcases hcomp2 i e hc2 with hc3 | ⟨dd, hdd⟩
    · rcases hcomp1 i e hc3 with hc4 | ⟨dd, hdd⟩
      · exact absurd hc4 (by rw [show emptyPreserved.placeholders =
          ([] : List (List Char × List Char)) from rfl]; simp)
      · exact ⟨dd, hpers3 _ _ _ (hpers2 _ _ _ hdd)⟩
    · exact ⟨dd, hpers3 _ _ _ hdd⟩
  · exact ⟨dd, hdd⟩

/-!
## Claim C1: round trip under the identity transform

The round trip fails in general: the stored original is used as a JavaScript
replacement string, in which a dollar followed by an ampersand re-inserts the
matched placeholder; digits adjacent to a placeholder change which token the
restore loop sees; a full-width colon is unconditionally rewritten; and
delimiter letters in the input can collide with minted placeholders.  The
round trip does hold for texts avoiding the placeholder alphabet (the six
letters with codes 294, 295, 272, 273, 321, 322), ASCII digits, the dollar
sign and the full-width colon, as long as at most 1000 placeholders are
minted.
-/

/-- Counterexample to claim C1 as stated: the input text "<a $&>" is one
tag-pattern match, and decoding the untouched encoded text does not return
it, because the dollar-ampersand pair in the stored original re-inserts the
matched placeholder during replacement. -/
theorem claimC1_counterexample :
    ¬restoreHtmlContent (preserveHtmlContent (str "<a $&>")).1
        (preserveHtmlContent (str "<a $&>")).2 = str "<a $&>" := by decide

/-- Claim C1 (amended): for every input text avoiding the placeholder letters
(codes 294, 295, 272, 273, 321, 322), ASCII digits, the dollar sign and the
full-width colon, and for which encode mints at most 1000 placeholders,
decoding the untouched encoded text with the produced record restores the
input exactly. -/
theorem claimC1_round_trip (t : List Char)
    (hclean : ∀ c ∈ t, cleanChar c = true)
    (hK : (preserveHtmlContent t).2.counter ≤ 1000) :
    restoreHtmlContent (preserveHtmlContent t).1 (preserveHtmlContent t).2 = t := by
  obtain ⟨L, hflat, horig, hOK, h5⟩ := preserve_items t
  have hps : (preserveHtmlContent t).2.placeholders.length ≤ 1000 := by
    rw [preserve_lencnt]
    exact hK
  obtain ⟨n1, n2, n3, hph, hct, hkeys0, h14, h15, h16, h17⟩ := preserve_record t
  have hkeys : ∀ i e, (preserveHtmlContent t).2.placeholders.get? i = some e →
      e.1 = tokenOf i := by
    intro i e he
    apply hkeys0
    rw [← hph]
    exact he
  have hC : ItemsClean L := IC_of_flatOrig L (by rw [horig]; exact hclean)
  have hfold := restore_fold hps hkeys (preserveHtmlContent t).2.placeholders 0 rfl
    L hOK hC
  show ((preserveHtmlContent t).2.placeholders.foldl
      (fun acc e => restoreOne e.1 e.2 acc) (preserveHtmlContent t).1).map
      (fun c => if c = fwColon then ':' else c) = t
  rw [hflat, show flatTok L = flatStage 0 L from rfl, hfold,
    flatStage_ge_of_OK (le_refl _) L hOK, horig]
  exact map_fwColon_id t fun c hc => clean_ne_fwColon (hclean c hc)

/-- Concrete instance of the amended round trip: a text with a tag, an
entity and a colon. -/
theorem claimC1_round_trip_witness :
    ((∀ c ∈ str "<b>A</b>: &amp; c", cleanChar c = true) ∧
        (preserveHtmlContent (str "<b>A</b>: &amp; c")).2.counter ≤ 1000) ∧
      restoreHtmlContent (preserveHtmlContent (str "<b>A</b>: &amp; c")).1
        (preserveHtmlContent (str "<b>A</b>: &amp; c")).2 =
        str "<b>A</b>: &amp; c" :=
  ⟨⟨by decide, by decide⟩,
    claimC1_round_trip (str "<b>A</b>: &amp; c") (by decide) (by decide)⟩

/-!
## Claim C7: case-insensitive restore
-/

/-- Claim C7: if the transform rewrites a minted token to an arbitrary
letter-casing variant, decode still replaces the occurrence with the correct
original fragment.  Stated for an occurrence surrounded by text avoiding the
placeholder letters, digits, the dollar sign and the full-width colon (so
that the surroundings neither merge with the token nor get rewritten), for an
input text avoiding the same characters, and for a record of at most 1000
entries. -/
theorem claimC7_ci_restore (t u v tv o : List Char) (i : Nat)
    (hclean : ∀ c ∈ t, cleanChar c = true)
    (hK : (preserveHtmlContent t).2.counter ≤ 1000)
    (hentry : (preserveHtmlContent t).2.placeholders.get? i = some (tokenOf i, o))
    (htv : ciEqL tv (tokenOf i) = true)
    (hu : ∀ c ∈ u, cleanChar c = true)
    (hv : ∀ c ∈ v, cleanChar c = true) :
    restoreHtmlContent (u ++ tv ++ v) (preserveHtmlContent t).2 = u ++ o ++ v := by
  obtain ⟨L, hflat, horig, hOK, hcomp⟩ := preserve_items t
  have hps : (preserveHtmlContent t).2.placeholders.length ≤ 1000 := by
    rw [preserve_lencnt]
    exact hK
  obtain ⟨n1, n2, n3, hph, hct, hkeys0, h14, h15, h16, h17⟩ := preserve_record t
  have hkeys : ∀ j e, (preserveHtmlContent t).2.placeholders.get? j = some e →
      e.1 = tokenOf j := by
    intro j e he
    apply hkeys0
    rw [← hph]
    exact he
  obtain ⟨dd, hdd⟩ := hcomp i (tokenOf i, o) hentry
  have hdd2 : Item.tok i dd o ∈ L := hdd
  have hone : o ≠ [] := (IOF_tok_mem hOK hdd2).2.2
  have hCL : ItemsClean L := IC_of_flatOrig L (by rw [horig]; exact hclean)
  have hoclean : ∀ c ∈ o, cleanChar c = true := IC_tok_mem hCL hdd2
  have htvmap : tv.map jsUpper = tokenOf i := by
    rw [ciEqL_iff_map.mp htv, jnorm_tokenOf]
  have hOKt : ItemsOKFor (preserveHtmlContent t).2.placeholders
      (rawItems u ++ Item.tok i tv o :: rawItems v) := by
    rw [IOF_append]
    refine ⟨IOF_rawItems _ _, ?_⟩
    rw [IOF_tok]
    exact ⟨htvmap, hentry, hone, IOF_rawItems _ _⟩
  have horigt : flatOrig (rawItems u ++ Item.tok i tv o :: rawItems v) =
      u ++ (o ++ v) := by
    rw [flatOrig_append, flatOrig_rawItems, flatOrig_tok, flatOrig_rawItems]
  have hCt : ItemsClean (rawItems u ++ Item.tok i tv o :: rawItems v) := by
    apply IC_of_flatOrig
    rw [horigt]
    intro c hc
    rcases List.mem_append.mp hc with hc | hc
    · exact hu c hc
    · rcases List.mem_append.mp hc with hc | hc
      · exact hoclean c hc
      · exact hv c hc
  have hflatt : flatStage 0 (rawItems u ++ Item.tok i tv o :: rawItems v) =
      u ++ tv ++ v := by
    rw [flatStage_append, flatStage_rawItems,
      show flatStage 0 (Item.tok i tv o :: rawItems v) =
          tv ++ flatStage 0 (rawItems v) from flatTok_tok i tv o (rawItems v),
      flatStage_rawItems, List.append_assoc]
  have hfold := restore_fold hps hkeys (preserveHtmlContent t).2.placeholders 0 rfl
    (rawItems u ++ Item.tok i tv o :: rawItems v) hOKt hCt
  have hall : ∀ c ∈ u ++ (o ++ v), ¬c = fwColon := by
    intro c hc
    rcases List.mem_append.mp hc with hc | hc
    · exact clean_ne_fwColon (hu c hc)
    · rcases List.mem_append.mp hc with hc | hc
      · exact clean_ne_fwColon (hoclean c hc)
      · exact clean_ne_fwColon (hv c hc)
  show ((preserveHtmlContent t).2.placeholders.foldl
      (fun acc e => restoreOne e.1 e.2 acc) (u ++ tv ++ v)).map
      (fun c => if c = fwColon then ':' else c) = u ++ o ++ v
  rw [← hflatt, hfold, flatStage_ge_of_OK (le_refl _) _ hOKt, horigt,
    map_fwColon_id _ hall, List.append_assoc]

/-- Concrete instance of claim C7: the token for the tag "<b>" mutated to all
lowercase inside surrounding text is restored to the tag. -/
theorem claimC7_ci_restore_witness :
    ((∀ c ∈ str "<b>", cleanChar c = true) ∧
        (preserveHtmlContent (str "<b>")).2.counter ≤ 1000 ∧
        (preserveHtmlContent (str "<b>")).2.placeholders.get? 0 =
          some (tokenOf 0, str "<b>") ∧
        ciEqL (str "ħđłxħ000ħđłxħ") (tokenOf 0) = true ∧
        (∀ c ∈ str "a ", cleanChar c = true) ∧
        (∀ c ∈ str " b", cleanChar c = true)) ∧
      restoreHtmlContent (str "a " ++ str "ħđłxħ000ħđłxħ" ++ str " b")
        (preserveHtmlContent (str "<b>")).2 = str "a " ++ str "<b>" ++ str " b" :=
  ⟨⟨by decide, by decide, by decide, by decide, by decide, by decide⟩,
    claimC7_ci_restore (str "<b>") (str "a ") (str " b")
      (str "ħđłxħ000ħđłxħ") (str "<b>") 0 (by decide) (by decide) (by decide)
      (by decide) (by decide) (by decide)⟩

end HtmlUtils
